import Mathlib

/-!
A shallow embedding of the `htmlcrunch` HTML parser and serializer
(`src/parser.ts`) together with proofs about the claims of its
specification.

Modelling conventions:

* Input strings are handled as `List Char`; positions are character offsets
  from the start of the invocation's input (monarch reports byte positions,
  but no claim depends on the unit).
* A parser returns `Except PFail (value × remaining × position)`, mirroring
  monarch's `Failure{message, position}` / `Success{value, remaining,
  position}` with first-success alternation and greedy `many`.
* The module-level mutable `foreignStack` of `parser.ts` is threaded
  explicitly: stateful parsers take and return a `Stack`.  A failing branch
  does not roll the stack back, exactly like the JavaScript global.
  The JavaScript array's push/pop at the end is modelled with the list head
  as the top of the stack.
* JavaScript `undefined` children (start tags of void/self-closing elements
  never receive a `children` array) are modelled as `[]`: the serializer
  treats `undefined` and `[]` identically (both produce no content), no
  guard inspects `children`, and parsed nodes never carry a non-empty
  children list together with `selfClosing`.
* Case-insensitive matching (`i` regex flag) and `toLowerCase` are modelled
  on ASCII letters.  Tag names that reach case-insensitive comparisons are
  matched by `[a-z][a-z0-9]*/i` or the custom-element production, so this
  agrees with JavaScript on everything the parser compares.
* Recursion is fuel-indexed and structural, so every definition evaluates
  by kernel reduction.  Entry points pass `input.length + 1` fuel, which is
  an upper bound on element nesting depth (every element consumes at least
  one character before recursing).
-/

namespace HtmlCrunch

/-- The stack of foreign namespaces (`foreignStack` in `parser.ts`); the head
of the list is the most recently pushed entry. -/
abbrev Stack := List String

/-- The six kinds of HTML elements (`ElementKind` in `parser.ts`). -/
inductive ElementKind where
  | VOID
  | TEMPLATE
  | RAW_TEXT
  | ESCAPABLE_RAW_TEXT
  | FOREIGN
  | NORMAL
deriving DecidableEq, Repr

/-- The node type (`MNode` in `parser.ts`): comment, text and CDATA nodes
carry their text; element nodes carry tag name, kind, ordered attribute
list, children and the self-closing flag.  The upward `parent` link of the
source is an unmodelled back-reference (it carries no information beyond
the tree shape). -/
inductive MNode where
  | text (text : String)
  | comment (text : String)
  | cdata (text : String)
  | element (tagName : String) (kind : ElementKind)
      (attributes : List (String × String)) (children : List MNode)
      (selfClosing : Bool)

/-- A fragment is a list of nodes (`MFragment` in `parser.ts`). -/
abbrev MFragment := List MNode

/-- Helper to create text nodes (`textNode` in `parser.ts`). -/
def textNode (text : String) : MNode := .text text

/-- Helper to create comment nodes (`commentNode` in `parser.ts`). -/
def commentNode (text : String) : MNode := .comment text

/-- A parse failure: message and position, as monarch's `Failure`. -/
structure PFail where
  msg : String
  pos : Nat
deriving DecidableEq, Repr

/-- Result of a parser: either a failure or value, remaining input and new
position. -/
abbrev PRes (α : Type) := Except PFail (α × List Char × Nat)

/-- The single-quote character, written by code so that the end-tag error
message matches the source exactly. -/
def sq : String := String.mk [Char.ofNat 39]

/-- `String.includes` of one character (membership in the character list;
extensionally `String.contains`, defined over the data list so that it
evaluates by kernel reduction). -/
def strHasChar (s : String) (c : Char) : Bool := s.data.contains c

/-- `Array.join(" ")`: the strings interleaved with single spaces. -/
def joinSpaceSep : List String → String
  | [] => ""
  | [s] => s
  | s :: rest => s ++ " " ++ joinSpaceSep rest

/-! ### Character classes -/

/-- JavaScript's `\s` class (the one used by monarch's `whitespaces`):
ASCII whitespace, NBSP, the Unicode space separators, line/paragraph
separators and the BOM. -/
def isJsWs (c : Char) : Bool :=
  c = ' ' || c = '\t' || c = '\n' || c.val = 11 || c.val = 12 || c = '\r' ||
  c.val = 0xa0 || c.val = 0x1680 || (0x2000 ≤ c.val && c.val ≤ 0x200a) ||
  c.val = 0x2028 || c.val = 0x2029 || c.val = 0x202f || c.val = 0x205f ||
  c.val = 0x3000 || c.val = 0xfeff

/-- Unicode noncharacter code points (`\p{Noncharacter_Code_Point}`). -/
def isNonChar (c : Char) : Bool :=
  (0xfdd0 ≤ c.val && c.val ≤ 0xfdef) ||
  c.val % 0x10000 = 0xfffe || c.val % 0x10000 = 0xffff

/-- Characters allowed in an attribute name: everything except C1 controls
and DEL, whitespace, quotes, `>`, `/`, `=` and noncharacters
(the regex at `parser.ts:292`). -/
def isAttrNameChar (c : Char) : Bool :=
  !(0x7f ≤ c.val && c.val ≤ 0x9f) && !isJsWs c &&
  c ≠ '"' && c.val ≠ 39 && c ≠ '>' && c ≠ '/' && c ≠ '=' && !isNonChar c

/-- Characters allowed in an unquoted attribute value
(the regex at `parser.ts:301`); 96 is the backquote. -/
def isUnquotedValueChar (c : Char) : Bool :=
  !isJsWs c && c ≠ '=' && c.val ≠ 39 && c ≠ '"' && c ≠ '<' && c ≠ '>' &&
  c.val ≠ 96

/-- ASCII letters. -/
def isAsciiLetter (c : Char) : Bool :=
  ('a' ≤ c && c ≤ 'z') || ('A' ≤ c && c ≤ 'Z')

/-- ASCII letters and digits (the tail of an HTML tag name). -/
def isAsciiAlnum (c : Char) : Bool := isAsciiLetter c || ('0' ≤ c && c ≤ '9')

/-- The `PCENChar` production for custom element names (`parser.ts:330`),
with upper-case ASCII added by the regex's `i` flag. -/
def isPcenChar (c : Char) : Bool :=
  let v := c.val
  c = '-' || c = '.' || c = '_' || ('0' ≤ c && c ≤ '9') ||
  ('a' ≤ c && c ≤ 'z') || ('A' ≤ c && c ≤ 'Z') || v = 0xb7 ||
  (0xc0 ≤ v && v ≤ 0xd6) || (0xd8 ≤ v && v ≤ 0xf6) ||
  (0xf8 ≤ v && v ≤ 0x37d) || (0x37f ≤ v && v ≤ 0x1fff) ||
  (0x200c ≤ v && v ≤ 0x200d) || (0x203f ≤ v && v ≤ 0x2040) ||
  (0x2070 ≤ v && v ≤ 0x218f) || (0x2c00 ≤ v && v ≤ 0x2fef) ||
  (0x3001 ≤ v && v ≤ 0xd7ff) || (0xf900 ≤ v && v ≤ 0xfdcf) ||
  (0xfdf0 ≤ v && v ≤ 0xfffd) || (0x10000 ≤ v && v ≤ 0xeffff)

/-- Case-insensitive prefix test (ASCII folding), modelling the `i` flag on
the regexes that embed a tag name. -/
def isPrefixCI : List Char → List Char → Bool
  | [], _ => true
  | _ :: _, [] => false
  | p :: ps, c :: cs => p.toLower = c.toLower && isPrefixCI ps cs

/-! ### Static tables from `parser.ts` -/

/-- The void elements (`parser.ts:1060`). -/
def voidElements : List String :=
  ["area", "base", "br", "col", "embed", "hr", "img", "input", "link",
   "meta", "source", "track", "wbr"]

/-- The raw text elements (`parser.ts:1079`). -/
def rawTextElements : List String := ["script", "style"]

/-- The escapable raw text elements (`parser.ts:1084`). -/
def escapableRawTextElements : List String := ["textarea", "title"]

/-- The HTML boolean attributes (`parser.ts:1089`). -/
def booleanAttributes : List String :=
  ["allowfullscreen", "async", "autofocus", "autoplay", "checked",
   "controls", "default", "defer", "disabled", "formnovalidate", "hidden",
   "inert", "ismap", "itemscope", "loop", "multiple", "muted", "nomodule",
   "novalidate", "open", "readonly", "required", "reversed", "selected"]

/-- The forbidden custom element names (`parser.ts:316`). -/
def forbiddenCustomElementNames : List String :=
  ["annotation-xml", "color-profile", "font-face", "font-face-src",
   "font-face-uri", "font-face-format", "font-face-name", "missing-glyph"]

/-- One row of the end-tag-omission table: start tags that implicitly close
the element (`open` in the source), end tags that implicitly close it
(`closed` in the source), and whether the element closes at end of input
(the source stores the regex `$` for this). -/
structure OmissionEntry where
  openTags : List String
  closedTags : List String
  closeAtEnd : Bool

/-- The end-tag-omission table (`endTagOmission` in `parser.ts:964`). -/
def endTagOmission (tag : String) : Option OmissionEntry :=
  match tag with
  | "body" => some ⟨[], ["html"], true⟩
  | "caption" =>
    some ⟨["colgroup", "col", "thead", "tbody", "tfoot", "tr", "th", "td"],
      [], false⟩
  | "colgroup" => some ⟨["thead", "tbody", "tfoot", "tr"], [], false⟩
  | "head" => some ⟨["body"], [], false⟩
  | "html" => some ⟨[], [], true⟩
  | "li" => some ⟨["li"], ["ul", "ol", "menu"], false⟩
  | "dd" => some ⟨["dd", "dt"], ["dl", "div"], false⟩
  | "dt" => some ⟨["dd", "dt"], [], false⟩
  | "option" =>
    some ⟨["option", "optgroup", "hr"], ["select", "datalist", "optgroup"],
      false⟩
  | "optgroup" => some ⟨["optgroup", "hr"], ["select"], false⟩
  | "p" =>
    some ⟨["address", "article", "aside", "blockquote", "div", "dl",
      "fieldset", "figcaption", "figure", "footer", "form", "h1", "h2",
      "h3", "h4", "h5", "h6", "header", "hgroup", "hr", "main", "menu",
      "nav", "ol", "p", "pre", "section", "table", "ul"],
      ["address", "article", "aside", "body", "blockquote", "caption",
      "details", "dialog", "div", "dd", "dt", "fieldset", "figure",
      "figcaption", "footer", "form", "header", "hgroup", "li", "main",
      "nav", "object", "search", "section", "td", "th", "template"],
      false⟩
  | "rt" => some ⟨["rt", "rp"], ["ruby"], false⟩
  | "rp" => some ⟨["rt", "rp"], ["ruby"], false⟩
  | "thead" => some ⟨["tbody", "tfoot"], [], false⟩
  | "tbody" => some ⟨["tbody", "tfoot"], ["table"], false⟩
  | "tfoot" => some ⟨[], ["table"], false⟩
  | "td" => some ⟨["td", "th", "tr"], ["tr", "table"], false⟩
  | "th" => some ⟨["td", "th", "tbody"], ["tr", "thead"], false⟩
  | "tr" => some ⟨["tr", "tbody"], ["table", "thead"], false⟩
  | _ => none

/-- Maps a tag name to its element kind, pushing `svg`/`math` onto the
foreign stack (`elementKind` in `parser.ts:849`). -/
def elementKind (tag : String) (st : Stack) : ElementKind × Stack :=
  if tag = "template" then (.TEMPLATE, st)
  else if voidElements.contains tag then (.VOID, st)
  else if rawTextElements.contains tag then (.RAW_TEXT, st)
  else if escapableRawTextElements.contains tag then (.ESCAPABLE_RAW_TEXT, st)
  else if tag = "svg" || tag = "math" then (.FOREIGN, tag :: st)
  else if !st.isEmpty then (.FOREIGN, st)
  else (.NORMAL, st)

/-! ### Lexical parsers -/

/-- Parses HTML text, the regex `[^<]+` (`text` in `parser.ts:265`). -/
def textP (l : List Char) (pos : Nat) : PRes MNode :=
  let t := l.takeWhile (fun c => c ≠ '<')
  if t.isEmpty then .error ⟨"Expected text", pos⟩
  else .ok (.text (String.mk t), l.drop t.length, pos + t.length)

/-- Does the comment-body regex (`COMMENT_REGEX`, `parser.ts:232`) stop at
this position?  It stops before `-->`, `--!>`, `<!--` followed by a
character other than `>`, and a `<!-` that ends the input. -/
def commentStop (l : List Char) : Bool :=
  ['-', '-', '>'].isPrefixOf l || ['-', '-', '!', '>'].isPrefixOf l ||
  (['<', '!', '-', '-'].isPrefixOf l &&
    (match l.drop 4 with | c :: _ => c ≠ '>' | [] => false)) ||
  l = ['<', '!', '-']

/-- The greedy run of comment-body characters. -/
def commentRun : List Char → List Char × List Char
  | [] => ([], [])
  | c :: cs =>
    if commentStop (c :: cs) then ([], c :: cs)
    else
      let (a, b) := commentRun cs
      (c :: a, b)

/-- Parses an HTML comment: `<!--`, a body that must not start with `>` or
`->`, then `-->` (`comment` in `parser.ts:237`). -/
def commentP (l : List Char) (pos : Nat) : PRes MNode :=
  if ['<', '!', '-', '-'].isPrefixOf l then
    let l1 := l.drop 4
    if (match l1 with
        | '>' :: _ => true
        | '-' :: '>' :: _ => true
        | _ => false) then
      .error ⟨"Invalid comment", pos⟩
    else
      let (body, rest) := commentRun l1
      if ['-', '-', '>'].isPrefixOf rest then
        .ok (.comment (String.mk body), rest.drop 3,
          pos + 4 + body.length + 3)
      else .error ⟨"Invalid comment", pos + 4 + body.length⟩
  else .error ⟨"Invalid comment", pos⟩

/-- Parses the modern doctype, the regex `<!DOCTYPE\s+html\s*>` with the `i`
flag, normalizing to the text node `<!DOCTYPE html>` (`doctype` in
`parser.ts:255`). -/
def doctypeP (l : List Char) (pos : Nat) : PRes MNode :=
  if isPrefixCI "<!doctype".toList l then
    let l1 := l.drop 9
    let ws1 := l1.takeWhile isJsWs
    if ws1.isEmpty then .error ⟨"Expected a valid doctype", pos⟩
    else
      let l2 := l1.drop ws1.length
      if isPrefixCI "html".toList l2 then
        match (l2.drop 4).dropWhile isJsWs with
        | '>' :: rest =>
          .ok (.text "<!DOCTYPE html>", rest, pos + (l.length - rest.length))
        | _ => .error ⟨"Expected a valid doctype", pos⟩
      else .error ⟨"Expected a valid doctype", pos⟩
  else .error ⟨"Expected a valid doctype", pos⟩

/-- Does the raw-text regex (`rawText` in `parser.ts:273`) stop at this
position?  It stops before `</`, the tag name (case-insensitively) and one
of tab, LF, FF, CR, space, `>`, `/`. -/
def rawTextStop (tag : List Char) (l : List Char) : Bool :=
  match l with
  | '<' :: '/' :: rest =>
    isPrefixCI tag rest &&
    (match rest.drop tag.length with
     | c :: _ =>
       c = '\t' || c = '\n' || c.val = 12 || c = '\r' || c = ' ' ||
       c = '>' || c = '/'
     | [] => false)
  | _ => false

/-- The greedy run of raw-text characters. -/
def rawTextRun (tag : List Char) : List Char → List Char × List Char
  | [] => ([], [])
  | c :: cs =>
    if rawTextStop tag (c :: cs) then ([], c :: cs)
    else
      let (a, b) := rawTextRun tag cs
      (c :: a, b)

/-- Parses the contents of a raw text or escapable raw text element: a
single text node when non-empty, nothing otherwise (`rawText` in
`parser.ts:273`).  This parser never fails. -/
def rawTextP (tag : String) (l : List Char) : MFragment × List Char :=
  let (t, rest) := rawTextRun tag.toList l
  (if t.length > 0 then [.text (String.mk t)] else [], rest)

/-- The greedy run of CDATA-section characters (everything before `]]>`). -/
def cdataRun : List Char → List Char × List Char
  | [] => ([], [])
  | c :: cs =>
    if [']', ']', '>'].isPrefixOf (c :: cs) then ([], c :: cs)
    else
      let (a, b) := cdataRun cs
      (c :: a, b)

/-- Parses a CDATA section: `<![CDATA[`, the body, `]]>` (`cdata` in
`parser.ts:281`). -/
def cdataP (l : List Char) (pos : Nat) : PRes MNode :=
  if "<![CDATA[".toList.isPrefixOf l then
    let l1 := l.drop 9
    let (body, rest) := cdataRun l1
    if [']', ']', '>'].isPrefixOf rest then
      .ok (.cdata (String.mk body), rest.drop 3, pos + 9 + body.length + 3)
    else .error ⟨"Invalid CDATA section", pos + 9 + body.length⟩
  else .error ⟨"Invalid CDATA section", pos⟩

/-! ### Attributes -/

/-- Parses an attribute name and skips trailing whitespace
(`attributeName` in `parser.ts:292`). -/
def attributeNameP (l : List Char) (pos : Nat) : PRes String :=
  let t := l.takeWhile isAttrNameChar
  if t.isEmpty then .error ⟨"Expected a valid attribute name", pos⟩
  else
    let rest := (l.drop t.length).dropWhile isJsWs
    .ok (String.mk t, rest, pos + (l.length - rest.length))

/-- Parses an attribute value: single-quoted, double-quoted or unquoted, in
that order (`attributeValue` in `parser.ts:298`). -/
def attributeValueP (l : List Char) (pos : Nat) : PRes String :=
  match l with
  | c :: rest =>
    if c.val = 39 then
      let v := rest.takeWhile (fun d => d.val ≠ 39)
      match rest.drop v.length with
      | d :: rest2 =>
        if d.val = 39 then .ok (String.mk v, rest2, pos + v.length + 2)
        else .error ⟨"Expected an attribute value", pos⟩
      | [] => .error ⟨"Expected an attribute value", pos⟩
    else if c = '"' then
      let v := rest.takeWhile (fun d => d ≠ '"')
      match rest.drop v.length with
      | d :: rest2 =>
        if d = '"' then .ok (String.mk v, rest2, pos + v.length + 2)
        else .error ⟨"Expected an attribute value", pos⟩
      | [] => .error ⟨"Expected an attribute value", pos⟩
    else
      let v := l.takeWhile isUnquotedValueChar
      if v.isEmpty then .error ⟨"Expected an attribute value", pos⟩
      else .ok (String.mk v, l.drop v.length, pos + v.length)
  | [] => .error ⟨"Expected an attribute value", pos⟩

/-- Parses one attribute: `name = value` or a bare `name` (empty value),
skipping trailing whitespace (`attribute` in `parser.ts:307`).  When the
`=` is present but no value can be parsed, the alternation falls back to
the bare-name branch, leaving the `=` unconsumed. -/
def attributeP (l : List Char) (pos : Nat) : PRes (String × String) :=
  match attributeNameP l pos with
  | .error f => .error f
  | .ok (name, l1, p1) =>
    match l1 with
    | '=' :: l2 =>
      let l3 := l2.dropWhile isJsWs
      let p3 := p1 + 1 + (l2.length - l3.length)
      match attributeValueP l3 p3 with
      | .ok (v, l4, p4) =>
        let l5 := l4.dropWhile isJsWs
        .ok ((name, v), l5, p4 + (l4.length - l5.length))
      | .error _ => .ok ((name, ""), l1, p1)
    | _ => .ok ((name, ""), l1, p1)

/-- Greedy repetition of `attributeP` (monarch's `many`). -/
def manyAttrs : Nat → List Char → Nat → List (String × String) × List Char × Nat
  | 0, l, pos => ([], l, pos)
  | Nat.succ n, l, pos =>
    match attributeP l pos with
    | .error _ => ([], l, pos)
    | .ok (kv, l1, p1) =>
      let (kvs, l2, p2) := manyAttrs n l1 p1
      (kv :: kvs, l2, p2)

/-! ### Tag names -/

/-- Picks the failure monarch's `alt` reports: the one with the larger
position (ties go to the first). -/
def altFail (f1 f2 : PFail) : PFail := if f2.pos > f1.pos then f2 else f1

/-- Validates a custom element name: an ASCII letter followed by `PCENChar`s,
lowercased; it must contain a dash and not be a forbidden name
(`customElementName` in `parser.ts:345`). -/
def customElementNameP (l : List Char) (pos : Nat) : PRes String :=
  match l with
  | c :: rest =>
    if isAsciiLetter c then
      let chars := rest.takeWhile isPcenChar
      let name := String.mk ((c :: chars).map Char.toLower)
      if forbiddenCustomElementNames.contains name then
        .error ⟨"Forbidden custom element name", pos⟩
      else if !name.data.contains '-' then
        .error ⟨"Invalid custom element name (should include a dash)", pos⟩
      else .ok (name, rest.drop chars.length, pos + 1 + chars.length)
    else .error ⟨"Invalid custom element name", pos⟩
  | [] => .error ⟨"Invalid custom element name", pos⟩

/-- Parses an HTML tag name `[a-z][a-z0-9]*` (`i` flag), lowercased only
outside foreign content (`htmlTagName` in `parser.ts:364`). -/
def htmlTagNameP (st : Stack) (l : List Char) (pos : Nat) : PRes String :=
  match l with
  | c :: rest =>
    if isAsciiLetter c then
      let chars := rest.takeWhile isAsciiAlnum
      let raw := String.mk (c :: chars)
      let name := if !st.isEmpty then raw else
        String.mk ((c :: chars).map Char.toLower)
      .ok (name, rest.drop chars.length, pos + 1 + chars.length)
    else .error ⟨"Invalid html tag name", pos⟩
  | [] => .error ⟨"Invalid html tag name", pos⟩

/-- Parses a tag name: a valid custom element name, else an HTML tag name
(`tagName` in `parser.ts:375`). -/
def tagNameP (st : Stack) (l : List Char) (pos : Nat) : PRes String :=
  match customElementNameP l pos with
  | .ok r => .ok r
  | .error f1 =>
    match htmlTagNameP st l pos with
    | .ok r => .ok r
    | .error f2 => .error (altFail f1 f2)

/-! ### Start tags and end tags -/

/-- The body of the `chain` at `parser.ts:387`: classify the element
(pushing `svg`/`math`), compute the self-closing flag and reject a
self-closing tag on a non-void, non-foreign element. -/
def startTagFinish (st : Stack) (name : String)
    (attrs : List (String × String)) (isSlash : Bool) (l4 : List Char)
    (p4 : Nat) :
    PRes (String × ElementKind × List (String × String) × Bool) × Stack :=
  let (kind, st') := elementKind name st
  let selfClosing := isSlash || kind = .VOID
  if selfClosing && kind ≠ .VOID && kind ≠ .FOREIGN then
    (.error ⟨"Unexpected self-closing tag on a non-void element", p4⟩, st')
  else (.ok ((name, kind, attrs, selfClosing), l4, p4), st')

/-- Parses a start tag: `<`, tag name, optional whitespace-led attribute
list, then `/?>` (`startTag` in `parser.ts:378`), finished by
`startTagFinish`.  A failure of the classification check still returns the
possibly-extended stack, like the JavaScript global. -/
def startTagP (st : Stack) (l : List Char) (pos : Nat) :
    PRes (String × ElementKind × List (String × String) × Bool) × Stack :=
  match l with
  | '<' :: l1 =>
    (match tagNameP st l1 (pos + 1) with
     | .error f => (.error ⟨"Invalid start tag", f.pos⟩, st)
     | .ok (name, l2, p2) =>
       let ws := l2.takeWhile isJsWs
       let (attrs, l3, p3) :=
         if ws.isEmpty then (([] : List (String × String)), l2, p2)
         else manyAttrs (l2.length + 1) (l2.drop ws.length) (p2 + ws.length)
       match l3 with
       | '/' :: '>' :: l4 => startTagFinish st name attrs true l4 (p3 + 2)
       | '>' :: l4 => startTagFinish st name attrs false l4 (p3 + 1)
       | _ => (.error ⟨"Invalid start tag", p3⟩, st))
  | _ => (.error ⟨"Invalid start tag", pos⟩, st)

/-- The check a void or self-closing element makes for a spurious end tag:
the regex `^\s*</tagName>` with the `i` flag (`parser.ts:462`). -/
def voidEndCheck (tag : String) (l : List Char) : Bool :=
  match l.dropWhile isJsWs with
  | '<' :: '/' :: rest =>
    isPrefixCI tag.toList rest &&
    (match rest.drop tag.toList.length with
     | '>' :: _ => true
     | _ => false)
  | _ => false

/-- The zero-width test for an implicitly closing end tag:
`(?=</t\s*>)` with the `i` flag. -/
def closedLookahead (t : String) (l : List Char) : Bool :=
  match l with
  | '<' :: '/' :: rest =>
    isPrefixCI t.toList rest &&
    (match (rest.drop t.toList.length).dropWhile isJsWs with
     | '>' :: _ => true
     | _ => false)
  | _ => false

/-- Consumes a literal end tag `</tagName\s*>` (`i` flag), returning the
rest of the input. -/
def literalEndTag (tag : String) (l : List Char) : Option (List Char) :=
  match l with
  | '<' :: '/' :: rest =>
    if isPrefixCI tag.toList rest then
      match (rest.drop tag.toList.length).dropWhile isJsWs with
      | '>' :: rest2 => some rest2
      | _ => none
    else none
  | _ => none

/-- Parses the end of an element, following the disjunction built at
`parser.ts:526`: in order, a zero-width open-tag trigger from the omission
table, a zero-width closing-tag trigger, end of input when the row carries
the regex `$`, and finally the literal end tag (consumed).  Elements with
no omission row demand the literal end tag with the labelled error. -/
def endTagP (tag : String) (l : List Char) (pos : Nat) : PRes Unit :=
  match endTagOmission tag with
  | some e =>
    if e.openTags.any (fun t => isPrefixCI ('<' :: t.toList) l) then
      .ok ((), l, pos)
    else if e.closedTags.any (fun t => closedLookahead t l) then
      .ok ((), l, pos)
    else if e.closeAtEnd && l.isEmpty then .ok ((), l, pos)
    else
      match literalEndTag tag l with
      | some rest => .ok ((), rest, pos + (l.length - rest.length))
      | none => .error ⟨"Invalid end tag", pos⟩
  | none =>
    match literalEndTag tag l with
    | some rest => .ok ((), rest, pos + (l.length - rest.length))
    | none =>
      .error ⟨"Expected a " ++ sq ++ "</" ++ tag ++ ">" ++ sq ++ " end tag",
        pos⟩

/-- First-success alternation of the CDATA branch (present only in foreign
content) and the comment branch of the children loop. -/
def cdataCommentAlt (cd : Bool) (l : List Char) (pos : Nat) : PRes MNode :=
  if cd then
    match cdataP l pos with
    | .ok r => .ok r
    | .error f1 =>
      match commentP l pos with
      | .ok r => .ok r
      | .error f2 => .error (altFail f1 f2)
  else commentP l pos

/-- The children loop of an element (and of `fragments`): monarch's
`many(alt(text, element, cdata?, comment))` from `parser.ts:483`, with the
element branch guarded by the end-tag-omission negative lookaheads
(`avoid`).  `many` never fails; it stops at the first position where every
branch fails, and the stack mutations of failing element branches persist.
The fuel only bounds the iteration count; every iteration consumes at
least one character, so `input.length + 1` fuel is always enough. -/
def childrenLoop
    (pElem : Stack → List Char → Nat → PRes MNode × Stack) :
    Nat → Stack → List String → Bool → List Char → Nat →
    MFragment × List Char × Nat × Stack
  | 0, st, _, _, l, pos => ([], l, pos, st)
  | Nat.succ n, st, avoid, cd, l, pos =>
    match textP l pos with
    | .ok (node, l1, p1) =>
      let (ns, l2, p2, st2) := childrenLoop pElem n st avoid cd l1 p1
      (node :: ns, l2, p2, st2)
    | .error _ =>
      if avoid.all (fun t => !isPrefixCI ('<' :: t.toList) l) then
        match pElem st l pos with
        | (.ok (node, l1, p1), st1) =>
          let (ns, l2, p2, st2) := childrenLoop pElem n st1 avoid cd l1 p1
          (node :: ns, l2, p2, st2)
        | (.error _, st1) =>
          match cdataCommentAlt cd l pos with
          | .ok (node, l1, p1) =>
            let (ns, l2, p2, st2) := childrenLoop pElem n st1 avoid cd l1 p1
            (node :: ns, l2, p2, st2)
          | .error _ => ([], l, pos, st1)
      else
        match cdataCommentAlt cd l pos with
        | .ok (node, l1, p1) =>
          let (ns, l2, p2, st2) := childrenLoop pElem n st avoid cd l1 p1
          (node :: ns, l2, p2, st2)
        | .error _ => ([], l, pos, st)

/-- The negative-lookahead tag list guarding the element branch of the
children loop (`avoidOpenTags` at `parser.ts:472`). -/
def avoidTags (tag : String) : List String :=
  match endTagOmission tag with
  | some e => e.openTags
  | none => []

/-- The children of a raw text or escapable raw text element, as the
4-tuple the children step of `element` produces (the stack is untouched). -/
def rawChildren (tag : String) (l1 : List Char) (p1 : Nat) (st : Stack) :
    MFragment × List Char × Nat × Stack :=
  match rawTextP tag l1 with
  | (nodes, r) => (nodes, r, p1 + (l1.length - r.length), st)

/-- Parses an HTML element (`element` in `parser.ts:444`): start tag, then
children (raw text for the two raw-text kinds — the `if` at
`parser.ts:477` — and the guarded loop otherwise), then the end tag; pops
the foreign stack after a successful `svg`/`math` end tag.  Void and
self-closing elements stop after the start tag, rejecting a following end
tag (with optional leading whitespace) for the same name. -/
def elementP : Nat → Stack → List Char → Nat → PRes MNode × Stack
  | 0, st, _, pos => (.error ⟨"Element nesting too deep", pos⟩, st)
  | Nat.succ fuel, st, l, pos =>
    match startTagP st l pos with
    | (.error f, st') => (.error f, st')
    | (.ok ((tag, kind, attrs, selfClosing), l1, p1), st') =>
      if selfClosing then
        if voidEndCheck tag l1 then
          (.error ⟨"Unexpected end tag", p1⟩, st')
        else (.ok (.element tag kind attrs [] true, l1, p1), st')
      else
        match (match kind with
               | .RAW_TEXT | .ESCAPABLE_RAW_TEXT => rawChildren tag l1 p1 st'
               | _ =>
                 childrenLoop (elementP fuel) (l1.length + 1) st'
                   (avoidTags tag) (!st'.isEmpty) l1 p1) with
        | (children, l2, p2, st2) =>
          match endTagP tag l2 p2 with
          | .error f => (.error f, st2)
          | .ok (_, l3, p3) =>
            let st3 := if tag = "svg" || tag = "math" then st2.tail else st2
            (.ok (.element tag kind attrs children false, l3, p3), st3)

/-- Parses HTML fragments: `many(alt(text, element, comment))`
(`fragments` in `parser.ts:592`).  Never fails. -/
def fragmentsP (st : Stack) (l : List Char) :
    MFragment × List Char × Nat × Stack :=
  childrenLoop (elementP (l.length + 1)) (l.length + 1) st [] false l 0

/-- The tail of `sepBy(comment, whitespaces)`: repeatedly consume
whitespace and a comment, backtracking the whitespace when the comment
fails. -/
def sepByCommentsAux : Nat → List Char → Nat → MFragment × List Char × Nat
  | 0, l, pos => ([], l, pos)
  | Nat.succ n, l, pos =>
    match commentP (l.dropWhile isJsWs)
        (pos + (l.length - (l.dropWhile isJsWs).length)) with
    | .ok (c, l1, p1) =>
      match sepByCommentsAux n l1 p1 with
      | (cs, l2, p2) => (c :: cs, l2, p2)
    | .error _ => ([], l, pos)

/-- `sepBy(comment, whitespaces)`: the possibly-empty comment sequence,
separated by whitespace that is consumed but not kept. -/
def commentsSeq (l : List Char) (pos : Nat) : MFragment × List Char × Nat :=
  match commentP l pos with
  | .error _ => ([], l, pos)
  | .ok (c, la, pa) =>
    match sepByCommentsAux (la.length + 1) la pa with
    | (cs, lb, pb) => (c :: cs, lb, pb)

/-- Parses a sequence of comments maybe surrounded by whitespace
(`spacesAndComments` in `parser.ts:246`): a whitespace-only text node, the
comments, and another whitespace-only text node.  The text nodes are kept
even when empty, as in the source.  Never fails. -/
def spacesAndCommentsP (l : List Char) (pos : Nat) :
    MFragment × List Char × Nat :=
  match commentsSeq (l.drop (l.takeWhile isJsWs).length)
      (pos + (l.takeWhile isJsWs).length) with
  | (comments, l2, p2) =>
    (.text (String.mk (l.takeWhile isJsWs)) :: comments ++
      [.text (String.mk (l2.takeWhile isJsWs))],
      l2.drop (l2.takeWhile isJsWs).length, p2 + (l2.takeWhile isJsWs).length)

/-- Parses an HTML document (`html` in `parser.ts:689`): comments and
whitespace, the doctype, comments and whitespace, one root element,
trailing comments and whitespace, flattened into one fragment. -/
def htmlP (st : Stack) (l : List Char) : PRes MFragment × Stack :=
  let (sc1, l1, p1) := spacesAndCommentsP l 0
  match doctypeP l1 p1 with
  | .error f => (.error f, st)
  | .ok (d, l2, p2) =>
    let (sc2, l3, p3) := spacesAndCommentsP l2 p2
    match elementP (l.length + 1) st l3 p3 with
    | (.error f, st') => (.error f, st')
    | (.ok (e, l4, p4), st') =>
      let (sc3, l5, p5) := spacesAndCommentsP l4 p4
      (.ok (sc1 ++ [d] ++ sc2 ++ [e] ++ sc3 ++ [], l5, p5), st')

/-- Parses a declarative shadow root (`shadowRoot` in `parser.ts:629`):
whitespace and comments, then one element; the last node of the flattened
result (always that element) must be a `template` carrying the attribute
`shadowrootmode="open"`.  A failing check reports the entry position, as
in the source. -/
def shadowRootP (st : Stack) (l : List Char) : PRes MFragment × Stack :=
  let (sc, l1, p1) := spacesAndCommentsP l 0
  match elementP (l.length + 1) st l1 p1 with
  | (.error f, st') => (.error f, st')
  | (.ok (e, l2, p2), st') =>
    match e with
    | .element tag _ attrs _ _ =>
      if tag ≠ "template" then
        (.error ⟨"Expected a template element", 0⟩, st')
      else if !attrs.any (fun kv =>
          kv.1 = "shadowrootmode" && kv.2 = "open") then
        (.error ⟨"Expected a declarative shadow root", 0⟩, st')
      else (.ok (sc ++ [e], l2, p2), st')
    | _ => (.error ⟨"Expected a template element", 0⟩, st')

/-! ### Public entry points

Monarch's `parseOrThrow` returns the first result's value and does not
require the whole input to be consumed (the repository's declarative
shadow-root test passes an input with a trailing newline).  Each `...From`
variant exposes the foreign-namespace stack before and after the
invocation; the plain entry points start from the clean, empty stack. -/

/-- `parseElement` from a given foreign-stack state. -/
def parseElementFrom (st : Stack) (x : String) : Except PFail MNode × Stack :=
  match elementP (x.toList.length + 1) st x.toList 0 with
  | (.ok (n, _, _), st') => (.ok n, st')
  | (.error f, st') => (.error f, st')

/-- The public `parseElement`. -/
def parseElement (x : String) : Except PFail MNode :=
  (parseElementFrom [] x).1

/-- `parseFragments` from a given foreign-stack state; `fragments` never
fails. -/
def parseFragmentsFrom (st : Stack) (x : String) : MFragment × Stack :=
  let (ns, _, _, st') := fragmentsP st x.toList
  (ns, st')

/-- The public `parseFragments`. -/
def parseFragments (x : String) : MFragment :=
  (parseFragmentsFrom [] x).1

/-- `parseHtml` from a given foreign-stack state. -/
def parseHtmlFrom (st : Stack) (x : String) : Except PFail MFragment × Stack :=
  match htmlP st x.toList with
  | (.ok (ns, _, _), st') => (.ok ns, st')
  | (.error f, st') => (.error f, st')

/-- The public `parseHtml`. -/
def parseHtml (x : String) : Except PFail MFragment :=
  (parseHtmlFrom [] x).1

/-- `parseShadowRoot` from a given foreign-stack state. -/
def parseShadowRootFrom (st : Stack) (x : String) :
    Except PFail MFragment × Stack :=
  match shadowRootP st x.toList with
  | (.ok (ns, _, _), st') => (.ok ns, st')
  | (.error f, st') => (.error f, st')

/-- The public `parseShadowRoot`. -/
def parseShadowRoot (x : String) : Except PFail MFragment :=
  (parseShadowRootFrom [] x).1

/-! ### Serializer -/

/-- Renders one attribute (`parser.ts:785`): a boolean attribute collapses
to its bare name; otherwise `name="value"`, switching to single quotes
when the value contains a double quote. -/
def serializeAttribute (kv : String × String) : String :=
  let q := if strHasChar kv.2 '"' then sq else "\""
  if booleanAttributes.contains kv.1 then kv.1
  else kv.1 ++ "=" ++ q ++ kv.2 ++ q

/-- The attributes part of a serialized start tag: a leading space and the
rendered attributes, or nothing (`parser.ts:790`). -/
def attributesStringOf (attrs : List (String × String)) : String :=
  let attrStrings := attrs.map serializeAttribute
  if attrStrings.isEmpty then "" else " " ++ joinSpaceSep attrStrings

mutual

/-- Serializes a node (`serializeNode` in `parser.ts:767`). -/
def serializeNode (node : MNode) (removeComments : Bool) : String :=
  match node with
  | .text t => t
  | .comment t => if removeComments then "" else "<!--" ++ t ++ "-->"
  | .cdata t => "<![CDATA[" ++ t ++ "]]>"
  | .element tag _ attrs children selfClosing =>
    let startTagString := "<" ++ tag ++ attributesStringOf attrs ++ ">"
    if selfClosing then startTagString
    else
      startTagString ++ serializeChildren children removeComments ++
        "</" ++ tag ++ ">"

/-- Serializes a list of children, concatenated (the
`children.map(...).join("")` of the source). -/
def serializeChildren (ns : List MNode) (removeComments : Bool) : String :=
  match ns with
  | [] => ""
  | n :: rest =>
    serializeNode n removeComments ++ serializeChildren rest removeComments

end

/-- Serializes a fragment (`serializeFragments` in `parser.ts:837`). -/
def serializeFragments (fragment : MFragment) (removeComments : Bool) :
    String :=
  serializeChildren fragment removeComments

/-! ### Guards

`isMNode` and friends receive an `unknown` JavaScript value and test which
fields it carries.  `JsObj` models the observations those guards make of a
runtime object: the `kind` and `text` string fields and the `tagName` and
`attributes` fields, each possibly absent.  `toJsObj` maps each node to
the object its construction site builds: `textNode`, `commentNode` and the
CDATA parser build objects with only `kind` and `text`; element nodes
always carry `tagName` and `attributes`. -/

structure JsObj where
  kind : Option String
  text : Option String
  tagName : Option String
  attributes : Option (List (String × String))

/-- The string stored in the `kind` field of an element. -/
def kindName : ElementKind → String
  | .VOID => "VOID"
  | .TEMPLATE => "TEMPLATE"
  | .RAW_TEXT => "RAW_TEXT"
  | .ESCAPABLE_RAW_TEXT => "ESCAPABLE_RAW_TEXT"
  | .FOREIGN => "FOREIGN"
  | .NORMAL => "NORMAL"

/-- The fields each node variant's construction site populates. -/
def toJsObj : MNode → JsObj
  | .text t => ⟨some "TEXT", some t, none, none⟩
  | .comment t => ⟨some "COMMENT", some t, none, none⟩
  | .cdata t => ⟨some "CDATA", some t, none, none⟩
  | .element tag k attrs _ _ => ⟨some (kindName k), none, some tag, some attrs⟩

/-- `Object.keys(NodeKind)` (`parser.ts:175`). -/
def nodeKindKeys : List String :=
  ["COMMENT", "TEXT", "CDATA", "VOID", "TEMPLATE", "RAW_TEXT",
   "ESCAPABLE_RAW_TEXT", "FOREIGN", "NORMAL"]

/-- `Object.keys(ElementKind)` (`parser.ts:156`). -/
def elementKindKeys : List String :=
  ["VOID", "TEMPLATE", "RAW_TEXT", "ESCAPABLE_RAW_TEXT", "FOREIGN", "NORMAL"]

/-- The `MNode` guard (`isMNode` in `parser.ts:939`): the `kind` field must
hold one of the `NodeKind` keys; `COMMENT` and `TEXT` then require a
`text` field, every other kind requires `tagName` and `attributes`. -/
def isMNode (o : JsObj) : Bool :=
  match o.kind with
  | none => false
  | some k =>
    if nodeKindKeys.contains k then
      if k = "COMMENT" || k = "TEXT" then o.text.isSome
      else o.tagName.isSome && o.attributes.isSome
    else false

/-- `isCommentNode` (`parser.ts:882`). -/
def isCommentNode (o : JsObj) : Bool :=
  isMNode o && o.kind == some "COMMENT"

/-- `isTextNode` (`parser.ts:901`). -/
def isTextNode (o : JsObj) : Bool :=
  isMNode o && o.kind == some "TEXT"

/-- `isElementNode` (`parser.ts:920`). -/
def isElementNode (o : JsObj) : Bool :=
  isMNode o &&
    (match o.kind with
     | some k => elementKindKeys.contains k
     | none => false)

/-! ### Parse-tree invariants

`nodeOk` is the conjunction of the structural invariants every node a
successful parse produces satisfies; the claim-specific predicates
(`textOk`, `rawShapeOk`, `voidOk`) each follow from it. -/

mutual

/-- The structural invariant of parsed nodes: text nodes contain no `<`
(except inside raw-text elements, whose children are exempted because the
predicate does not descend into them beyond their shape); raw-text-kind
elements have at most one child, a text node, and are never self-closing;
void elements are self-closing with no children; the only other
self-closing elements are foreign, with no children; all remaining
elements are not self-closing and have well-formed children. -/
def nodeOk : MNode → Bool
  | .text t => !t.data.contains '<'
  | .comment _ => true
  | .cdata _ => true
  | .element _ kind _ children selfClosing =>
    if kind = .RAW_TEXT || kind = .ESCAPABLE_RAW_TEXT then
      !selfClosing &&
      (match children with
       | [] => true
       | [.text _] => true
       | _ => false)
    else if kind = .VOID then children.isEmpty && selfClosing
    else if selfClosing then kind = .FOREIGN && children.isEmpty
    else childrenOk children

/-- `nodeOk` on every node of a list. -/
def childrenOk : List MNode → Bool
  | [] => true
  | n :: ns => nodeOk n && childrenOk ns

end

mutual

/-- Claim C4's property of a tree: the text of every text node that is not
the child of a raw-text or escapable-raw-text element contains no `<`. -/
def textOk : MNode → Bool
  | .text t => !t.data.contains '<'
  | .comment _ => true
  | .cdata _ => true
  | .element _ kind _ children _ =>
    if kind = .RAW_TEXT || kind = .ESCAPABLE_RAW_TEXT then true
    else textOkList children

/-- `textOk` on every node of a list. -/
def textOkList : List MNode → Bool
  | [] => true
  | n :: ns => textOk n && textOkList ns

end

mutual

/-- Claim C5's property of a tree: every element of kind `RAW_TEXT` or
`ESCAPABLE_RAW_TEXT` anywhere in the tree has at most one child, and the
sole child, when present, is a text node. -/
def rawShapeOk : MNode → Bool
  | .text _ => true
  | .comment _ => true
  | .cdata _ => true
  | .element _ kind _ children _ =>
    (if kind = .RAW_TEXT || kind = .ESCAPABLE_RAW_TEXT then
       match children with
       | [] => true
       | [.text _] => true
       | _ => false
     else true) && rawShapeList children

/-- `rawShapeOk` on every node of a list. -/
def rawShapeList : List MNode → Bool
  | [] => true
  | n :: ns => rawShapeOk n && rawShapeList ns

end

mutual

/-- Claim C8's property of a tree: every element of kind `VOID` anywhere
in the tree has no children and carries `selfClosing = true`. -/
def voidOk : MNode → Bool
  | .text _ => true
  | .comment _ => true
  | .cdata _ => true
  | .element _ kind _ children selfClosing =>
    (if kind = .VOID then children.isEmpty && selfClosing else true) &&
      voidOkList children

/-- `voidOk` on every node of a list. -/
def voidOkList : List MNode → Bool
  | [] => true
  | n :: ns => voidOk n && voidOkList ns

end

/-! ### The side conditions of claim C1

The claim's conditions on the input string, read conservatively: the input
mentions no tag that occurs anywhere in the end-tag-omission table (so no
end-tag-omission trigger can arise), contains no doctype at all (so no
modern-doctype case variation), and contains no `/>` (so no self-closing
slash on any element). -/

/-- Case-insensitive substring test. -/
def ciSubstring (pat : List Char) : List Char → Bool
  | [] => pat.isEmpty
  | c :: cs => isPrefixCI pat (c :: cs) || ciSubstring pat cs

/-- Every tag name occurring in the end-tag-omission table: its keys and
all entries of its `open` and `closed` follow sets. -/
def omissionRelatedTags : List String :=
  ["body", "caption", "colgroup", "head", "html", "li", "dd", "dt",
   "option", "optgroup", "p", "rt", "rp", "thead", "tbody", "tfoot", "td",
   "th", "tr", "col", "ul", "ol", "menu", "dl", "div", "hr", "select",
   "datalist", "address", "article", "aside", "blockquote", "fieldset",
   "figcaption", "figure", "footer", "form", "h1", "h2", "h3", "h4", "h5",
   "h6", "header", "hgroup", "main", "nav", "pre", "section", "table",
   "ruby", "details", "dialog", "object", "search", "template"]

/-- No start or end tag of any omission-table tag occurs in the input. -/
def noOmissionTrigger (x : String) : Bool :=
  omissionRelatedTags.all (fun t =>
    !ciSubstring ('<' :: t.toList) x.toList &&
    !ciSubstring ('<' :: '/' :: t.toList) x.toList)

/-- No doctype occurs in the input at all, so in particular none whose case
needs normalizing. -/
def noDoctypeCaseVariation (x : String) : Bool :=
  !ciSubstring "<!doctype".toList x.toList

/-- No `/>` occurs in the input, so no element carries a self-closing
slash. -/
def noSelfClosingSlash (x : String) : Bool :=
  !ciSubstring "/>".toList x.toList

/-! ### Serializable trees

The decidable predicate `serializableList` singles out the node trees on
which serialization is an exact inverse of parsing: every component of a
serialized tree re-parses to the component it was printed from.  Each
conjunct is forced by a concrete unstable tree; together they are proved
sufficient below (`reparse_fragments`). -/

/-- A string made of JavaScript whitespace only. -/
def wsOnly (s : String) : Bool := s.data.all isJsWs

/-- The element kind as a pure function of the tag name and of whether the
foreign-namespace stack is non-empty, mirroring `elementKind` without the
push side effect. -/
def kindOf (fc : Bool) (tag : String) : ElementKind :=
  if tag = "template" then .TEMPLATE
  else if voidElements.contains tag then .VOID
  else if rawTextElements.contains tag then .RAW_TEXT
  else if escapableRawTextElements.contains tag then .ESCAPABLE_RAW_TEXT
  else if tag = "svg" || tag = "math" then .FOREIGN
  else if fc then .FOREIGN
  else .NORMAL

/-- Every character is fixed by `Char.toLower`. -/
def lowerFixed (s : String) : Bool := s.data.all (fun c => c.toLower = c)

/-- A tag name that re-parses to itself when printed: it starts with an
ASCII letter; a name with a dash must be a well-formed, non-forbidden
custom element name already in lower case; a name without a dash must be
alphanumeric, and already lower-case outside foreign content (where the
parser lower-cases what it reads). -/
def tagOk (fc : Bool) (tag : String) : Bool :=
  match tag.data with
  | [] => false
  | c :: cs =>
    isAsciiLetter c &&
    (if (c :: cs).contains '-' then
      cs.all isPcenChar && lowerFixed tag &&
      !forbiddenCustomElementNames.contains tag
    else cs.all isAsciiAlnum && (fc || lowerFixed tag))

/-- An attribute that re-parses to itself when printed: non-empty name of
attribute-name characters; the value does not contain both quote kinds
(the serializer can only protect one); a boolean-named attribute carries
the empty value, since the serializer prints it as a bare name. -/
def attrOk (kv : String × String) : Bool :=
  !kv.1.data.isEmpty && kv.1.data.all isAttrNameChar &&
  !(kv.2.data.contains '"' && kv.2.data.contains (Char.ofNat 39)) &&
  (!booleanAttributes.contains kv.1 || kv.2 == "")

/-- No position among the first `n` of the list satisfies `stop`. -/
def noEarlyStop (stop : List Char → Bool) : Nat → List Char → Bool
  | 0, _ => true
  | _ + 1, [] => true
  | n + 1, c :: cs => !stop (c :: cs) && noEarlyStop stop n cs

/-- A comment body that re-parses to itself when printed: it does not start
with `>` or `->` (which the comment parser rejects) and the comment-body
regex, run on the printed body, stops only at the appended `-->`. -/
def commentOk (t : String) : Bool :=
  (match t.data with
   | '>' :: _ => false
   | '-' :: '>' :: _ => false
   | _ => true) &&
  noEarlyStop commentStop t.data.length (t.data ++ ['-', '-', '>'])

/-- A CDATA body that re-parses to itself: scanning the printed body stops
only at the appended `]]>`. -/
def cdataBodyOk (t : String) : Bool :=
  noEarlyStop (fun l => [']', ']', '>'].isPrefixOf l) t.data.length
    (t.data ++ [']', ']', '>'])

/-- A raw-text body that re-parses to itself: the raw-text regex for `tag`,
run on the printed body, stops only at the appended `</tag>`. -/
def rawBodyOk (tag t : String) : Bool :=
  noEarlyStop (rawTextStop tag.data) t.data.length
    (t.data ++ '<' :: '/' :: (tag.data ++ ['>']))

/-- ASCII-case-insensitive equality of strings. -/
def ciEqB (a b : String) : Bool :=
  (a.data.length == b.data.length) && isPrefixCI a.data b.data

/-- The tags of the self-closing elements of a child list whose
spurious-end-tag check (`^\s*</tag>`) reads past the printed children into
what follows them: a self-closing last child, possibly followed by one
whitespace-only text node. -/
def seesRest : List MNode → List String
  | [] => []
  | [.element t _ _ _ true] => [t]
  | .element t _ _ _ true :: .text w :: [] => if wsOnly w then [t] else []
  | _ :: tl => seesRest tl

mutual

/-- The serializable nodes, in foreign (`fc = true`) or normal context: the
tag re-parses to itself and the stored kind is the one the parser would
recompute; every attribute re-parses to itself; a node is self-closing
exactly when it is void (a printed self-closing foreign element loses its
slash, and a non-self-closing void element cannot be re-parsed); raw-text
children are at most one re-parseable text node; other children are
serializable in the child context, under the parent's open-tag-omission
guard, and no trailing self-closing child may case-insensitively match the
parent's end tag (the spurious-end-tag check would reject it). -/
def serializableNode (fc : Bool) : MNode → Bool
  | .text t => !t.data.isEmpty && !t.data.contains '<'
  | .comment t => commentOk t
  | .cdata t => fc && cdataBodyOk t
  | .element tag kind attrs children sc =>
    tagOk fc tag && decide (kind = kindOf fc tag) && attrs.all attrOk &&
    (if sc then decide (kind = .VOID) && children.isEmpty
     else
       match kind with
       | .VOID => false
       | .RAW_TEXT | .ESCAPABLE_RAW_TEXT =>
         (match children with
          | [] => true
          | [.text t] => !t.data.isEmpty && rawBodyOk tag t
          | _ => false)
       | _ =>
         serializableList (fc || tag = "svg" || tag = "math")
           (avoidTags tag) children &&
         (seesRest children).all (fun t => !ciEqB t tag))

/-- A serializable child list: every node is serializable, no element child
trips the enclosing element's open-tag-omission guard, and no two text
nodes are adjacent (the parser would merge them). -/
def serializableList (fc : Bool) (avoid : List String) : List MNode → Bool
  | [] => true
  | n :: rest =>
    serializableNode fc n &&
    (match n with
     | .element t _ _ _ _ => avoid.all (fun a => !isPrefixCI a.data t.data)
     | _ => true) &&
    (match n, rest with
     | .text _, .text _ :: _ => false
     | _, _ => true) &&
    serializableList fc avoid rest

end

/-! ## Invariant lemmas

The parse-tree invariant `nodeOk` is established for every parser by fuel
induction; the claim-specific predicates follow by tree recursion. -/

theorem contains_takeWhile_eq_false {p : Char → Bool} {c : Char}
    (l : List Char) (hc : p c = false) :
    (l.takeWhile p).contains c = false := by
  rw [Bool.eq_false_iff]
  intro h
  have hm : c ∈ l.takeWhile p := List.elem_iff.mp h
  have := List.mem_takeWhile_imp hm
  rw [hc] at this
  exact Bool.noConfusion this

theorem textP_nodeOk {l : List Char} {pos : Nat} {n : MNode}
    {r : List Char} {p : Nat} (h : textP l pos = .ok (n, r, p)) :
    nodeOk n = true := by
  unfold textP at h
  dsimp only at h
  split at h
  · exact Except.noConfusion h
  · injection h with h1
    injection h1 with h2 _
    subst h2
    simp only [nodeOk, String.data]
    rw [contains_takeWhile_eq_false _ (by decide)]
    rfl

theorem commentP_shape {l : List Char} {pos : Nat} {n : MNode}
    {r : List Char} {p : Nat} (h : commentP l pos = .ok (n, r, p)) :
    ∃ t, n = .comment t := by
  unfold commentP at h
  dsimp only at h
  split at h
  · split at h
    · exact Except.noConfusion h
    · split at h
      · injection h with h1
        injection h1 with h2 _
        exact ⟨_, h2.symm⟩
      · exact Except.noConfusion h
  · exact Except.noConfusion h

theorem cdataP_shape {l : List Char} {pos : Nat} {n : MNode}
    {r : List Char} {p : Nat} (h : cdataP l pos = .ok (n, r, p)) :
    ∃ t, n = .cdata t := by
  unfold cdataP at h
  dsimp only at h
  split at h
  · split at h
    · injection h with h1
      injection h1 with h2 _
      exact ⟨_, h2.symm⟩
    · exact Except.noConfusion h
  · exact Except.noConfusion h

theorem cdataCommentAlt_nodeOk {cd : Bool} {l : List Char} {pos : Nat}
    {n : MNode} {r : List Char} {p : Nat}
    (h : cdataCommentAlt cd l pos = .ok (n, r, p)) : nodeOk n = true := by
  unfold cdataCommentAlt at h
  split at h
  · cases hc : cdataP l pos with
    | ok v =>
      rw [hc] at h
      injection h with h1
      rw [h1] at hc
      obtain ⟨t, ht⟩ := cdataP_shape hc
      subst ht
      rfl
    | error f1 =>
      rw [hc] at h
      cases hm : commentP l pos with
      | ok v =>
        rw [hm] at h
        injection h with h1
        rw [h1] at hm
        obtain ⟨t, ht⟩ := commentP_shape hm
        subst ht
        rfl
      | error f2 =>
        rw [hm] at h
        exact Except.noConfusion h
  · obtain ⟨t, ht⟩ := commentP_shape h
    subst ht
    rfl

theorem rawTextP_shape (tag : String) (l : List Char) :
    (rawTextP tag l).1 = [] ∨ ∃ t, (rawTextP tag l).1 = [.text t] := by
  unfold rawTextP
  cases hr : rawTextRun tag.toList l with
  | mk a b =>
    dsimp only
    split
    · exact Or.inr ⟨_, rfl⟩
    · exact Or.inl rfl

theorem errorPair_ne_okPair {α : Type} {f : PFail}
    {v : α × List Char × Nat} {s1 s2 : Stack}
    (h : ((Except.error f : PRes α), s1) = (.ok v, s2)) : False := by
  have h1 := congrArg Prod.fst h
  exact Except.noConfusion h1

theorem startTagFinish_selfClosing {st : Stack} {name : String}
    {attrs : List (String × String)} {isSlash : Bool} {l4 : List Char}
    {p4 : Nat} {tag : String} {kind : ElementKind}
    {attrs' : List (String × String)} {selfC : Bool} {r : List Char}
    {p : Nat} {st' : Stack}
    (h : startTagFinish st name attrs isSlash l4 p4 =
      (.ok ((tag, kind, attrs', selfC), r, p), st')) :
    (selfC = true → kind = .VOID ∨ kind = .FOREIGN) ∧
    (kind = .VOID → selfC = true) := by
  unfold startTagFinish at h
  dsimp only at h
  split at h
  · exact (errorPair_ne_okPair h).elim
  · rename_i hcond
    injection h with h1 _
    injection h1 with h2
    injection h2 with hv hrest
    injection hv with hname hrest2
    injection hrest2 with hkind hrest3
    injection hrest3 with hattrs hsc
    subst hkind
    subst hsc
    constructor
    · intro hself
      by_contra hne
      push_neg at hne
      simp only [Bool.and_eq_true, hself, decide_eq_true_eq, true_and,
        Bool.not_eq_true] at hcond
      rcases hne with ⟨h1', h2'⟩
      simp [h1', h2'] at hcond
    · intro hk
      simp [hk]

theorem startTagP_selfClosing {st : Stack} {l : List Char} {pos : Nat}
    {tag : String} {kind : ElementKind} {attrs : List (String × String)}
    {selfC : Bool} {r : List Char} {p : Nat} {st' : Stack}
    (h : startTagP st l pos = (.ok ((tag, kind, attrs, selfC), r, p), st')) :
    (selfC = true → kind = .VOID ∨ kind = .FOREIGN) ∧
    (kind = .VOID → selfC = true) := by
  unfold startTagP at h
  split at h
  · dsimp only at h
    split at h
    · exact (errorPair_ne_okPair h).elim
    · split at h
      · exact startTagFinish_selfClosing h
      · exact startTagFinish_selfClosing h
      · exact (errorPair_ne_okPair h).elim
  · exact (errorPair_ne_okPair h).elim

theorem childrenLoop_childrenOk
    (pElem : Stack → List Char → Nat → PRes MNode × Stack)
    (hp : ∀ st l pos n r p st',
      pElem st l pos = (.ok (n, r, p), st') → nodeOk n = true) :
    ∀ (fuel : Nat) (st : Stack) (avoid : List String) (cd : Bool)
      (l : List Char) (pos : Nat),
      childrenOk (childrenLoop pElem fuel st avoid cd l pos).1 = true := by
  intro fuel
  induction fuel with
  | zero => intro st avoid cd l pos; rfl
  | succ n ih =>
    intro st avoid cd l pos
    rw [childrenLoop]
    cases ht : textP l pos with
    | ok v =>
      obtain ⟨node, l1, p1⟩ := v
      dsimp only
      rcases hrec : childrenLoop pElem n st avoid cd l1 p1 with
        ⟨ns, l2, p2, st2⟩
      dsimp only
      have h1 := textP_nodeOk ht
      have h2 := ih st avoid cd l1 p1
      rw [hrec] at h2
      simp only [childrenOk, h1, h2]
      rfl
    | error f =>
      dsimp only
      split
      · cases he : pElem st l pos with
        | mk res st1 =>
          cases res with
          | ok v =>
            obtain ⟨node, l1, p1⟩ := v
            dsimp only
            rcases hrec : childrenLoop pElem n st1 avoid cd l1 p1 with
              ⟨ns, l2, p2, st2⟩
            dsimp only
            have h1 := hp st l pos node l1 p1 st1 he
            have h2 := ih st1 avoid cd l1 p1
            rw [hrec] at h2
            simp only [childrenOk, h1, h2]
            rfl
          | error f1 =>
            dsimp only
            cases hca : cdataCommentAlt cd l pos with
            | ok v =>
              obtain ⟨node, l1, p1⟩ := v
              dsimp only
              rcases hrec : childrenLoop pElem n st1 avoid cd l1 p1 with
                ⟨ns, l2, p2, st2⟩
              dsimp only
              have h1 := cdataCommentAlt_nodeOk hca
              have h2 := ih st1 avoid cd l1 p1
              rw [hrec] at h2
              simp only [childrenOk, h1, h2]
              rfl
            | error f2 => rfl
      · cases hca : cdataCommentAlt cd l pos with
        | ok v =>
          obtain ⟨node, l1, p1⟩ := v
          dsimp only
          rcases hrec : childrenLoop pElem n st avoid cd l1 p1 with
            ⟨ns, l2, p2, st2⟩
          dsimp only
          have h1 := cdataCommentAlt_nodeOk hca
          have h2 := ih st avoid cd l1 p1
          rw [hrec] at h2
          simp only [childrenOk, h1, h2]
          rfl
        | error f2 => rfl

theorem okPair_inj {α : Type} {a b : α} {l1 l2 : List Char} {p1 p2 : Nat}
    {s1 s2 : Stack}
    (h : ((Except.ok (a, l1, p1) : PRes α), s1) = (.ok (b, l2, p2), s2)) :
    a = b ∧ l1 = l2 ∧ p1 = p2 ∧ s1 = s2 := by
  rw [Prod.mk.injEq] at h
  obtain ⟨h1, h4⟩ := h
  injection h1 with h2
  rw [Prod.mk.injEq] at h2
  obtain ⟨ha, h3⟩ := h2
  rw [Prod.mk.injEq] at h3
  exact ⟨ha, h3.1, h3.2, h4⟩

theorem nodeOk_nonRaw_elem (tag : String) (k : ElementKind)
    (attrs : List (String × String)) (children : List MNode)
    (hk : k = .TEMPLATE ∨ k = .FOREIGN ∨ k = .NORMAL) :
    nodeOk (.element tag k attrs children false) = childrenOk children := by
  rcases hk with h | h | h <;> subst h <;> rfl

theorem rawChildren_fst (tag : String) (l1 : List Char) (p1 : Nat)
    (st : Stack) : (rawChildren tag l1 p1 st).1 = (rawTextP tag l1).1 := by
  unfold rawChildren
  rcases rawTextP tag l1 with ⟨a, b⟩
  rfl

theorem elementP_nodeOk : ∀ (fuel : Nat) (st : Stack) (l : List Char)
    (pos : Nat) (n : MNode) (r : List Char) (p : Nat) (st' : Stack),
    elementP fuel st l pos = (.ok (n, r, p), st') → nodeOk n = true := by
  intro fuel
  induction fuel with
  | zero =>
    intro st l pos n r p st' h
    rw [elementP] at h
    exact (errorPair_ne_okPair h).elim
  | succ fuel ih =>
    intro st l pos n r p st' h
    rw [elementP] at h
    cases hst : startTagP st l pos with
    | mk res st1 =>
      cases res with
      | error f =>
        rw [hst] at h
        exact (errorPair_ne_okPair h).elim
      | ok v =>
        obtain ⟨⟨tag, kind, attrs, selfC⟩, l1, p1⟩ := v
        rw [hst] at h
        dsimp only at h
        have hstc := startTagP_selfClosing hst
        by_cases hsc : selfC = true
        · rw [if_pos hsc] at h
          split at h
          · exact (errorPair_ne_okPair h).elim
          · obtain ⟨hn, _, _, _⟩ := okPair_inj h
            subst hn
            rcases hstc.1 hsc with hk | hk <;> subst hk <;> subst hsc <;> rfl
        · rw [if_neg hsc] at h
          have hkv : kind ≠ .VOID := by
            intro hk
            exact hsc (hstc.2 hk)
          cases kind with
          | VOID => exact absurd rfl hkv
          | RAW_TEXT =>
            rcases hrw : rawChildren tag l1 p1 st1 with
              ⟨children, l2, p2, st2⟩
            rw [hrw] at h
            dsimp only at h
            split at h
            · exact (errorPair_ne_okPair h).elim
            · obtain ⟨hn, _, _, _⟩ := okPair_inj h
              subst hn
              have hfst : (rawChildren tag l1 p1 st1).1 = children := by
                rw [hrw]
              rw [rawChildren_fst] at hfst
              rcases rawTextP_shape tag l1 with hs | ⟨t, hs⟩ <;>
                rw [hs] at hfst <;> subst hfst <;> rfl
          | ESCAPABLE_RAW_TEXT =>
            rcases hrw : rawChildren tag l1 p1 st1 with
              ⟨children, l2, p2, st2⟩
            rw [hrw] at h
            dsimp only at h
            split at h
            · exact (errorPair_ne_okPair h).elim
            · obtain ⟨hn, _, _, _⟩ := okPair_inj h
              subst hn
              have hfst : (rawChildren tag l1 p1 st1).1 = children := by
                rw [hrw]
              rw [rawChildren_fst] at hfst
              rcases rawTextP_shape tag l1 with hs | ⟨t, hs⟩ <;>
                rw [hs] at hfst <;> subst hfst <;> rfl
          | TEMPLATE =>
            rcases hcl : childrenLoop (elementP fuel) (l1.length + 1) st1
                (avoidTags tag) (!st1.isEmpty) l1 p1 with
              ⟨children, l2, p2, st2⟩
            rw [hcl] at h
            dsimp only at h
            split at h
            · exact (errorPair_ne_okPair h).elim
            · obtain ⟨hn, _, _, _⟩ := okPair_inj h
              subst hn
              rw [nodeOk_nonRaw_elem _ _ _ _ (Or.inl rfl)]
              have h2 := childrenLoop_childrenOk (elementP fuel)
                (fun st l pos n r p st' hh => ih st l pos n r p st' hh)
                (l1.length + 1) st1 (avoidTags tag) (!st1.isEmpty) l1 p1
              rw [hcl] at h2
              exact h2
          | FOREIGN =>
            rcases hcl : childrenLoop (elementP fuel) (l1.length + 1) st1
                (avoidTags tag) (!st1.isEmpty) l1 p1 with
              ⟨children, l2, p2, st2⟩
            rw [hcl] at h
            dsimp only at h
            split at h
            · exact (errorPair_ne_okPair h).elim
            · obtain ⟨hn, _, _, _⟩ := okPair_inj h
              subst hn
              rw [nodeOk_nonRaw_elem _ _ _ _ (Or.inr (Or.inl rfl))]
              have h2 := childrenLoop_childrenOk (elementP fuel)
                (fun st l pos n r p st' hh => ih st l pos n r p st' hh)
                (l1.length + 1) st1 (avoidTags tag) (!st1.isEmpty) l1 p1
              rw [hcl] at h2
              exact h2
          | NORMAL =>
            rcases hcl : childrenLoop (elementP fuel) (l1.length + 1) st1
                (avoidTags tag) (!st1.isEmpty) l1 p1 with
              ⟨children, l2, p2, st2⟩
            rw [hcl] at h
            dsimp only at h
            split at h
            · exact (errorPair_ne_okPair h).elim
            · obtain ⟨hn, _, _, _⟩ := okPair_inj h
              subst hn
              rw [nodeOk_nonRaw_elem _ _ _ _ (Or.inr (Or.inr rfl))]
              have h2 := childrenLoop_childrenOk (elementP fuel)
                (fun st l pos n r p st' hh => ih st l pos n r p st' hh)
                (l1.length + 1) st1 (avoidTags tag) (!st1.isEmpty) l1 p1
              rw [hcl] at h2
              exact h2

theorem childrenOk_append (a b : MFragment) :
    childrenOk (a ++ b) = (childrenOk a && childrenOk b) := by
  induction a with
  | nil => simp [childrenOk]
  | cons n ns ih => simp [childrenOk, ih, Bool.and_assoc]

theorem childrenOk_mem {ns : MFragment} {m : MNode}
    (h : childrenOk ns = true) (hm : m ∈ ns) : nodeOk m = true := by
  induction ns with
  | nil => exact absurd hm (List.not_mem_nil m)
  | cons n rest ih =>
    simp only [childrenOk, Bool.and_eq_true] at h
    rcases List.mem_cons.mp hm with h1 | h1
    · subst h1; exact h.1
    · exact ih h.2 h1

theorem childrenOk_of_mem {ns : MFragment}
    (h : ∀ m ∈ ns, nodeOk m = true) : childrenOk ns = true := by
  induction ns with
  | nil => rfl
  | cons n rest ih =>
    simp only [childrenOk, Bool.and_eq_true]
    exact ⟨h n (List.mem_cons_self n rest),
      ih (fun m hm => h m (List.mem_cons_of_mem n hm))⟩

theorem nodeOk_ws_text (l : List Char) :
    nodeOk (.text (String.mk (l.takeWhile isJsWs))) = true := by
  simp only [nodeOk, String.data]
  rw [contains_takeWhile_eq_false _ (by decide)]
  rfl

theorem sepByCommentsAux_childrenOk : ∀ (n : Nat) (l : List Char)
    (pos : Nat), childrenOk (sepByCommentsAux n l pos).1 = true := by
  intro n
  induction n with
  | zero => intro l pos; rfl
  | succ n ih =>
    intro l pos
    rw [sepByCommentsAux]
    cases hm : commentP (l.dropWhile isJsWs)
        (pos + (l.length - (l.dropWhile isJsWs).length)) with
    | ok v =>
      obtain ⟨c, l1, p1⟩ := v
      dsimp only
      rcases hrec : sepByCommentsAux n l1 p1 with ⟨cs, l2, p2⟩
      dsimp only
      obtain ⟨t, ht⟩ := commentP_shape hm
      subst ht
      have h2 := ih l1 p1
      rw [hrec] at h2
      simp only [childrenOk, h2]
      rfl
    | error f => rfl

theorem commentsSeq_childrenOk (l : List Char) (pos : Nat) :
    childrenOk (commentsSeq l pos).1 = true := by
  rw [commentsSeq]
  cases hm : commentP l pos with
  | ok v =>
    obtain ⟨c, la, pa⟩ := v
    dsimp only
    rcases hrec : sepByCommentsAux (la.length + 1) la pa with ⟨cs, lb, pb⟩
    dsimp only
    obtain ⟨t, ht⟩ := commentP_shape hm
    subst ht
    have h2 := sepByCommentsAux_childrenOk (la.length + 1) la pa
    rw [hrec] at h2
    simp only [childrenOk, h2]
    rfl
  | error f => rfl

theorem spacesAndCommentsP_childrenOk (l : List Char) (pos : Nat) :
    childrenOk (spacesAndCommentsP l pos).1 = true := by
  rw [spacesAndCommentsP]
  rcases hc : commentsSeq (l.drop (l.takeWhile isJsWs).length)
      (pos + (l.takeWhile isJsWs).length) with ⟨comments, l2, p2⟩
  dsimp only
  have h2 := commentsSeq_childrenOk (l.drop (l.takeWhile isJsWs).length)
    (pos + (l.takeWhile isJsWs).length)
  rw [hc] at h2
  simp [childrenOk, childrenOk_append, nodeOk_ws_text, h2]

theorem doctypeP_shape {l : List Char} {pos : Nat} {n : MNode}
    {r : List Char} {p : Nat} (h : doctypeP l pos = .ok (n, r, p)) :
    n = .text "<!DOCTYPE html>" := by
  unfold doctypeP at h
  dsimp only at h
  split at h
  · split at h
    · exact Except.noConfusion h
    · split at h
      · split at h
        · injection h with h1
          injection h1 with h2 _
          exact h2.symm
        · exact Except.noConfusion h
      · exact Except.noConfusion h
  · exact Except.noConfusion h

theorem parseFragments_childrenOk (x : String) :
    childrenOk (parseFragments x) = true := by
  unfold parseFragments parseFragmentsFrom fragmentsP
  rcases hcl : childrenLoop (elementP (x.toList.length + 1))
      (x.toList.length + 1) [] [] false x.toList 0 with ⟨ns, l2, p2, st2⟩
  dsimp only
  have h := childrenLoop_childrenOk (elementP (x.toList.length + 1))
    (fun st l pos n r p st' hh =>
      elementP_nodeOk (x.toList.length + 1) st l pos n r p st' hh)
    (x.toList.length + 1) [] [] false x.toList 0
  rw [hcl] at h
  exact h

theorem parseElement_nodeOk {x : String} {n : MNode}
    (h : parseElement x = .ok n) : nodeOk n = true := by
  unfold parseElement parseElementFrom at h
  split at h
  · rename_i v st1 n1 r1 p1 heq
    injection h with h1
    subst h1
    exact elementP_nodeOk _ _ _ _ _ _ _ _ heq
  · exact Except.noConfusion h

theorem shadowRootP_childrenOk {st : Stack} {l : List Char}
    {ns : MFragment} {r : List Char} {p : Nat} {st' : Stack}
    (h : shadowRootP st l = (.ok (ns, r, p), st')) :
    childrenOk ns = true := by
  unfold shadowRootP at h
  rcases hsc : spacesAndCommentsP l 0 with ⟨sc, l1, p1⟩
  rw [hsc] at h
  dsimp only at h
  split at h
  · exact (errorPair_ne_okPair h).elim
  · rename_i e l2 p2 st2 helem
    split at h
    · rename_i tag kind attrs ch b
      split at h
      · exact (errorPair_ne_okPair h).elim
      · split at h
        · exact (errorPair_ne_okPair h).elim
        · obtain ⟨hn, _, _, _⟩ := okPair_inj h
          subst hn
          rw [childrenOk_append]
          have h1 := spacesAndCommentsP_childrenOk l 0
          rw [hsc] at h1
          have h2 := elementP_nodeOk _ _ _ _ _ _ _ _ helem
          simp [childrenOk, h1, h2]
    · exact (errorPair_ne_okPair h).elim

theorem parseShadowRoot_childrenOk {x : String} {ns : MFragment}
    (h : parseShadowRoot x = .ok ns) : childrenOk ns = true := by
  unfold parseShadowRoot parseShadowRootFrom at h
  split at h
  · rename_i v st1 ns1 r1 p1 heq
    injection h with h1
    subst h1
    exact shadowRootP_childrenOk heq
  · exact Except.noConfusion h

theorem htmlP_nodeOk {st : Stack} {l : List Char} {ns : MFragment}
    {r : List Char} {p : Nat} {st' : Stack}
    (h : htmlP st l = (.ok (ns, r, p), st')) :
    ∀ m ∈ ns, m = .text "<!DOCTYPE html>" ∨ nodeOk m = true := by
  unfold htmlP at h
  rcases hsc1 : spacesAndCommentsP l 0 with ⟨sc1, l1, p1⟩
  rw [hsc1] at h
  dsimp only at h
  cases hdoc : doctypeP l1 p1 with
  | error f =>
    rw [hdoc] at h
    exact (errorPair_ne_okPair h).elim
  | ok v =>
    obtain ⟨d, l2, p2⟩ := v
    rw [hdoc] at h
    dsimp only at h
    rcases hsc2 : spacesAndCommentsP l2 p2 with ⟨sc2, l3, p3⟩
    rw [hsc2] at h
    dsimp only at h
    split at h
    · exact (errorPair_ne_okPair h).elim
    · rename_i e l4 p4 st2 helem
      rcases hsc3 : spacesAndCommentsP l4 p4 with ⟨sc3, l5, p5⟩
      rw [hsc3] at h
      dsimp only at h
      obtain ⟨hn, _, _, _⟩ := okPair_inj h
      subst hn
      intro m hm
      simp only [List.append_nil, List.mem_append, List.mem_singleton] at hm
      have hc1 := spacesAndCommentsP_childrenOk l 0
      rw [hsc1] at hc1
      have hc2 := spacesAndCommentsP_childrenOk l2 p2
      rw [hsc2] at hc2
      have hc3 := spacesAndCommentsP_childrenOk l4 p4
      rw [hsc3] at hc3
      rcases hm with ((((hm | hm) | hm) | hm) | hm)
      · exact Or.inr (childrenOk_mem hc1 hm)
      · subst hm
        exact Or.inl (doctypeP_shape hdoc)
      · exact Or.inr (childrenOk_mem hc2 hm)
      · subst hm
        exact Or.inr (elementP_nodeOk _ _ _ _ _ _ _ _ helem)
      · exact Or.inr (childrenOk_mem hc3 hm)

theorem parseHtml_nodeOk {x : String} {ns : MFragment}
    (h : parseHtml x = .ok ns) :
    ∀ m ∈ ns, m = .text "<!DOCTYPE html>" ∨ nodeOk m = true := by
  unfold parseHtml parseHtmlFrom at h
  split at h
  · rename_i v st1 ns1 r1 p1 heq
    injection h with h1
    subst h1
    exact htmlP_nodeOk heq
  · exact Except.noConfusion h

theorem isEmpty_eq_nil {ns : MFragment} (h : ns.isEmpty = true) :
    ns = [] := by
  cases ns with
  | nil => rfl
  | cons a b => exact Bool.noConfusion h

theorem bool_and_elim {a b : Bool} (h : (a && b) = true) :
    a = true ∧ b = true := by
  cases a
  · exact Bool.noConfusion h
  · cases b
    · exact Bool.noConfusion h
    · exact ⟨rfl, rfl⟩

mutual

theorem nodeOk_imp_textOk : ∀ (n : MNode), nodeOk n = true → textOk n = true
  | .text _, h => h
  | .comment _, _ => rfl
  | .cdata _, _ => rfl
  | .element tag kind attrs children sc, h => by
    cases kind with
    | RAW_TEXT =>
      rfl
    | ESCAPABLE_RAW_TEXT =>
      rfl
    | VOID =>
      replace h : (children.isEmpty && sc) = true := h
      obtain ⟨h1, h2⟩ := bool_and_elim h
      rw [isEmpty_eq_nil h1]
      rfl
    | TEMPLATE =>
      cases sc with
      | true =>
        replace h : (decide (ElementKind.TEMPLATE = .FOREIGN) &&
          children.isEmpty) = true := h
        exact Bool.noConfusion (bool_and_elim h).1
      | false =>
        replace h : childrenOk children = true := h
        exact childrenOk_imp_textOkList children h
    | FOREIGN =>
      cases sc with
      | true =>
        replace h : (decide (ElementKind.FOREIGN = .FOREIGN) &&
          children.isEmpty) = true := h
        rw [isEmpty_eq_nil (bool_and_elim h).2]
        rfl
      | false =>
        replace h : childrenOk children = true := h
        exact childrenOk_imp_textOkList children h
    | NORMAL =>
      cases sc with
      | true =>
        replace h : (decide (ElementKind.NORMAL = .FOREIGN) &&
          children.isEmpty) = true := h
        exact Bool.noConfusion (bool_and_elim h).1
      | false =>
        replace h : childrenOk children = true := h
        exact childrenOk_imp_textOkList children h

theorem childrenOk_imp_textOkList : ∀ (ns : List MNode),
    childrenOk ns = true → textOkList ns = true
  | [], _ => rfl
  | n :: ns, h => by
    replace h : (nodeOk n && childrenOk ns) = true := h
    obtain ⟨h1, h2⟩ := bool_and_elim h
    have r1 := nodeOk_imp_textOk n h1
    have r2 := childrenOk_imp_textOkList ns h2
    show (textOk n && textOkList ns) = true
    rw [r1, r2]
    rfl

end

mutual

theorem nodeOk_imp_rawShapeOk : ∀ (n : MNode), nodeOk n = true → rawShapeOk n = true
  | .text _, h => rfl
  | .comment _, _ => rfl
  | .cdata _, _ => rfl
  | .element tag kind attrs children sc, h => by
    cases kind with
    | RAW_TEXT =>
      cases children with
      | nil => rfl
      | cons c rest =>
        cases rest with
        | cons c2 rest2 =>
          cases c <;>
            (replace h : (!sc && false) = true := h;
             rw [Bool.and_false] at h;
             exact Bool.noConfusion h)
        | nil =>
          cases c with
          | text t => rfl
          | comment t =>
            replace h : (!sc && false) = true := h
            rw [Bool.and_false] at h
            exact Bool.noConfusion h
          | cdata t =>
            replace h : (!sc && false) = true := h
            rw [Bool.and_false] at h
            exact Bool.noConfusion h
          | element a b cc d e =>
            replace h : (!sc && false) = true := h
            rw [Bool.and_false] at h
            exact Bool.noConfusion h
    | ESCAPABLE_RAW_TEXT =>
      cases children with
      | nil => rfl
      | cons c rest =>
        cases rest with
        | cons c2 rest2 =>
          cases c <;>
            (replace h : (!sc && false) = true := h;
             rw [Bool.and_false] at h;
             exact Bool.noConfusion h)
        | nil =>
          cases c with
          | text t => rfl
          | comment t =>
            replace h : (!sc && false) = true := h
            rw [Bool.and_false] at h
            exact Bool.noConfusion h
          | cdata t =>
            replace h : (!sc && false) = true := h
            rw [Bool.and_false] at h
            exact Bool.noConfusion h
          | element a b cc d e =>
            replace h : (!sc && false) = true := h
            rw [Bool.and_false] at h
            exact Bool.noConfusion h
    | VOID =>
      replace h : (children.isEmpty && sc) = true := h
      obtain ⟨h1, h2⟩ := bool_and_elim h
      rw [isEmpty_eq_nil h1]
      rfl
    | TEMPLATE =>
      cases sc with
      | true =>
        replace h : (decide (ElementKind.TEMPLATE = .FOREIGN) &&
          children.isEmpty) = true := h
        exact Bool.noConfusion (bool_and_elim h).1
      | false =>
        replace h : childrenOk children = true := h
        exact childrenOk_imp_rawShapeList children h
    | FOREIGN =>
      cases sc with
      | true =>
        replace h : (decide (ElementKind.FOREIGN = .FOREIGN) &&
          children.isEmpty) = true := h
        rw [isEmpty_eq_nil (bool_and_elim h).2]
        rfl
      | false =>
        replace h : childrenOk children = true := h
        exact childrenOk_imp_rawShapeList children h
    | NORMAL =>
      cases sc with
      | true =>
        replace h : (decide (ElementKind.NORMAL = .FOREIGN) &&
          children.isEmpty) = true := h
        exact Bool.noConfusion (bool_and_elim h).1
      | false =>
        replace h : childrenOk children = true := h
        exact childrenOk_imp_rawShapeList children h

theorem childrenOk_imp_rawShapeList : ∀ (ns : List MNode),
    childrenOk ns = true → rawShapeList ns = true
  | [], _ => rfl
  | n :: ns, h => by
    replace h : (nodeOk n && childrenOk ns) = true := h
    obtain ⟨h1, h2⟩ := bool_and_elim h
    have r1 := nodeOk_imp_rawShapeOk n h1
    have r2 := childrenOk_imp_rawShapeList ns h2
    show (rawShapeOk n && rawShapeList ns) = true
    rw [r1, r2]
    rfl

end

mutual

theorem nodeOk_imp_voidOk : ∀ (n : MNode), nodeOk n = true → voidOk n = true
  | .text _, h => rfl
  | .comment _, _ => rfl
  | .cdata _, _ => rfl
  | .element tag kind attrs children sc, h => by
    cases kind with
    | RAW_TEXT =>
      cases children with
      | nil => rfl
      | cons c rest =>
        cases rest with
        | cons c2 rest2 =>
          cases c <;>
            (replace h : (!sc && false) = true := h;
             rw [Bool.and_false] at h;
             exact Bool.noConfusion h)
        | nil =>
          cases c with
          | text t => rfl
          | comment t =>
            replace h : (!sc && false) = true := h
            rw [Bool.and_false] at h
            exact Bool.noConfusion h
          | cdata t =>
            replace h : (!sc && false) = true := h
            rw [Bool.and_false] at h
            exact Bool.noConfusion h
          | element a b cc d e =>
            replace h : (!sc && false) = true := h
            rw [Bool.and_false] at h
            exact Bool.noConfusion h
    | ESCAPABLE_RAW_TEXT =>
      cases children with
      | nil => rfl
      | cons c rest =>
        cases rest with
        | cons c2 rest2 =>
          cases c <;>
            (replace h : (!sc && false) = true := h;
             rw [Bool.and_false] at h;
             exact Bool.noConfusion h)
        | nil =>
          cases c with
          | text t => rfl
          | comment t =>
            replace h : (!sc && false) = true := h
            rw [Bool.and_false] at h
            exact Bool.noConfusion h
          | cdata t =>
            replace h : (!sc && false) = true := h
            rw [Bool.and_false] at h
            exact Bool.noConfusion h
          | element a b cc d e =>
            replace h : (!sc && false) = true := h
            rw [Bool.and_false] at h
            exact Bool.noConfusion h
    | VOID =>
      replace h : (children.isEmpty && sc) = true := h
      obtain ⟨h1, h2⟩ := bool_and_elim h
      subst h2
      rw [isEmpty_eq_nil h1]
      rfl
    | TEMPLATE =>
      cases sc with
      | true =>
        replace h : (decide (ElementKind.TEMPLATE = .FOREIGN) &&
          children.isEmpty) = true := h
        exact Bool.noConfusion (bool_and_elim h).1
      | false =>
        replace h : childrenOk children = true := h
        exact childrenOk_imp_voidOkList children h
    | FOREIGN =>
      cases sc with
      | true =>
        replace h : (decide (ElementKind.FOREIGN = .FOREIGN) &&
          children.isEmpty) = true := h
        rw [isEmpty_eq_nil (bool_and_elim h).2]
        rfl
      | false =>
        replace h : childrenOk children = true := h
        exact childrenOk_imp_voidOkList children h
    | NORMAL =>
      cases sc with
      | true =>
        replace h : (decide (ElementKind.NORMAL = .FOREIGN) &&
          children.isEmpty) = true := h
        exact Bool.noConfusion (bool_and_elim h).1
      | false =>
        replace h : childrenOk children = true := h
        exact childrenOk_imp_voidOkList children h

theorem childrenOk_imp_voidOkList : ∀ (ns : List MNode),
    childrenOk ns = true → voidOkList ns = true
  | [], _ => rfl
  | n :: ns, h => by
    replace h : (nodeOk n && childrenOk ns) = true := h
    obtain ⟨h1, h2⟩ := bool_and_elim h
    have r1 := nodeOk_imp_voidOk n h1
    have r2 := childrenOk_imp_voidOkList ns h2
    show (voidOk n && voidOkList ns) = true
    rw [r1, r2]
    rfl

end

/-! ## Claim theorems: the concrete claims -/

/-- C2: `parseElement "<ul><li>A<li>B</ul>"` succeeds with a NORMAL `ul`
element whose children are exactly two `li` elements, the first with the
single child `Text "A"` and the second with the single child `Text "B"`
(the second `<li>` start tag implicitly closes the first `li` without
being consumed by it), and `serializeNode` of that result is
`"<ul><li>A</li><li>B</li></ul>"`. -/
theorem c2_ul_li_parse_and_serialize :
    parseElement "<ul><li>A<li>B</ul>" =
      .ok (.element "ul" .NORMAL []
        [.element "li" .NORMAL [] [.text "A"] false,
         .element "li" .NORMAL [] [.text "B"] false] false) ∧
    serializeNode (.element "ul" .NORMAL []
        [.element "li" .NORMAL [] [.text "A"] false,
         .element "li" .NORMAL [] [.text "B"] false] false) false =
      "<ul><li>A</li><li>B</li></ul>" :=
  ⟨rfl, rfl⟩

/-- C6: evaluating the parser at the claim's input `"<input></input>"`
shows the claim's divergence from the code: the parse does fail (after the
7 characters of the start tag), but the failure message the code builds at
`parser.ts:465` is `"Unexpected end tag"`, not the claimed
`"Unexpected end tag on a void element"` (which is what the spec and the
repository's `tests/html.test.ts` expect). -/
theorem c6_void_end_tag_short_message :
    parseElement "<input></input>" = .error ⟨"Unexpected end tag", 7⟩ ∧
    "Unexpected end tag" ≠ "Unexpected end tag on a void element" :=
  ⟨rfl, by decide⟩

/-- C9: evaluating the parser at the failing input `"<P></P><svg/>"`.  The
first invocation (from the clean, empty foreign stack) yields a NORMAL
element with lowercased tag `p`, and leaves `"svg"` on the stack —
`<svg/>` pushes in `elementKind` but only a consumed end tag pops.  The
second invocation therefore starts on the dirty stack and returns a
different result: tag casing `P` preserved and kind FOREIGN.  So the stack
is not restored to empty, and two successive invocations on the same
input differ, refuting the claimed hyperproperty (the code violates the
spec's requirement that the stack not leak across invocations). -/
theorem c9_foreign_stack_leaks_across_invocations :
    parseFragmentsFrom [] "<P></P><svg/>" =
      ([.element "p" .NORMAL [] [] false,
        .element "svg" .FOREIGN [] [] true], ["svg"]) ∧
    parseFragmentsFrom ["svg"] "<P></P><svg/>" =
      ([.element "P" .FOREIGN [] [] false,
        .element "svg" .FOREIGN [] [] true], ["svg", "svg"]) ∧
    (MNode.element "p" .NORMAL [] [] false) ≠
      (MNode.element "P" .FOREIGN [] [] false) := by
  refine ⟨rfl, rfl, fun h => ?_⟩
  injection h with htag _
  exact absurd htag (by decide)

/-- C10: for every CDATA node (in particular every one produced by parsing
a CDATA section inside foreign content), the guard `isMNode` returns
false: the object carries only `kind` and `text`, and for every kind other
than COMMENT and TEXT the guard requires `tagName` and `attributes`.
Consequently `isTextNode`, `isCommentNode` and `isElementNode` also return
false on it. -/
theorem c10_cdata_fails_all_guards (t : String) :
    isMNode (toJsObj (.cdata t)) = false ∧
    isCommentNode (toJsObj (.cdata t)) = false ∧
    isTextNode (toJsObj (.cdata t)) = false ∧
    isElementNode (toJsObj (.cdata t)) = false :=
  ⟨rfl, rfl, rfl, rfl⟩

/-! ## Claim theorems: counterexamples -/

/-- C1 counterexample: the input `"<span ></span>"` satisfies all three
side conditions of the claim (no omission-table tag occurs, no doctype, no
`/>`), `parseFragments` succeeds on it consuming it entirely, and yet the
serialization of the result drops the whitespace inside the start tag, so
`serializeFragments (parseFragments x) ≠ x`. -/
theorem c1_counterexample :
    parseFragments "<span ></span>" =
      [.element "span" .NORMAL [] [] false] ∧
    noOmissionTrigger "<span ></span>" = true ∧
    noDoctypeCaseVariation "<span ></span>" = true ∧
    noSelfClosingSlash "<span ></span>" = true ∧
    serializeFragments [.element "span" .NORMAL [] [] false] false =
      "<span></span>" ∧
    ("<span></span>" : String) ≠ "<span ></span>" :=
  ⟨rfl, by decide, by decide, by decide, rfl, by decide⟩

/-- C3 counterexample: `x = "<svg><circle/></svg>"` parses successfully,
but its serialization drops the self-closing slash of the foreign
`circle`, so the reparse fails to parse the `svg` element at all (the
`circle` now needs an explicit end tag) and yields the empty fragment:
`parseFragments (serializeFragments (parseFragments x)) ≠
parseFragments x`. -/
theorem c3_counterexample :
    parseFragments "<svg><circle/></svg>" =
      [.element "svg" .FOREIGN []
        [.element "circle" .FOREIGN [] [] true] false] ∧
    serializeFragments (parseFragments "<svg><circle/></svg>") false =
      "<svg><circle></svg>" ∧
    parseFragments "<svg><circle></svg>" = [] ∧
    ([] : MFragment) ≠
      [.element "svg" .FOREIGN []
        [.element "circle" .FOREIGN [] [] true] false] := by
  refine ⟨rfl, rfl, rfl, fun h => ?_⟩
  exact List.noConfusion h

/-- C4 counterexample: `parseElement "<script><</script>"` succeeds, and
the text child of the RAW_TEXT `script` element is exactly `"<"`, which
contains the character `<`; so it is not true that the text of every Text
node a successful parse produces avoids `<`. -/
theorem c4_counterexample :
    parseElement "<script><</script>" =
      .ok (.element "script" .RAW_TEXT [] [.text "<"] false) ∧
    strHasChar "<" '<' = true :=
  ⟨rfl, rfl⟩

/-- C7 counterexample: a fragment whose *last* element is a conforming
declarative shadow-root template is still rejected when it is not the
*first* element: `shadowRoot` parses exactly one element after the leading
whitespace and comments and checks that one. -/
theorem c7_counterexample :
    parseShadowRoot
      "<div></div><template shadowrootmode=\"open\"></template>" =
      .error ⟨"Expected a template element", 0⟩ :=
  rfl

/-- C8 counterexample: a VOID element node with `selfClosing = false` does
not serialize to the same string as the same node with
`selfClosing = true`: the serializer emits a spurious end tag. -/
theorem c8_counterexample :
    serializeNode (.element "br" .VOID [] [] false) false = "<br></br>" ∧
    serializeNode (.element "br" .VOID [] [] true) false = "<br>" ∧
    ("<br></br>" : String) ≠ "<br>" :=
  ⟨rfl, rfl, by decide⟩

/-! ## Claim theorems: the amended invariants -/

theorem rawShapeList_of_mem {ns : MFragment}
    (h : ∀ m ∈ ns, rawShapeOk m = true) : rawShapeList ns = true := by
  induction ns with
  | nil => rfl
  | cons n rest ih =>
    show (rawShapeOk n && rawShapeList rest) = true
    rw [h n (List.mem_cons_self n rest),
      ih (fun m hm => h m (List.mem_cons_of_mem n hm))]
    rfl

theorem voidOkList_of_mem {ns : MFragment}
    (h : ∀ m ∈ ns, voidOk m = true) : voidOkList ns = true := by
  induction ns with
  | nil => rfl
  | cons n rest ih =>
    show (voidOk n && voidOkList rest) = true
    rw [h n (List.mem_cons_self n rest),
      ih (fun m hm => h m (List.mem_cons_of_mem n hm))]
    rfl

/-- C4 (amended): every Text node a successful parse produces contains no
`<`, except (a) the Text children of RAW_TEXT and ESCAPABLE_RAW_TEXT
elements, whose raw bodies may contain `<`, and (b) for `parseHtml`, the
normalized doctype text node `<!DOCTYPE html>`.  (The unamended claim —
no Text node at all contains `<` — is refuted by
`c4_counterexample`.) -/
theorem c4_text_no_lt_amended (x : String) :
    (∀ n, parseElement x = .ok n → textOk n = true) ∧
    textOkList (parseFragments x) = true ∧
    (∀ ns, parseShadowRoot x = .ok ns → textOkList ns = true) ∧
    (∀ ns, parseHtml x = .ok ns →
      ∀ m ∈ ns, m = .text "<!DOCTYPE html>" ∨ textOk m = true) := by
  refine ⟨?_, ?_, ?_, ?_⟩
  · intro n h
    exact nodeOk_imp_textOk n (parseElement_nodeOk h)
  · exact childrenOk_imp_textOkList _ (parseFragments_childrenOk x)
  · intro ns h
    exact childrenOk_imp_textOkList _ (parseShadowRoot_childrenOk h)
  · intro ns h m hm
    rcases parseHtml_nodeOk h m hm with h1 | h1
    · exact Or.inl h1
    · exact Or.inr (nodeOk_imp_textOk m h1)

/-- C4 witness: the amended theorem applied at the input `"<p>a</p>"`. -/
theorem c4_text_no_lt_amended_witness :
    textOk (MNode.element "p" .NORMAL [] [.text "a"] false) = true :=
  (c4_text_no_lt_amended "<p>a</p>").1
    (MNode.element "p" .NORMAL [] [.text "a"] false) rfl

/-- C5: every element of kind RAW_TEXT or ESCAPABLE_RAW_TEXT anywhere in
the tree produced by a successful parse (via any of the four entry
points) has at most one child, and the sole child, when present, is a
Text node. -/
theorem c5_raw_text_children_shape (x : String) :
    (∀ n, parseElement x = .ok n → rawShapeOk n = true) ∧
    rawShapeList (parseFragments x) = true ∧
    (∀ ns, parseShadowRoot x = .ok ns → rawShapeList ns = true) ∧
    (∀ ns, parseHtml x = .ok ns → rawShapeList ns = true) := by
  refine ⟨?_, ?_, ?_, ?_⟩
  · intro n h
    exact nodeOk_imp_rawShapeOk n (parseElement_nodeOk h)
  · exact childrenOk_imp_rawShapeList _ (parseFragments_childrenOk x)
  · intro ns h
    exact childrenOk_imp_rawShapeList _ (parseShadowRoot_childrenOk h)
  · intro ns h
    refine rawShapeList_of_mem (fun m hm => ?_)
    rcases parseHtml_nodeOk h m hm with h1 | h1
    · subst h1
      rfl
    · exact nodeOk_imp_rawShapeOk m h1

/-- C5 witness: the theorem applied at the input `"<title>a</title>"`. -/
theorem c5_raw_text_children_shape_witness :
    rawShapeOk (MNode.element "title" .ESCAPABLE_RAW_TEXT []
      [.text "a"] false) = true :=
  (c5_raw_text_children_shape "<title>a</title>").1
    (MNode.element "title" .ESCAPABLE_RAW_TEXT [] [.text "a"] false) rfl

/-- C8 (amended): every VOID element a successful parse produces has no
children and carries `selfClosing = true`, and the serializer renders such
a node as exactly its start tag.  (The original claim's assertion that the
serialization is the same for `selfClosing` false is refuted by
`c8_counterexample`; parsed void elements never carry `false`.) -/
theorem c8_void_elements_amended (x : String) :
    (∀ n, parseElement x = .ok n → voidOk n = true) ∧
    voidOkList (parseFragments x) = true ∧
    (∀ ns, parseShadowRoot x = .ok ns → voidOkList ns = true) ∧
    (∀ ns, parseHtml x = .ok ns → voidOkList ns = true) ∧
    (∀ (tag : String) (attrs : List (String × String)) (rc : Bool),
      serializeNode (.element tag .VOID attrs [] true) rc =
        "<" ++ tag ++ attributesStringOf attrs ++ ">") := by
  refine ⟨?_, ?_, ?_, ?_, ?_⟩
  · intro n h
    exact nodeOk_imp_voidOk n (parseElement_nodeOk h)
  · exact childrenOk_imp_voidOkList _ (parseFragments_childrenOk x)
  · intro ns h
    exact childrenOk_imp_voidOkList _ (parseShadowRoot_childrenOk h)
  · intro ns h
    refine voidOkList_of_mem (fun m hm => ?_)
    rcases parseHtml_nodeOk h m hm with h1 | h1
    · subst h1
      rfl
    · exact nodeOk_imp_voidOk m h1
  · intro tag attrs rc
    rfl

/-- C8 witness: the amended theorem applied at the input `"<input>"`. -/
theorem c8_void_elements_amended_witness :
    voidOk (MNode.element "input" .VOID [] [] true) = true :=
  (c8_void_elements_amended "<input>").1
    (MNode.element "input" .VOID [] [] true) rfl

/-- C7 (amended): `shadowRoot` parses optional whitespace and comments and
then exactly one element — not an arbitrary fragment — and checks that
element (the last node of its result): if it is a `template` carrying the
attribute `shadowrootmode="open"` the parse succeeds with the
whitespace/comment nodes followed by the element; if it is not a
`template` the parse fails with "Expected a template element"; if it is a
`template` without that attribute it fails with "Expected a declarative
shadow root". -/
theorem c7_shadow_root_amended (x : String) (e : MNode) (l2 : List Char)
    (p2 : Nat) (st' : Stack) (tag : String) (kind : ElementKind)
    (attrs : List (String × String)) (ch : List MNode) (b : Bool)
    (hel : elementP (x.toList.length + 1) []
      ((spacesAndCommentsP x.toList 0).2.1)
      ((spacesAndCommentsP x.toList 0).2.2) = (.ok (e, l2, p2), st'))
    (he : e = .element tag kind attrs ch b) :
    (tag = "template" →
      attrs.any (fun kv => kv.1 = "shadowrootmode" && kv.2 = "open") =
        true →
      parseShadowRoot x = .ok ((spacesAndCommentsP x.toList 0).1 ++ [e])) ∧
    (tag ≠ "template" →
      parseShadowRoot x = .error ⟨"Expected a template element", 0⟩) ∧
    (tag = "template" →
      attrs.any (fun kv => kv.1 = "shadowrootmode" && kv.2 = "open") =
        false →
      parseShadowRoot x = .error ⟨"Expected a declarative shadow root", 0⟩)
    := by
  subst he
  unfold parseShadowRoot parseShadowRootFrom shadowRootP
  rcases hsc : spacesAndCommentsP x.toList 0 with ⟨sc, l1, p1⟩
  rw [hsc] at hel
  dsimp only at hel
  dsimp only
  rw [hel]
  dsimp only
  refine ⟨?_, ?_, ?_⟩
  · intro ht ha
    rw [if_neg (fun hne => hne ht)]
    rw [if_neg (by rw [ha]; exact fun hh => Bool.noConfusion hh)]
  · intro ht
    rw [if_pos ht]
  · intro ht ha
    rw [if_neg (fun hne => hne ht)]
    rw [if_pos (by rw [ha]; rfl)]

/-- C7 witness: the amended theorem applied at a conforming declarative
shadow-root input (success case) — the hypotheses are discharged by
evaluation. -/
theorem c7_shadow_root_amended_witness :
    parseShadowRoot "<template shadowrootmode=\"open\"></template>" =
      .ok [.text "", .text "",
        .element "template" .TEMPLATE [("shadowrootmode", "open")] []
          false] :=
  (c7_shadow_root_amended
    "<template shadowrootmode=\"open\"></template>"
    (.element "template" .TEMPLATE [("shadowrootmode", "open")] [] false)
    [] 43 [] "template" .TEMPLATE [("shadowrootmode", "open")] [] false
    rfl rfl).1 rfl rfl

/-! ## Round-trip development

`reparse_fragments` below proves that parsing is a left inverse of
serialization on serializable trees: first character-level facts about
ASCII case folding, then list splitting helpers, then a re-parse lemma for
each grammar production, and finally the mutual tree induction. -/

/-- Reading back a valid code point. -/
theorem char_toNat_ofNat_valid (n : Nat) (h : n.isValidChar) :
    (Char.ofNat n).toNat = n := by
  unfold Char.ofNat
  rw [dif_pos h]
  rfl

/-- Characters with equal code points are equal. -/
theorem char_eq_of_toNat_eq {c d : Char} (h : c.toNat = d.toNat) : c = d :=
  Char.ext (UInt32.ext h)

/-- The code point of the lower-cased character, in closed form. -/
theorem toLower_toNat (c : Char) :
    c.toLower.toNat =
      if 65 ≤ c.toNat ∧ c.toNat ≤ 90 then c.toNat + 32 else c.toNat := by
  unfold Char.toLower
  split
  · next h =>
    rw [if_pos h]
    exact char_toNat_ofNat_valid _ (Or.inl (by omega))
  · next h => rw [if_neg h]

/-- Case-insensitive prefix is reflexive under a right extension. -/
theorem isPrefixCI_refl_append : ∀ (l m : List Char),
    isPrefixCI l (l ++ m) = true
  | [], _ => rfl
  | c :: cs, m => by
    unfold isPrefixCI
    simp [isPrefixCI_refl_append cs m]

/-- The cons-cons step of `isPrefixCI`, as a rewrite rule. -/
theorem isPrefixCI_cons_cons (p c : Char) (ps cs : List Char) :
    isPrefixCI (p :: ps) (c :: cs) =
      (decide (p.toLower = c.toLower) && isPrefixCI ps cs) := rfl

/-- Case-insensitive prefix against an append splits at the boundary. -/
theorem isPrefixCI_append_split : ∀ (a p b : List Char),
    isPrefixCI p (a ++ b) =
      (isPrefixCI (p.take a.length) a && isPrefixCI (p.drop a.length) b)
  | [], p, b => by simp [isPrefixCI]
  | x :: xs, [], b => by simp [isPrefixCI]
  | x :: xs, q :: qs, b => by
    simp only [List.cons_append, List.length_cons, List.take_succ_cons,
      List.drop_succ_cons, isPrefixCI_cons_cons]
    rw [isPrefixCI_append_split xs qs b, Bool.and_assoc]

/-- A case-insensitive prefix is not longer than the list. -/
theorem isPrefixCI_le_length : ∀ {p l : List Char},
    isPrefixCI p l = true → p.length ≤ l.length
  | [], _, _ => Nat.zero_le _
  | p :: ps, [], h => by cases h
  | p :: ps, c :: cs, h => by
    unfold isPrefixCI at h
    rcases Bool.and_eq_true_iff.mp h with ⟨_, h2⟩
    exact Nat.succ_le_succ (isPrefixCI_le_length h2)

/-- A short enough case-insensitive prefix ignores a right extension. -/
theorem isPrefixCI_append_of_le {p a : List Char} (b : List Char)
    (h : p.length ≤ a.length) : isPrefixCI p (a ++ b) = isPrefixCI p a := by
  rw [isPrefixCI_append_split, List.take_of_length_le h,
    List.drop_eq_nil_of_le h]
  cases hp : isPrefixCI p a <;> simp [isPrefixCI, hp]

/-- A boolean prefix test ignores a right extension past its length. -/
theorem isPrefixOf_append_of_le : ∀ {p a : List Char} (b : List Char),
    p.length ≤ a.length → (p.isPrefixOf (a ++ b)) = p.isPrefixOf a
  | [], _, _, _ => by simp [List.isPrefixOf]
  | q :: qs, [], b, h => by simp at h
  | q :: qs, x :: xs, b, h => by
    simp only [List.cons_append, List.isPrefixOf_cons₂]
    rw [isPrefixOf_append_of_le b (Nat.le_of_succ_le_succ h)]

/-- A `takeWhile` over an append stops exactly at the boundary when the
left part satisfies the predicate throughout and the right part opens with
a character that does not. -/
theorem takeWhile_append_of_all {p : Char → Bool} : ∀ (a b : List Char),
    a.all p = true → (∀ c cs, b = c :: cs → p c = false) →
    (a ++ b).takeWhile p = a
  | [], [], _, _ => rfl
  | [], c :: cs, _, hb => by
    simp [List.takeWhile_cons, hb c cs rfl]
  | x :: a, b, ha, hb => by
    rw [List.all_cons] at ha
    rcases Bool.and_eq_true_iff.mp ha with ⟨h1, h2⟩
    simp [List.takeWhile_cons, h1, takeWhile_append_of_all a b h2 hb]

/-- The `dropWhile` counterpart of `takeWhile_append_of_all`. -/
theorem dropWhile_append_of_all {p : Char → Bool} : ∀ (a b : List Char),
    a.all p = true → (∀ c cs, b = c :: cs → p c = false) →
    (a ++ b).dropWhile p = b
  | [], [], _, _ => rfl
  | [], c :: cs, _, hb => by
    simp [List.dropWhile_cons, hb c cs rfl]
  | x :: a, b, ha, hb => by
    rw [List.all_cons] at ha
    rcases Bool.and_eq_true_iff.mp ha with ⟨h1, h2⟩
    simp [List.dropWhile_cons, h1, dropWhile_append_of_all a b h2 hb]

/-- Dropping with a predicate the whole left part satisfies continues into
the right part. -/
theorem dropWhile_append_all {p : Char → Bool} : ∀ (a b : List Char),
    a.all p = true → (a ++ b).dropWhile p = b.dropWhile p
  | [], _, _ => rfl
  | x :: a, b, ha => by
    rw [List.all_cons] at ha
    rcases Bool.and_eq_true_iff.mp ha with ⟨h1, h2⟩
    simp [List.dropWhile_cons, h1, dropWhile_append_all a b h2]

/-- Lower-casing a character cannot produce one below code point 65, so
two characters whose fold-images agree and one of which is a low symbol
are equal. -/
theorem toLower_ne_symbol {c d : Char} (hd : d.toNat < 65) (hne : c ≠ d) :
    ¬(c.toLower = d.toLower) := by
  intro h
  have hd' : d.toLower = d := by
    apply char_eq_of_toNat_eq
    rw [toLower_toNat, if_neg (by omega)]
  rw [hd'] at h
  have hc := toLower_toNat c
  rw [h] at hc
  by_cases hup : 65 ≤ c.toNat ∧ c.toNat ≤ 90
  · rw [if_pos hup] at hc
    omega
  · rw [if_neg hup] at hc
    exact hne (char_eq_of_toNat_eq hc).symm

/-- Characters at or above code point 97 are fixed by folding. -/
theorem toLower_eq_self_of_ge {c : Char} (h : 97 ≤ c.toNat) :
    c.toLower = c := by
  apply char_eq_of_toNat_eq
  rw [toLower_toNat, if_neg (by omega)]

/-- Characters outside the upper-case range are fixed by folding. -/
theorem toLower_eq_self_of_not_upper {c : Char}
    (h : c.toNat < 65 ∨ 90 < c.toNat) : c.toLower = c := by
  apply char_eq_of_toNat_eq
  rw [toLower_toNat, if_neg (by omega)]

/-- Unfolding equation of `noEarlyStop` at a cons. -/
theorem noEarlyStop_cons (stop : List Char → Bool) (n : Nat) (c : Char)
    (cs : List Char) :
    noEarlyStop stop (n + 1) (c :: cs) =
      (!stop (c :: cs) && noEarlyStop stop n cs) := rfl

/-- The comment scanner stops at the start of the printed closer. -/
theorem commentStop_closer (more : List Char) :
    commentStop ('-' :: '-' :: '>' :: more) = true := by
  simp +decide [commentStop, List.isPrefixOf]

/-- A comment-scanner verdict of `false` on a list ending in the closer is
unaffected by appending more input. -/
theorem commentStop_append (b more : List Char) (hb : b ≠ [])
    (h : commentStop (b ++ ['-', '-', '>']) = false) :
    commentStop (b ++ '-' :: '-' :: '>' :: more) = false := by
  have hpos : 1 ≤ b.length := List.length_pos.mpr hb
  have hlen : 4 ≤ (b ++ ['-', '-', '>']).length := by
    simp [List.length_append]
    omega
  have heq : b ++ '-' :: '-' :: '>' :: more =
      (b ++ ['-', '-', '>']) ++ more := by
    simp [List.append_assoc]
  rw [heq]
  generalize hl : b ++ ['-', '-', '>'] = l at h hlen
  unfold commentStop at h ⊢
  rcases Bool.or_eq_false_iff.mp h with ⟨h123, h4⟩
  rcases Bool.or_eq_false_iff.mp h123 with ⟨h12, h3⟩
  rcases Bool.or_eq_false_iff.mp h12 with ⟨h1, h2⟩
  have e1 : (['-', '-', '>'] : List Char).length ≤ l.length := by
    simp
    omega
  have e2 : (['-', '-', '!', '>'] : List Char).length ≤ l.length := by
    simp
    omega
  have e3 : (['<', '!', '-', '-'] : List Char).length ≤ l.length := by
    simp
    omega
  rw [isPrefixOf_append_of_le more e1, h1,
    isPrefixOf_append_of_le more e2, h2,
    isPrefixOf_append_of_le more e3]
  have h5 : (decide (l ++ more = ['<', '!', '-'])) = false := by
    rw [decide_eq_false_iff_not]
    intro hcontra
    have := congrArg List.length hcontra
    simp [List.length_append] at this
    omega
  rw [h5]
  cases hp : ['<', '!', '-', '-'].isPrefixOf l with
  | false => rfl
  | true =>
    rw [hp] at h3
    simp only [Bool.true_and] at h3
    rw [List.drop_append_of_le_length (by omega)]
    simp only [Bool.false_or, Bool.true_and, Bool.or_eq_false_iff]
    refine ⟨?_, trivial⟩
    rcases hd : l.drop 4 with _ | ⟨d, ds⟩
    · have hlf : l.length ≤ 4 := by
        have h6 := congrArg List.length hd
        simp at h6
        omega
      have hb1 : b.length = 1 := by
        have h7 := congrArg List.length hl
        simp [List.length_append] at h7
        omega
      rcases b with _ | ⟨b0, b1⟩
      · exact absurd rfl hb
      · rcases b1 with _ | ⟨b2, b3⟩
        · rw [← hl] at hp
          simp +decide [List.isPrefixOf] at hp
        · simp at hb1
    · rw [hd] at h3
      simp only [List.cons_append]
      exact h3

/-- The CDATA scanner stops at the start of the printed closer. -/
theorem cdataStop_closer (more : List Char) :
    [']', ']', '>'].isPrefixOf (']' :: ']' :: '>' :: more) = true := by
  simp +decide [List.isPrefixOf]

/-- A CDATA-scanner verdict of `false` is unaffected by appending more
input past the closer. -/
theorem cdataStop_append (b more : List Char) (hb : b ≠ [])
    (h : [']', ']', '>'].isPrefixOf (b ++ [']', ']', '>']) = false) :
    [']', ']', '>'].isPrefixOf (b ++ ']' :: ']' :: '>' :: more) = false := by
  have hlen : 1 ≤ b.length := List.length_pos.mpr hb
  have heq : b ++ ']' :: ']' :: '>' :: more =
      (b ++ [']', ']', '>']) ++ more := by
    simp [List.append_assoc]
  rw [heq, isPrefixOf_append_of_le more (by simp [List.length_append])]
  exact h

/-- The raw-text scanner at a position that is not `</`. -/
theorem rawTextStop_not_open {tag : List Char} {c1 c2 : Char}
    {r : List Char} (h : ¬(c1 = '<' ∧ c2 = '/')) :
    rawTextStop tag (c1 :: c2 :: r) = false := by
  unfold rawTextStop
  split
  · next heq =>
    injection heq with e1 rest1
    injection rest1 with e2 _
    exact absurd ⟨e1, e2⟩ h
  · rfl

/-- Unfolding equation of the raw-text scanner at a `</` window. -/
theorem rawTextStop_open (tag r : List Char) :
    rawTextStop tag ('<' :: '/' :: r) =
      (isPrefixCI tag r &&
        (match r.drop tag.length with
         | c :: _ =>
           c = '\t' || c = '\n' || c.val = 12 || c = '\r' || c = ' ' ||
             c = '>' || c = '/'
         | [] => false)) := rfl

/-- The raw-text scanner stops at the start of the printed end tag. -/
theorem rawTextStop_closer (tag rest : List Char) :
    rawTextStop tag ('<' :: '/' :: (tag ++ '>' :: rest)) = true := by
  rw [rawTextStop_open, isPrefixCI_refl_append, List.drop_left]
  simp

/-- A raw-text-scanner verdict of `false` on a window that fits before the
appended input is unaffected by that input. -/
theorem rawTextStop_append {tag l : List Char} (more : List Char)
    (hfit : 3 + tag.length ≤ l.length) :
    rawTextStop tag (l ++ more) = rawTextStop tag l := by
  rcases l with _ | ⟨c1, _ | ⟨c2, r⟩⟩
  · simp at hfit
  · simp at hfit
    omega
  · by_cases hop : c1 = '<' ∧ c2 = '/'
    · rcases hop with ⟨e1, e2⟩
      subst e1
      subst e2
      have hlen : tag.length ≤ r.length := by
        simp at hfit
        omega
      show rawTextStop tag ('<' :: '/' :: (r ++ more)) = _
      rw [rawTextStop_open, rawTextStop_open,
        isPrefixCI_append_of_le more hlen,
        List.drop_append_of_le_length hlen]
      rcases hd : r.drop tag.length with _ | ⟨d, ds⟩
      · have h6 := congrArg List.length hd
        simp at h6 hfit
        omega
      · rfl
    · rw [rawTextStop_not_open hop]
      show rawTextStop tag (c1 :: c2 :: (r ++ more)) = false
      exact rawTextStop_not_open hop

/-- Scanning the printed comment body: the run is the body and the closer
is left in place. -/
theorem commentRun_exact : ∀ (t more : List Char),
    noEarlyStop commentStop t.length (t ++ ['-', '-', '>']) = true →
    commentRun (t ++ '-' :: '-' :: '>' :: more) =
      (t, '-' :: '-' :: '>' :: more)
  | [], more, _ => by
    show commentRun ('-' :: '-' :: '>' :: more) = _
    unfold commentRun
    rw [commentStop_closer more]
    rfl
  | c :: cs, more, h => by
    rw [show (c :: cs).length = cs.length + 1 from rfl] at h
    rw [show (c :: cs) ++ ['-', '-', '>'] = c :: (cs ++ ['-', '-', '>'])
      from rfl, noEarlyStop_cons] at h
    rcases Bool.and_eq_true_iff.mp h with ⟨h1, h2⟩
    have hstop : commentStop ((c :: cs) ++ '-' :: '-' :: '>' :: more)
        = false :=
      commentStop_append (c :: cs) more (by simp) (by simpa using h1)
    show commentRun (c :: (cs ++ '-' :: '-' :: '>' :: more)) = _
    unfold commentRun
    rw [show c :: (cs ++ '-' :: '-' :: '>' :: more) =
      (c :: cs) ++ '-' :: '-' :: '>' :: more from rfl, hstop]
    simp [commentRun_exact cs more h2]

/-- Scanning the printed CDATA body: the run is the body and the closer is
left in place. -/
theorem cdataRun_exact : ∀ (t more : List Char),
    noEarlyStop (fun l => [']', ']', '>'].isPrefixOf l) t.length
      (t ++ [']', ']', '>']) = true →
    cdataRun (t ++ ']' :: ']' :: '>' :: more) =
      (t, ']' :: ']' :: '>' :: more)
  | [], more, _ => by
    show cdataRun (']' :: ']' :: '>' :: more) = _
    unfold cdataRun
    rw [cdataStop_closer more]
    rfl
  | c :: cs, more, h => by
    rw [show (c :: cs).length = cs.length + 1 from rfl] at h
    rw [show (c :: cs) ++ [']', ']', '>'] = c :: (cs ++ [']', ']', '>'])
      from rfl, noEarlyStop_cons] at h
    rcases Bool.and_eq_true_iff.mp h with ⟨h1, h2⟩
    have hstop : [']', ']', '>'].isPrefixOf
        ((c :: cs) ++ ']' :: ']' :: '>' :: more) = false :=
      cdataStop_append (c :: cs) more (by simp) (by simpa using h1)
    show cdataRun (c :: (cs ++ ']' :: ']' :: '>' :: more)) = _
    unfold cdataRun
    rw [show c :: (cs ++ ']' :: ']' :: '>' :: more) =
      (c :: cs) ++ ']' :: ']' :: '>' :: more from rfl, hstop]
    simp [cdataRun_exact cs more h2]

/-- Scanning the printed raw-text body: the run is the body and the end
tag is left in place. -/
theorem rawTextRun_exact (tag : List Char) : ∀ (t rest : List Char),
    noEarlyStop (rawTextStop tag) t.length
      (t ++ '<' :: '/' :: (tag ++ ['>'])) = true →
    rawTextRun tag (t ++ '<' :: '/' :: (tag ++ '>' :: rest)) =
      (t, '<' :: '/' :: (tag ++ '>' :: rest))
  | [], rest, _ => by
    show rawTextRun tag ('<' :: '/' :: (tag ++ '>' :: rest)) = _
    unfold rawTextRun
    rw [rawTextStop_closer tag rest]
    rfl
  | c :: cs, rest, h => by
    rw [show (c :: cs).length = cs.length + 1 from rfl] at h
    rw [show (c :: cs) ++ '<' :: '/' :: (tag ++ ['>']) =
      c :: (cs ++ '<' :: '/' :: (tag ++ ['>'])) from rfl,
      noEarlyStop_cons] at h
    rcases Bool.and_eq_true_iff.mp h with ⟨h1, h2⟩
    have hstop : rawTextStop tag
        ((c :: cs) ++ '<' :: '/' :: (tag ++ '>' :: rest)) = false := by
      have hbase : rawTextStop tag
          ((c :: cs) ++ '<' :: '/' :: (tag ++ ['>'])) = false := by
        simpa using h1
      have e1 : (c :: cs) ++ '<' :: '/' :: (tag ++ ['>']) =
          ((c :: cs) ++ '<' :: '/' :: tag) ++ ['>'] := by
        simp [List.append_assoc]
      have e2 : (c :: cs) ++ '<' :: '/' :: (tag ++ '>' :: rest) =
          (((c :: cs) ++ '<' :: '/' :: tag) ++ ['>']) ++ rest := by
        simp [List.append_assoc]
      rw [e1] at hbase
      rw [e2, rawTextStop_append rest (by simp [List.length_append]; omega)]
      exact hbase
    show rawTextRun tag (c :: (cs ++ '<' :: '/' :: (tag ++ '>' :: rest)))
      = _
    unfold rawTextRun
    rw [show c :: (cs ++ '<' :: '/' :: (tag ++ '>' :: rest)) =
      (c :: cs) ++ '<' :: '/' :: (tag ++ '>' :: rest) from rfl, hstop]
    simp [rawTextRun_exact tag cs rest h2]

/-- A true negation of a boolean gives its falsity. -/
theorem bool_not_true {b : Bool} (h : (!b) = true) : b = false := by
  cases b
  · rfl
  · exact Bool.noConfusion h

/-- Unequal code points give unequal characters. -/
theorem char_ne_of_toNat_ne {c d : Char} (h : c.toNat ≠ d.toNat) : c ≠ d :=
  fun he => h (congrArg Char.toNat he)

/-- Consuming the literal end tag printed for `tag`. -/
theorem literalEndTag_self (tag : String) (more : List Char) :
    literalEndTag tag ('<' :: '/' :: (tag.data ++ '>' :: more)) =
      some more := by
  show (if isPrefixCI tag.toList (tag.data ++ '>' :: more) then
      match ((tag.data ++ '>' :: more).drop tag.toList.length).dropWhile
          isJsWs with
      | '>' :: rest2 => some rest2
      | _ => none
    else none) = some more
  have ht : tag.toList = tag.data := rfl
  rw [ht, if_pos (isPrefixCI_refl_append tag.data ('>' :: more)),
    List.drop_left]
  have hws : isJsWs '>' = false := by decide
  rw [List.dropWhile_cons, hws]
  simp

/-- Unfolding equation of `closedLookahead` at a `</` window. -/
theorem closedLookahead_open (t : String) (w : List Char) :
    closedLookahead t ('<' :: '/' :: w) =
      (isPrefixCI t.toList w &&
        (match (w.drop t.toList.length).dropWhile isJsWs with
         | '>' :: _ => true
         | _ => false)) := rfl

/-- The closing-tag zero-width trigger of another tag cannot fire on the
literal end tag printed for `tag`: the trigger's tag is lower-case
alphabetic, `tag` contains no whitespace and no `>`, and the two are not
case-insensitively equal. -/
theorem closedLookahead_gen (t tag : String) (more : List Char)
    (ht : t.data.all (fun c => (97 ≤ c.toNat && c.toNat ≤ 122) || (48 ≤ c.toNat && c.toNat ≤ 57)) = true)
    (htag : tag.data.all (fun c => !isJsWs c && !decide (c = '>')) = true)
    (hne : (decide (t.data.length = tag.data.length) &&
      isPrefixCI t.data tag.data) = false) :
    closedLookahead t ('<' :: '/' :: (tag.data ++ '>' :: more)) = false := by
  rw [closedLookahead_open]
  have htl : t.toList = t.data := rfl
  rw [htl]
  cases hp : isPrefixCI t.data (tag.data ++ '>' :: more) with
  | false => rfl
  | true =>
    rw [isPrefixCI_append_split] at hp
    rcases Bool.and_eq_true_iff.mp hp with ⟨hp1, hp2⟩
    rcases Nat.lt_trichotomy t.data.length tag.data.length with hlt | heq | hgt
    · rw [List.drop_append_of_le_length (Nat.le_of_lt hlt)]
      rcases hd : tag.data.drop t.data.length with _ | ⟨d, ds⟩
      · have h6 := congrArg List.length hd
        simp only [List.length_drop, List.length_nil] at h6
        omega
      · have hdmem : d ∈ tag.data := by
          have hmem : d ∈ tag.data.drop t.data.length := by
            rw [hd]
            exact List.mem_cons_self d ds
          exact List.mem_of_mem_drop hmem
        rcases Bool.and_eq_true_iff.mp
          (List.all_eq_true.mp htag d hdmem) with ⟨hw, hgt2⟩
        have hwf : isJsWs d = false := by simpa using hw
        have hdne : d ≠ '>' := by simpa using hgt2
        rw [show (d :: ds) ++ '>' :: more = d :: (ds ++ '>' :: more)
          from rfl, List.dropWhile_cons,
          if_neg (by rw [hwf]; exact Bool.false_ne_true), Bool.true_and]
        split
        · next heq =>
          injection heq with h1 h2
          exact absurd h1 hdne
        · rfl
    · rw [List.take_of_length_le (Nat.le_of_eq heq)] at hp1
      rw [decide_eq_true heq, Bool.true_and] at hne
      rw [hne] at hp1
      exact Bool.noConfusion hp1
    · have hsplit : t.data.drop tag.data.length ≠ [] := by
        intro hcon
        have h6 := congrArg List.length hcon
        simp only [List.length_drop, List.length_nil] at h6
        omega
      rcases hds : t.data.drop tag.data.length with _ | ⟨d, ds⟩
      · exact absurd hds hsplit
      · rw [hds] at hp2
        rw [isPrefixCI_cons_cons] at hp2
        rcases Bool.and_eq_true_iff.mp hp2 with ⟨hp3, _⟩
        have hdmem : d ∈ t.data := by
          have : d ∈ t.data.drop tag.data.length := by
            rw [hds]
            exact List.mem_cons_self d ds
          exact List.mem_of_mem_drop this
        have hcls := List.all_eq_true.mp ht d hdmem
        simp only [Bool.or_eq_true, Bool.and_eq_true, decide_eq_true_eq]
          at hcls
        have hlow : d.toLower = d :=
          toLower_eq_self_of_not_upper (by omega)
        rw [decide_eq_true_eq] at hp3
        rw [hlow] at hp3
        have hgtl : ('>' : Char).toLower = '>' := by decide
        rw [hgtl] at hp3
        have hd62 : d.toNat = 62 := by
          rw [hp3]
          decide
        omega

/-- The open-tag zero-width trigger, whose tag starts with a lower-case
letter, cannot fire at a `</` window. -/
theorem opens_lookahead_false (t : String) (w : List Char)
    (ht : (!t.data.isEmpty &&
      t.data.all (fun c => (97 ≤ c.toNat && c.toNat ≤ 122) || (48 ≤ c.toNat && c.toNat ≤ 57))) = true) :
    isPrefixCI ('<' :: t.toList) ('<' :: '/' :: w) = false := by
  rcases Bool.and_eq_true_iff.mp ht with ⟨hne, hall⟩
  have htl : t.toList = t.data := rfl
  rw [htl]
  rcases hd : t.data with _ | ⟨t0, ts⟩
  · rw [hd] at hne
    simp at hne
  · rw [hd] at hall
    have hcls := List.all_eq_true.mp hall t0 (List.mem_cons_self _ _)
    simp only [Bool.or_eq_true, Bool.and_eq_true, decide_eq_true_eq]
      at hcls
    have hne2 : ¬(t0.toLower = ('/' : Char).toLower) :=
      toLower_ne_symbol (by decide)
        (char_ne_of_toNat_ne (by
          rw [show ('/' : Char).toNat = 47 from by decide]
          omega))
    rw [isPrefixCI_cons_cons, isPrefixCI_cons_cons, decide_eq_false hne2]
    simp

/-- The well-formedness of the end-tag-omission table: every key consists
of characters that are neither whitespace nor `>`; every open and closed
entry is a non-empty lower-case-alphabetic tag; and no closed entry
case-insensitively equals its own key. -/
theorem endTagOmission_wf (tag : String) (e : OmissionEntry)
    (htab : endTagOmission tag = some e) :
    ((!tag.data.isEmpty &&
      tag.data.all (fun c => !isJsWs c && !decide (c = '>'))) &&
     e.openTags.all (fun t => !t.data.isEmpty &&
       t.data.all (fun c => (97 ≤ c.toNat && c.toNat ≤ 122) || (48 ≤ c.toNat && c.toNat ≤ 57))) &&
     e.closedTags.all (fun t =>
       (!t.data.isEmpty &&
        t.data.all (fun c => (97 ≤ c.toNat && c.toNat ≤ 122) || (48 ≤ c.toNat && c.toNat ≤ 57))) &&
       !(decide (t.data.length = tag.data.length) &&
         isPrefixCI t.data tag.data))) = true := by
  unfold endTagOmission at htab
  split at htab
  all_goals first
  | exact Option.noConfusion htab
  | (injection htab with he
     subst he
     subst_vars
     decide)

/-- The end-tag parser consumes the printed literal end tag when the tag
has no omission row. -/
theorem endTagP_none (tag : String) (pos : Nat) (more : List Char)
    (h : endTagOmission tag = none) :
    endTagP tag ('<' :: '/' :: (tag.data ++ '>' :: more)) pos =
      .ok ((), more, pos + (tag.data.length + 3)) := by
  unfold endTagP
  rw [h, literalEndTag_self]
  show Except.ok ((), more,
    pos + (('<' :: '/' :: (tag.data ++ '>' :: more)).length - more.length))
    = _
  have harith : ('<' :: '/' :: (tag.data ++ '>' :: more)).length -
      more.length = tag.data.length + 3 := by
    simp [List.length_append]
    omega
  rw [harith]

/-- The end-tag parser consumes the printed literal end tag when no
zero-width omission trigger fires there. -/
theorem endTagP_some (tag : String) (pos : Nat) (more : List Char)
    (e : OmissionEntry) (h : endTagOmission tag = some e)
    (h1 : e.openTags.any (fun t => isPrefixCI ('<' :: t.toList)
      ('<' :: '/' :: (tag.data ++ '>' :: more))) = false)
    (h2 : e.closedTags.any (fun t => closedLookahead t
      ('<' :: '/' :: (tag.data ++ '>' :: more))) = false) :
    endTagP tag ('<' :: '/' :: (tag.data ++ '>' :: more)) pos =
      .ok ((), more, pos + (tag.data.length + 3)) := by
  unfold endTagP
  rw [h]
  simp only [h1, h2, Bool.false_eq_true, if_false, List.isEmpty_cons,
    Bool.and_false, literalEndTag_self]
  show Except.ok ((), more,
    pos + (('<' :: '/' :: (tag.data ++ '>' :: more)).length - more.length))
    = _
  have harith : ('<' :: '/' :: (tag.data ++ '>' :: more)).length -
      more.length = tag.data.length + 3 := by
    simp [List.length_append]
    omega
  rw [harith]

/-- The end-tag parser always consumes the printed literal end tag of a
tag whose characters are neither whitespace nor `>`. -/
theorem endTagP_serialized (tag : String) (pos : Nat) (more : List Char) :
    endTagP tag ('<' :: '/' :: (tag.data ++ '>' :: more)) pos =
      .ok ((), more, pos + (tag.data.length + 3)) := by
  rcases htab : endTagOmission tag with _ | e
  · exact endTagP_none tag pos more htab
  · have hwf := endTagOmission_wf tag e htab
    rcases Bool.and_eq_true_iff.mp hwf with ⟨hwf12, hclo⟩
    rcases Bool.and_eq_true_iff.mp hwf12 with ⟨hkey, hop⟩
    refine endTagP_some tag pos more e htab ?_ ?_
    · rw [List.any_eq_false]
      intro t hmem
      rw [Bool.not_eq_true]
      exact opens_lookahead_false t _ (List.all_eq_true.mp hop t hmem)
    · rw [List.any_eq_false]
      intro t hmem
      rw [Bool.not_eq_true]
      rcases Bool.and_eq_true_iff.mp
        (List.all_eq_true.mp hclo t hmem) with ⟨hta, htb⟩
      rcases Bool.and_eq_true_iff.mp hta with ⟨_, htlow⟩
      refine closedLookahead_gen t tag more htlow ?_ (bool_not_true htb)
      rcases Bool.and_eq_true_iff.mp hkey with ⟨_, hkey2⟩
      exact hkey2

/-- The element-kind computation, split into the pure kind and the stack
effect. -/
theorem elementKind_eq (tag : String) (st : Stack) :
    elementKind tag st =
      (kindOf (!st.isEmpty) tag,
        if tag = "svg" || tag = "math" then tag :: st else st) := by
  by_cases hsvg : (tag = "svg" || tag = "math" : Bool) = true
  · have hor : tag = "svg" ∨ tag = "math" := by simpa using hsvg
    rcases hor with h | h <;> subst h <;> simp +decide [elementKind, kindOf]
  · have hsvg2 : (tag = "svg" || tag = "math" : Bool) = false := by
      simpa using hsvg
    unfold elementKind kindOf
    rw [hsvg2]
    simp only [Bool.false_eq_true, if_false]
    split_ifs <;> rfl

/-- A character whose fold-image is a low symbol is that symbol. -/
theorem toLower_eq_low {c d : Char} (hd : d.toNat < 65)
    (h : c.toLower = d) : c = d := by
  by_contra hne
  have hd2 : d.toLower = d := toLower_eq_self_of_not_upper (Or.inl hd)
  exact toLower_ne_symbol hd hne (by rw [h, hd2])

/-- Folding a string that is already folded is the identity. -/
theorem map_toLower_of_all : ∀ (l : List Char),
    l.all (fun c => decide (c.toLower = c)) = true →
    l.map Char.toLower = l
  | [], _ => rfl
  | c :: cs, h => by
    rw [List.all_cons] at h
    rcases Bool.and_eq_true_iff.mp h with ⟨h1, h2⟩
    rw [List.map_cons, of_decide_eq_true h1, map_toLower_of_all cs h2]

/-- Folding cannot create a dash. -/
theorem map_toLower_contains_dash : ∀ (l : List Char),
    l.contains '-' = false → (l.map Char.toLower).contains '-' = false
  | [], _ => rfl
  | c :: cs, h => by
    rw [List.contains_cons] at h
    rcases Bool.or_eq_false_iff.mp h with ⟨h1, h2⟩
    rw [List.map_cons, List.contains_cons,
      map_toLower_contains_dash cs h2]
    have hs : ('-' == c.toLower) = false := by
      rw [beq_eq_false_iff_ne]
      intro he
      have hc : c = '-' := toLower_eq_low (by decide) he.symm
      rw [beq_eq_false_iff_ne] at h1
      exact h1 hc.symm
    rw [hs]
    rfl

/-- Every forbidden custom element name contains a dash. -/
theorem forbidden_contains_dash {s : String}
    (h : forbiddenCustomElementNames.contains s = true) :
    s.data.contains '-' = true := by
  simp only [forbiddenCustomElementNames, List.contains_cons,
    List.contains_nil, Bool.or_eq_true, beq_iff_eq] at h
  rcases h with h | h | h | h | h | h | h | h | h
  all_goals first
  | (subst h; decide)
  | exact Bool.noConfusion h

/-- Alphanumeric characters are `PCENChar`s. -/
theorem pcen_of_alnum {c : Char} (h : isAsciiAlnum c = true) :
    isPcenChar c = true := by
  unfold isAsciiAlnum isAsciiLetter at h
  unfold isPcenChar
  simp only [Bool.or_eq_true, Bool.and_eq_true, decide_eq_true_eq] at h ⊢
  rcases h with (h | h) | h <;>
    (repeat first
      | exact Or.inr h
      | exact h
      | apply Or.inl)

/-- The attribute-name parser on a printed name: it reads the name and
then skips the whitespace that follows. -/
theorem attributeNameP_serialized (k : String) (pos : Nat)
    (after : List Char)
    (hk : (!k.data.isEmpty && k.data.all isAttrNameChar) = true)
    (hafter : ∀ c cs2, after = c :: cs2 → isAttrNameChar c = false) :
    ∃ p2, attributeNameP (k.data ++ after) pos =
      .ok (k, after.dropWhile isJsWs, p2) := by
  rcases Bool.and_eq_true_iff.mp hk with ⟨hne, hall⟩
  simp only [attributeNameP]
  rw [takeWhile_append_of_all k.data after hall hafter]
  have hemp : k.data.isEmpty = false := by simpa using hne
  rw [hemp]
  simp only [Bool.false_eq_true, if_false, List.drop_left]
  exact ⟨_, rfl⟩

/-- A list free of a character satisfies the pointwise disequality. -/
theorem all_ne_of_contains_eq_false {c : Char} : ∀ {l : List Char},
    l.contains c = false → l.all (fun d => decide (d ≠ c)) = true
  | [], _ => rfl
  | a :: as, h => by
    rw [List.contains_cons] at h
    rcases Bool.or_eq_false_iff.mp h with ⟨h1, h2⟩
    rw [List.all_cons, all_ne_of_contains_eq_false h2]
    rw [beq_eq_false_iff_ne] at h1
    have h3 : a ≠ c := fun he => h1 he.symm
    simp [h3]

/-- A list free of the single-quote character satisfies the pointwise
code-point disequality used by the single-quoted value parser. -/
theorem all_val_ne_of_contains_eq_false : ∀ {l : List Char},
    l.contains (Char.ofNat 39) = false →
    l.all (fun d => decide (d.val ≠ 39)) = true
  | [], _ => rfl
  | a :: as, h => by
    rw [List.contains_cons] at h
    rcases Bool.or_eq_false_iff.mp h with ⟨h1, h2⟩
    rw [List.all_cons, all_val_ne_of_contains_eq_false h2]
    rw [beq_eq_false_iff_ne] at h1
    have hne : a.val ≠ 39 := by
      intro hv
      have ha : a = Char.ofNat 39 := by
        apply char_eq_of_toNat_eq
        show a.val.toNat = (Char.ofNat 39).val.toNat
        rw [hv]
        rfl
      exact h1 ha.symm
    simp [hne]

/-- The double-quoted value parser on a printed double-quoted value. -/
theorem attributeValueP_dq (v : String) (after : List Char)
    (hv : v.data.contains '"' = false) (pos : Nat) :
    attributeValueP ('"' :: (v.data ++ '"' :: after)) pos =
      .ok (v, after, pos + v.data.length + 2) := by
  simp only [attributeValueP]
  rw [if_pos trivial]
  rw [takeWhile_append_of_all v.data ('"' :: after)
    (all_ne_of_contains_eq_false hv) (by
      intro c cs2 he
      injection he with he1 _
      subst he1
      decide)]
  rw [List.drop_left]
  rfl

/-- The single-quoted value parser on a printed single-quoted value. -/
theorem attributeValueP_sq (v : String) (after : List Char)
    (hv : v.data.contains (Char.ofNat 39) = false) (pos : Nat) :
    attributeValueP (Char.ofNat 39 :: (v.data ++ Char.ofNat 39 :: after))
      pos = .ok (v, after, pos + v.data.length + 2) := by
  simp only [attributeValueP]
  rw [if_pos (by decide)]
  rw [takeWhile_append_of_all v.data (Char.ofNat 39 :: after)
    (all_val_ne_of_contains_eq_false hv) (by
      intro c cs2 he
      injection he with he1 _
      subst he1
      decide)]
  rw [List.drop_left]
  rfl

/-- One printed attribute re-parses to itself, consuming the whitespace
that follows it. -/
theorem attributeP_serialized (kv : String × String) (pos : Nat)
    (after : List Char) (hkv : attrOk kv = true)
    (hafter : ∀ c cs2, after = c :: cs2 → isAttrNameChar c = false)
    (heq : ∀ cs2, after.dropWhile isJsWs ≠ '=' :: cs2) :
    ∃ p2, attributeP ((serializeAttribute kv).data ++ after) pos =
      .ok (kv, after.dropWhile isJsWs, p2) := by
  rcases kv with ⟨k, v⟩
  unfold attrOk at hkv
  rcases Bool.and_eq_true_iff.mp hkv with ⟨hkv123, hbool⟩
  rcases Bool.and_eq_true_iff.mp hkv123 with ⟨hkv12, hquote⟩
  rcases Bool.and_eq_true_iff.mp hkv12 with ⟨hkne, hkall⟩
  by_cases hb : booleanAttributes.contains k = true
  · have hv0 : v = "" := by
      rw [show (k, v).1 = k from rfl] at hbool
      rw [hb] at hbool
      have : ((k, v).2 == "") = true := by simpa using hbool
      exact beq_iff_eq.mp this
    subst hv0
    have hser : serializeAttribute (k, "") = k := by
      unfold serializeAttribute
      dsimp only
      rw [hb]
      rfl
    rw [hser]
    unfold attributeP
    rcases attributeNameP_serialized k pos after
      (by
        rw [show (k, "").1 = k from rfl] at hkne hkall
        rw [hkne, hkall]
        rfl) hafter with ⟨p1, hname⟩
    rw [hname]
    dsimp only
    rcases hl1 : after.dropWhile isJsWs with _ | ⟨c, cs⟩
    · exact ⟨_, rfl⟩
    · have hcne : c ≠ '=' := by
        intro hc
        subst hc
        exact heq cs hl1
      split
      · next heq2 =>
        injection heq2 with h1 _
        exact absurd h1 hcne
      · exact ⟨_, rfl⟩
  · have hb2 : booleanAttributes.contains k = false := by
      simpa using hb
    have hkne2 : (!k.data.isEmpty) = true := hkne
    have hkall2 : k.data.all isAttrNameChar = true := hkall
    by_cases hq : strHasChar v '"' = true
    · have hser : serializeAttribute (k, v) = k ++ "=" ++ sq ++ v ++ sq := by
        unfold serializeAttribute
        dsimp only
        rw [hb2, hq]
        rfl
      have hsqd : sq.data = [Char.ofNat 39] := rfl
      have hin : (serializeAttribute (k, v)).data ++ after =
          k.data ++ '=' :: Char.ofNat 39 ::
            (v.data ++ Char.ofNat 39 :: after) := by
        rw [hser]
        simp [String.data_append, hsqd, List.append_assoc]
      rw [hin]
      have hvs : v.data.contains (Char.ofNat 39) = false := by
        unfold strHasChar at hq
        rcases hcon : v.data.contains (Char.ofNat 39) with _ | _
        · rfl
        · rw [show (k, v).2 = v from rfl, hq, hcon] at hquote
          exact Bool.noConfusion hquote
      unfold attributeP
      rcases attributeNameP_serialized k pos
        ('=' :: Char.ofNat 39 :: (v.data ++ Char.ofNat 39 :: after))
        (by rw [hkne2, hkall2]; rfl)
        (by
          intro c cs2 he
          injection he with he1 _
          subst he1
          decide) with ⟨p1, hname⟩
      rw [List.dropWhile_cons, if_neg (by decide)] at hname
      rw [hname]
      dsimp only
      split
      · next heq2 =>
        injection heq2 with _ hl2
        subst hl2
        rw [List.dropWhile_cons, if_neg (by decide),
          attributeValueP_sq v after hvs]
        exact ⟨_, rfl⟩
      · next hno =>
        exact absurd rfl (hno _)
    · have hq2 : strHasChar v '"' = false := by simpa using hq
      have hser : serializeAttribute (k, v) =
          k ++ "=" ++ "\"" ++ v ++ "\"" := by
        unfold serializeAttribute
        dsimp only
        rw [hb2, hq2]
        rfl
      have hin : (serializeAttribute (k, v)).data ++ after =
          k.data ++ '=' :: '"' :: (v.data ++ '"' :: after) := by
        rw [hser]
        simp [String.data_append, List.append_assoc]
      rw [hin]
      have hvs : v.data.contains '"' = false := hq2
      unfold attributeP
      rcases attributeNameP_serialized k pos
        ('=' :: '"' :: (v.data ++ '"' :: after))
        (by rw [hkne2, hkall2]; rfl)
        (by
          intro c cs2 he
          injection he with he1 _
          subst he1
          decide) with ⟨p1, hname⟩
      rw [List.dropWhile_cons, if_neg (by decide)] at hname
      rw [hname]
      dsimp only
      split
      · next heq2 =>
        injection heq2 with _ hl2
        subst hl2
        rw [List.dropWhile_cons, if_neg (by decide),
          attributeValueP_dq v after hvs]
        exact ⟨_, rfl⟩
      · next hno =>
        exact absurd rfl (hno _)

/-- The attribute parser fails where no attribute-name character opens
the input. -/
theorem attributeP_stop (l : List Char) (pos : Nat)
    (hl : ∀ c cs, l = c :: cs → isAttrNameChar c = false) :
    attributeP l pos = .error ⟨"Expected a valid attribute name", pos⟩ := by
  unfold attributeP attributeNameP
  have ht : l.takeWhile isAttrNameChar = [] := by
    rcases l with _ | ⟨c, cs⟩
    · rfl
    · rw [List.takeWhile_cons,
        if_neg (by rw [hl c cs rfl]; exact Bool.false_ne_true)]
  rw [ht]
  rfl

/-- The attribute loop stops where no attribute-name character opens the
input. -/
theorem manyAttrs_stop (fuel : Nat) (l : List Char) (pos : Nat)
    (hf : 0 < fuel) (hl : ∀ c cs, l = c :: cs → isAttrNameChar c = false) :
    manyAttrs fuel l pos = ([], l, pos) := by
  cases fuel with
  | zero => omega
  | succ n =>
    unfold manyAttrs
    rw [attributeP_stop l pos hl]

/-- A printed attribute opens with an attribute-name character. -/
theorem serializeAttribute_head (kv : String × String)
    (hkv : attrOk kv = true) :
    ∃ c cs, (serializeAttribute kv).data = c :: cs ∧
      isAttrNameChar c = true := by
  rcases kv with ⟨k, v⟩
  unfold attrOk at hkv
  rcases Bool.and_eq_true_iff.mp hkv with ⟨hkv123, _⟩
  rcases Bool.and_eq_true_iff.mp hkv123 with ⟨hkv12, _⟩
  rcases Bool.and_eq_true_iff.mp hkv12 with ⟨hkne, hkall⟩
  rcases hd : k.data with _ | ⟨c, cs⟩
  · rw [show (k, v).1 = k from rfl, hd] at hkne
    exact Bool.noConfusion hkne
  · have hc : isAttrNameChar c = true := by
      rw [show (k, v).1 = k from rfl] at hkall
      exact List.all_eq_true.mp hkall c (by
        rw [hd]
        exact List.mem_cons_self c cs)
    have hser2 : ∃ x, serializeAttribute (k, v) = k ++ x := by
      by_cases hb : booleanAttributes.contains k = true
      · refine ⟨"", ?_⟩
        have h1 : serializeAttribute (k, v) = k := by
          unfold serializeAttribute
          dsimp only
          rw [hb]
          rfl
        rw [h1, String.append_empty]
      · have hb2 : booleanAttributes.contains k = false := by simpa using hb
        by_cases hq : strHasChar v '"' = true
        · refine ⟨"=" ++ sq ++ v ++ sq, ?_⟩
          have h1 : serializeAttribute (k, v) = k ++ "=" ++ sq ++ v ++ sq := by
            unfold serializeAttribute
            dsimp only
            rw [hb2, hq]
            rfl
          rw [h1]
          simp [String.append_assoc]
        · have hq2 : strHasChar v '"' = false := by simpa using hq
          refine ⟨"=" ++ "\"" ++ v ++ "\"", ?_⟩
          have h1 : serializeAttribute (k, v) =
              k ++ "=" ++ "\"" ++ v ++ "\"" := by
            unfold serializeAttribute
            dsimp only
            rw [hb2, hq2]
            rfl
          rw [h1]
          simp [String.append_assoc]
    rcases hser2 with ⟨x, hser⟩
    refine ⟨c, cs ++ x.data, ?_, hc⟩
    rw [hser, String.data_append, hd]
    rfl

/-- The printed join of a non-empty attribute list opens with its first
attribute. -/
theorem joinSpaceSep_cons (s : String) (ss : List String) :
    ∃ t, (joinSpaceSep (s :: ss)).data = s.data ++ t := by
  cases ss with
  | nil => exact ⟨[], by simp [joinSpaceSep]⟩
  | cons y r =>
    refine ⟨(" " ++ joinSpaceSep (y :: r)).data, ?_⟩
    have he : joinSpaceSep (s :: y :: r) =
        s ++ " " ++ joinSpaceSep (y :: r) := rfl
    rw [he, String.append_assoc, String.data_append]

/-- The printed attribute list re-parses to itself, stopping at the `>`
that closes the start tag. -/
theorem manyAttrs_serialized : ∀ (attrs : List (String × String))
    (fuel pos : Nat) (l4 : List Char),
    attrs.length < fuel → attrs.all attrOk = true →
    ∃ p2, manyAttrs fuel
      ((joinSpaceSep (attrs.map serializeAttribute)).data ++ '>' :: l4)
      pos = (attrs, '>' :: l4, p2)
  | [], fuel, pos, l4, hf, _ => by
    refine ⟨pos, ?_⟩
    show manyAttrs fuel ('>' :: l4) pos = ([], '>' :: l4, pos)
    exact manyAttrs_stop fuel _ pos hf (by
      intro c cs he
      injection he with he1 _
      subst he1
      decide)
  | [kv], fuel, pos, l4, hf, hok => by
    cases fuel with
    | zero => simp at hf
    | succ n =>
      have hkv : attrOk kv = true := by
        rw [List.all_cons] at hok
        exact (Bool.and_eq_true_iff.mp hok).1
      have hjoin : joinSpaceSep ([kv].map serializeAttribute) =
          serializeAttribute kv := rfl
      rw [hjoin]
      rcases attributeP_serialized kv pos ('>' :: l4) hkv
        (by
          intro c cs he
          injection he with he1 _
          subst he1
          decide)
        (by
          intro cs2 hcon
          rw [List.dropWhile_cons, if_neg (by decide)] at hcon
          injection hcon with he1 _
          exact absurd he1 (by decide)) with ⟨p1, hattr⟩
      unfold manyAttrs
      rw [hattr]
      rw [List.dropWhile_cons, if_neg (by decide)]
      dsimp only
      rw [manyAttrs_stop n ('>' :: l4) _ (by simp at hf; omega) (by
        intro c cs he
        injection he with he1 _
        subst he1
        decide)]
      exact ⟨p1, rfl⟩
  | kv :: kv2 :: tl, fuel, pos, l4, hf, hok => by
    cases fuel with
    | zero => simp at hf
    | succ n =>
      rw [List.all_cons] at hok
      rcases Bool.and_eq_true_iff.mp hok with ⟨hkv, hok2⟩
      have hkv2 : attrOk kv2 = true := by
        rw [List.all_cons] at hok2
        exact (Bool.and_eq_true_iff.mp hok2).1
      have hjoin : joinSpaceSep ((kv :: kv2 :: tl).map serializeAttribute)
          = serializeAttribute kv ++ " " ++
            joinSpaceSep ((kv2 :: tl).map serializeAttribute) := rfl
      rcases serializeAttribute_head kv2 hkv2 with ⟨c2, cs2, hh, hc2⟩
      rcases joinSpaceSep_cons (serializeAttribute kv2)
        (tl.map serializeAttribute) with ⟨jt, hjt⟩
      have hx : (joinSpaceSep ((kv2 :: tl).map serializeAttribute)).data
          ++ '>' :: l4 = c2 :: (cs2 ++ jt ++ '>' :: l4) := by
        rw [show ((kv2 :: tl).map serializeAttribute) =
          serializeAttribute kv2 :: tl.map serializeAttribute from rfl,
          hjt, hh]
        simp [List.append_assoc]
      have hin : (joinSpaceSep ((kv :: kv2 :: tl).map
          serializeAttribute)).data ++ '>' :: l4 =
          (serializeAttribute kv).data ++ ' ' ::
            (c2 :: (cs2 ++ jt ++ '>' :: l4)) := by
        rw [hjoin, String.append_assoc, String.data_append,
          String.data_append, ← hx]
        simp [List.append_assoc]
      rw [hin]
      have hwsc2 : isJsWs c2 = false := by
        unfold isAttrNameChar at hc2
        rcases Bool.and_eq_true_iff.mp hc2 with ⟨hc3, _⟩
        rcases Bool.and_eq_true_iff.mp hc3 with ⟨hc4, _⟩
        rcases Bool.and_eq_true_iff.mp hc4 with ⟨hc5, _⟩
        rcases Bool.and_eq_true_iff.mp hc5 with ⟨hc6, _⟩
        rcases Bool.and_eq_true_iff.mp hc6 with ⟨hc7, _⟩
        rcases Bool.and_eq_true_iff.mp hc7 with ⟨hc8, _⟩
        rcases Bool.and_eq_true_iff.mp hc8 with ⟨_, hc9⟩
        exact bool_not_true hc9
      have hc2ne : c2 ≠ '=' := by
        intro he
        rw [he] at hc2
        exact absurd hc2 (by decide)
      rcases attributeP_serialized kv pos
        (' ' :: (c2 :: (cs2 ++ jt ++ '>' :: l4))) hkv
        (by
          intro c cs he
          injection he with he1 _
          subst he1
          decide)
        (by
          intro cz hcon
          rw [List.dropWhile_cons, if_pos (by decide),
            List.dropWhile_cons, if_neg (by rw [hwsc2]; exact
              Bool.false_ne_true)] at hcon
          injection hcon with he1 _
          exact absurd he1 hc2ne) with ⟨p1, hattr⟩
      unfold manyAttrs
      rw [hattr]
      rw [List.dropWhile_cons, if_pos (by decide),
        List.dropWhile_cons, if_neg (by rw [hwsc2]; exact
          Bool.false_ne_true)]
      dsimp only
      rcases manyAttrs_serialized (kv2 :: tl) n p1 l4 (by
        simp at hf ⊢
        omega) hok2 with ⟨p2, hrec⟩
      rw [hx] at hrec
      rw [hrec]
      exact ⟨p2, rfl⟩

/-- Alphanumeric lists are `PCENChar` lists. -/
theorem all_pcen_of_all_alnum {l : List Char}
    (h : l.all isAsciiAlnum = true) : l.all isPcenChar = true := by
  rw [List.all_eq_true] at h ⊢
  intro x hx
  exact pcen_of_alnum (h x hx)

/-- The tag-name parser on a printed serializable tag name. -/
theorem tagNameP_serialized (st : Stack) (tag : String) (pos : Nat)
    (after : List Char) (htag : tagOk (!st.isEmpty) tag = true)
    (hafter : ∀ c cs2, after = c :: cs2 →
      isPcenChar c = false ∧ isAsciiAlnum c = false) :
    ∃ p2, tagNameP st (tag.data ++ after) pos = .ok (tag, after, p2) := by
  obtain ⟨d⟩ := tag
  unfold tagOk at htag
  rcases d with _ | ⟨c, cs⟩
  · exact Bool.noConfusion htag
  · rcases Bool.and_eq_true_iff.mp htag with ⟨hletter, hifrest⟩
    show ∃ p2, tagNameP st (c :: (cs ++ after)) pos =
      .ok (String.mk (c :: cs), after, p2)
    by_cases hdash : (c :: cs).contains '-' = true
    · rw [if_pos hdash] at hifrest
      rcases Bool.and_eq_true_iff.mp hifrest with ⟨hpl, hforb⟩
      rcases Bool.and_eq_true_iff.mp hpl with ⟨hpc, hlf⟩
      have hmap : (c :: cs).map Char.toLower = c :: cs :=
        map_toLower_of_all _ hlf
      have hcustom : customElementNameP (c :: (cs ++ after)) pos =
          .ok (String.mk (c :: cs), after, pos + 1 + cs.length) := by
        simp only [customElementNameP]
        rw [if_pos hletter,
          takeWhile_append_of_all cs after hpc
            (fun c2 cs2 he => (hafter c2 cs2 he).1),
          hmap]
        rw [show forbiddenCustomElementNames.contains
          (String.mk (c :: cs)) = false from bool_not_true hforb]
        rw [hdash, List.drop_left]
        rfl
      unfold tagNameP
      rw [hcustom]
      exact ⟨_, rfl⟩
    · have hdash2 : (c :: cs).contains '-' = false := by simpa using hdash
      rw [if_neg (by rw [hdash2]; exact Bool.false_ne_true)] at hifrest
      rcases Bool.and_eq_true_iff.mp hifrest with ⟨halnum, hfcor⟩
      have hpc : cs.all isPcenChar = true := all_pcen_of_all_alnum halnum
      have hmapdash : ((c :: cs).map Char.toLower).contains '-' = false :=
        map_toLower_contains_dash (c :: cs) hdash2
      have hforb : forbiddenCustomElementNames.contains
          (String.mk ((c :: cs).map Char.toLower)) = false := by
        rcases hcon : forbiddenCustomElementNames.contains
          (String.mk ((c :: cs).map Char.toLower)) with _ | _
        · rfl
        · have hcd := forbidden_contains_dash hcon
          rw [show (String.mk ((c :: cs).map Char.toLower)).data =
            (c :: cs).map Char.toLower from rfl] at hcd
          rw [hcd] at hmapdash
          exact Bool.noConfusion hmapdash
      have hcustom : customElementNameP (c :: (cs ++ after)) pos =
          .error ⟨"Invalid custom element name (should include a dash)",
            pos⟩ := by
        simp only [customElementNameP]
        rw [if_pos hletter,
          takeWhile_append_of_all cs after hpc
            (fun c2 cs2 he => (hafter c2 cs2 he).1),
          hforb]
        rw [hmapdash]
        rfl
      have hhtml : htmlTagNameP st (c :: (cs ++ after)) pos =
          .ok (String.mk (c :: cs), after, pos + 1 + cs.length) := by
        simp only [htmlTagNameP]
        rw [if_pos hletter,
          takeWhile_append_of_all cs after halnum
            (fun c2 cs2 he => (hafter c2 cs2 he).2),
          List.drop_left]
        by_cases hfc : (!st.isEmpty) = true
        · rw [if_pos hfc]
        · have hfc2 : (!st.isEmpty) = false := by simpa using hfc
          rw [if_neg (by rw [hfc2]; exact Bool.false_ne_true)]
          rw [hfc2] at hfcor
          have hlf : lowerFixed (String.mk (c :: cs)) = true := by
            simpa using hfcor
          have hmap : (c :: cs).map Char.toLower = c :: cs :=
            map_toLower_of_all _ hlf
          rw [hmap]
      unfold tagNameP
      rw [hcustom, hhtml]
      exact ⟨_, rfl⟩

/-- An attribute-name character is not whitespace. -/
theorem attrNameChar_not_ws {c : Char} (h : isAttrNameChar c = true) :
    isJsWs c = false := by
  unfold isAttrNameChar at h
  rcases Bool.and_eq_true_iff.mp h with ⟨h3, _⟩
  rcases Bool.and_eq_true_iff.mp h3 with ⟨h4, _⟩
  rcases Bool.and_eq_true_iff.mp h4 with ⟨h5, _⟩
  rcases Bool.and_eq_true_iff.mp h5 with ⟨h6, _⟩
  rcases Bool.and_eq_true_iff.mp h6 with ⟨h7, _⟩
  rcases Bool.and_eq_true_iff.mp h7 with ⟨h8, _⟩
  rcases Bool.and_eq_true_iff.mp h8 with ⟨_, h9⟩
  exact bool_not_true h9

/-- A join of non-empty strings has at least one character per string. -/
theorem joinSpaceSep_length_ge : ∀ (ss : List String),
    (∀ s ∈ ss, s.data ≠ []) → ss.length ≤ (joinSpaceSep ss).data.length
  | [], _ => Nat.le_refl 0
  | [s], h => by
    show 1 ≤ s.data.length
    rcases hd : s.data with _ | ⟨c, cs⟩
    · exact absurd hd (h s (by simp))
    · simp
  | s :: y :: r, h => by
    have hrec := joinSpaceSep_length_ge (y :: r)
      (fun t ht => h t (List.mem_cons_of_mem s ht))
    have hs1 : s.data ≠ [] := h s (List.mem_cons_self s (y :: r))
    have hs2 : 1 ≤ s.data.length := by
      rcases hd : s.data with _ | ⟨c, cs⟩
      · exact absurd hd hs1
      · simp
    have he : joinSpaceSep (s :: y :: r) =
        s ++ " " ++ joinSpaceSep (y :: r) := rfl
    have hdata : (joinSpaceSep (s :: y :: r)).data
        = s.data ++ ((" " : String).data ++
            (joinSpaceSep (y :: r)).data) := by
      rw [he, String.append_assoc, String.data_append, String.data_append]
    rw [hdata]
    have hsp : ((" " : String).data).length = 1 := by decide
    simp only [List.length_append, List.length_cons] at hrec ⊢
    omega

/-- Unfolding equation of `startTagP` at a `<` window. -/
theorem startTagP_open (st : Stack) (l1 : List Char) (pos : Nat) :
    startTagP st ('<' :: l1) pos =
      (match tagNameP st l1 (pos + 1) with
       | .error f => (.error ⟨"Invalid start tag", f.pos⟩, st)
       | .ok (name, l2, p2) =>
         let ws := l2.takeWhile isJsWs
         let (attrs, l3, p3) :=
           if ws.isEmpty then (([] : List (String × String)), l2, p2)
           else manyAttrs (l2.length + 1) (l2.drop ws.length)
             (p2 + ws.length)
         match l3 with
         | '/' :: '>' :: l4 => startTagFinish st name attrs true l4 (p3 + 2)
         | '>' :: l4 => startTagFinish st name attrs false l4 (p3 + 1)
         | _ => (.error ⟨"Invalid start tag", p3⟩, st)) := rfl

/-- `startTagFinish` without a slash always succeeds: the classification
check can only reject a slash-carrying non-void, non-foreign tag. -/
theorem startTagFinish_ok (st : Stack) (tag : String)
    (attrs : List (String × String)) (l4 : List Char) (p4 : Nat) :
    startTagFinish st tag attrs false l4 p4 =
      (.ok ((tag, kindOf (!st.isEmpty) tag, attrs,
        decide (kindOf (!st.isEmpty) tag = ElementKind.VOID)), l4, p4),
       if tag = "svg" || tag = "math" then tag :: st else st) := by
  unfold startTagFinish
  rw [elementKind_eq]
  dsimp only
  generalize kindOf (!st.isEmpty) tag = k
  cases k <;> rfl

/-- `startTagP` on an input whose printed tag name is directly followed by
the closing `>`. -/
theorem startTagP_no_attrs (st : Stack) (l1 : List Char) (pos : Nat)
    (name : String) (l4 : List Char) (p2 : Nat)
    (htn : tagNameP st l1 (pos + 1) = .ok (name, '>' :: l4, p2)) :
    startTagP st ('<' :: l1) pos =
      startTagFinish st name [] false l4 (p2 + 1) := by
  rw [startTagP_open, htn]
  rfl

/-- `startTagP` on an input whose printed tag name is followed by one
space, an attribute list and the closing `>`. -/
theorem startTagP_with_attrs (st : Stack) (l1 : List Char) (pos : Nat)
    (name : String) (c0 : Char) (rest : List Char) (p2 : Nat)
    (attrs : List (String × String)) (l4 : List Char) (p3 : Nat)
    (htn : tagNameP st l1 (pos + 1) = .ok (name, ' ' :: c0 :: rest, p2))
    (hc0 : isJsWs c0 = false)
    (hma : manyAttrs ((' ' :: c0 :: rest).length + 1)
      ((' ' :: c0 :: rest).drop [' '].length) (p2 + [' '].length)
      = (attrs, '>' :: l4, p3)) :
    startTagP st ('<' :: l1) pos =
      startTagFinish st name attrs false l4 (p3 + 1) := by
  rw [startTagP_open, htn]
  dsimp only
  have hws : (' ' :: c0 :: rest).takeWhile isJsWs = [' '] := by
    rw [List.takeWhile_cons, if_pos (by decide), List.takeWhile_cons,
      if_neg (by rw [hc0]; exact Bool.false_ne_true)]
  rw [hws, if_neg (by decide : ¬(([' '] : List Char).isEmpty = true)), hma]
  rfl

/-- The start-tag parser on a printed serializable start tag: it succeeds,
recomputes the kind, re-reads the attributes, sets the self-closing flag
on void elements only, and pushes `svg`/`math`. -/
theorem startTagP_serialized (st : Stack) (tag : String)
    (attrs : List (String × String)) (pos : Nat) (suffix : List Char)
    (htag : tagOk (!st.isEmpty) tag = true)
    (hattrs : attrs.all attrOk = true) :
    ∃ p2, startTagP st
      ('<' :: (tag.data ++
        ((attributesStringOf attrs).data ++ '>' :: suffix)))
      pos =
      (.ok ((tag, kindOf (!st.isEmpty) tag, attrs,
        decide (kindOf (!st.isEmpty) tag = ElementKind.VOID)), suffix, p2),
       if tag = "svg" || tag = "math" then tag :: st else st) := by
  rcases attrs with _ | ⟨kv, tl⟩
  · rcases tagNameP_serialized st tag (pos + 1) ('>' :: suffix) htag
      (by
        intro c cs2 he
        injection he with he1 _
        subst he1
        exact ⟨by decide, by decide⟩) with ⟨p2, htn⟩
    refine ⟨p2 + 1, ?_⟩
    rw [show (attributesStringOf ([] : List (String × String))).data ++
      '>' :: suffix = '>' :: suffix from rfl]
    rw [startTagP_no_attrs st _ pos tag suffix p2 htn, startTagFinish_ok]
  · have hkv : attrOk kv = true :=
      List.all_eq_true.mp hattrs kv (List.mem_cons_self kv tl)
    rcases serializeAttribute_head kv hkv with ⟨c0, cs0, hh0, hc0⟩
    rcases joinSpaceSep_cons (serializeAttribute kv)
      (tl.map serializeAttribute) with ⟨jt, hjt⟩
    have hJ : (joinSpaceSep ((kv :: tl).map serializeAttribute)).data
        = c0 :: (cs0 ++ jt) := by
      rw [show ((kv :: tl).map serializeAttribute)
        = serializeAttribute kv :: tl.map serializeAttribute from rfl,
        hjt, hh0]
      rfl
    have hin : (attributesStringOf (kv :: tl)).data ++ '>' :: suffix
        = ' ' :: (c0 :: ((cs0 ++ jt) ++ '>' :: suffix)) := by
      rw [show (attributesStringOf (kv :: tl)).data
        = ' ' :: (joinSpaceSep ((kv :: tl).map serializeAttribute)).data
        from rfl, hJ]
      simp [List.append_assoc]
    rcases tagNameP_serialized st tag (pos + 1)
      (' ' :: (c0 :: ((cs0 ++ jt) ++ '>' :: suffix))) htag
      (by
        intro c cs2 he
        injection he with he1 _
        subst he1
        exact ⟨by decide, by decide⟩) with ⟨p2, htn⟩
    have hnonnil : ∀ s ∈ (kv :: tl).map serializeAttribute,
        s.data ≠ [] := by
      intro s hs
      rw [List.mem_map] at hs
      rcases hs with ⟨a, ha, hsa⟩
      rcases serializeAttribute_head a
        (List.all_eq_true.mp hattrs a ha) with ⟨c1, cs1, hh1, _⟩
      rw [← hsa, hh1]
      exact List.cons_ne_nil c1 cs1
    have hglen := joinSpaceSep_length_ge
      ((kv :: tl).map serializeAttribute) hnonnil
    rw [hJ] at hglen
    have hfuel : (kv :: tl).length <
        (' ' :: (c0 :: ((cs0 ++ jt) ++ '>' :: suffix))).length + 1 := by
      simp only [List.length_map] at hglen
      simp only [List.length_cons, List.length_append] at hglen ⊢
      omega
    rcases manyAttrs_serialized (kv :: tl)
      ((' ' :: (c0 :: ((cs0 ++ jt) ++ '>' :: suffix))).length + 1)
      (p2 + 1) suffix hfuel hattrs with ⟨p3, hma⟩
    rw [hJ, List.cons_append] at hma
    have hma2 : manyAttrs
        ((' ' :: (c0 :: ((cs0 ++ jt) ++ '>' :: suffix))).length + 1)
        ((' ' :: (c0 :: ((cs0 ++ jt) ++ '>' :: suffix))).drop
          ([' '] : List Char).length)
        (p2 + ([' '] : List Char).length)
        = (kv :: tl, '>' :: suffix, p3) := hma
    have hc0ws : isJsWs c0 = false := attrNameChar_not_ws hc0
    refine ⟨p3 + 1, ?_⟩
    rw [hin]
    rw [startTagP_with_attrs st _ pos tag c0 ((cs0 ++ jt) ++ '>' :: suffix)
      p2 (kv :: tl) suffix p3 htn hc0ws hma2, startTagFinish_ok]

/-- The character data of a printed text node. -/
theorem serializeText_data (t : String) :
    (serializeNode (.text t) false).data = t.data := rfl

/-- The character data of a printed comment. -/
theorem serializeComment_data (t : String) :
    (serializeNode (.comment t) false).data
      = '<' :: '!' :: '-' :: '-' :: (t.data ++ ['-', '-', '>']) := by
  show ("<!--" ++ t ++ "-->").data = _
  rw [String.data_append, String.data_append,
    show ("<!--" : String).data = ['<', '!', '-', '-'] from by decide,
    show ("-->" : String).data = ['-', '-', '>'] from by decide]
  simp [List.append_assoc]

/-- The character data of a printed CDATA section. -/
theorem serializeCdata_data (t : String) :
    (serializeNode (.cdata t) false).data
      = '<' :: '!' :: '[' :: 'C' :: 'D' :: 'A' :: 'T' :: 'A' :: '[' ::
          (t.data ++ [']', ']', '>']) := by
  show ("<![CDATA[" ++ t ++ "]]>").data = _
  rw [String.data_append, String.data_append,
    show ("<![CDATA[" : String).data
      = ['<', '!', '[', 'C', 'D', 'A', 'T', 'A', '['] from by decide,
    show ("]]>" : String).data = [']', ']', '>'] from by decide]
  simp [List.append_assoc]

/-- The character data of a printed self-closing element. -/
theorem serializeElement_sc_data (tag : String) (kind : ElementKind)
    (attrs : List (String × String)) (children : MFragment) :
    (serializeNode (.element tag kind attrs children true) false).data
      = '<' :: (tag.data ++ ((attributesStringOf attrs).data ++ ['>'])) := by
  show ("<" ++ tag ++ attributesStringOf attrs ++ ">").data = _
  rw [String.data_append, String.data_append, String.data_append,
    show ("<" : String).data = ['<'] from by decide,
    show (">" : String).data = ['>'] from by decide]
  simp [List.append_assoc]

/-- The character data of a printed element with an end tag. -/
theorem serializeElement_data (tag : String) (kind : ElementKind)
    (attrs : List (String × String)) (children : MFragment) :
    (serializeNode (.element tag kind attrs children false) false).data
      = '<' :: (tag.data ++ ((attributesStringOf attrs).data ++ '>' ::
          ((serializeChildren children false).data ++
            '<' :: '/' :: (tag.data ++ ['>'])))) := by
  show ("<" ++ tag ++ attributesStringOf attrs ++ ">" ++
    serializeChildren children false ++ "</" ++ tag ++ ">").data = _
  simp only [String.data_append]
  simp [List.append_assoc]

/-- The character data of an empty printed child list. -/
theorem serializeChildren_nil :
    (serializeChildren [] false).data = [] := rfl

/-- The character data of a printed child list splits at the first child. -/
theorem serializeChildren_cons (n : MNode) (tl : List MNode) :
    (serializeChildren (n :: tl) false).data
      = (serializeNode n false).data ++
          (serializeChildren tl false).data := by
  show (serializeNode n false ++ serializeChildren tl false).data = _
  rw [String.data_append]

/-- The text parser rejects an empty input. -/
theorem textP_fail_nil (pos : Nat) :
    textP [] pos = .error ⟨"Expected text", pos⟩ := rfl

/-- The text parser rejects an input opening with `<`. -/
theorem textP_fail_lt (w : List Char) (pos : Nat) :
    textP ('<' :: w) pos = .error ⟨"Expected text", pos⟩ := rfl

/-- The text parser on a printed serializable text node stops exactly at
the following `<` (or at the end of input). -/
theorem textP_serialized (t : String) (rest : List Char) (pos : Nat)
    (hne : t.data.isEmpty = false) (hlt : t.data.contains '<' = false)
    (hrest : ∀ c w, rest = c :: w → c = '<') :
    textP (t.data ++ rest) pos
      = .ok (.text t, rest, pos + t.data.length) := by
  obtain ⟨d⟩ := t
  dsimp only at hne hlt ⊢
  have hall := all_ne_of_contains_eq_false hlt
  have htw : (d ++ rest).takeWhile (fun c => decide ¬(c = '<')) = d :=
    takeWhile_append_of_all d rest hall (by
      intro c cs he
      rw [hrest c cs he]
      decide)
  unfold textP
  dsimp only
  rw [htw, hne]
  simp only [Bool.false_eq_true, if_false]
  rw [List.drop_left]

/-- The comment parser rejects an empty input. -/
theorem commentP_fail_nil (pos : Nat) :
    commentP [] pos = .error ⟨"Invalid comment", pos⟩ := rfl

/-- The comment parser rejects an input whose second character is not
`!`. -/
theorem commentP_fail_head (c : Char) (w : List Char) (pos : Nat)
    (hc : c ≠ '!') :
    commentP ('<' :: c :: w) pos = .error ⟨"Invalid comment", pos⟩ := by
  have h1 : (('!' : Char) == c) = false :=
    beq_eq_false_iff_ne.mpr (fun he => hc he.symm)
  have hpre : (['<', '!', '-', '-'].isPrefixOf ('<' :: c :: w)) = false := by
    show ((('!' : Char) == c) && ['-', '-'].isPrefixOf w) = false
    rw [h1]
    rfl
  unfold commentP
  rw [hpre]
  rfl

/-- The comment head check cannot fire on a printed serializable comment
body followed by its closer. -/
theorem comment_headcheck (d : List Char) (rest : List Char)
    (h1 : (match d with
           | '>' :: _ => false
           | '-' :: '>' :: _ => false
           | _ => true) = true) :
    (match d ++ '-' :: '-' :: '>' :: rest with
     | '>' :: _ => true
     | '-' :: '>' :: _ => true
     | _ => false) = false := by
  rcases d with _ | ⟨c1, dtl⟩
  · rfl
  · split
    · next heq =>
      injection heq with e1 _
      subst e1
      exact Bool.noConfusion h1
    · next heq =>
      injection heq with e1 e2
      subst e1
      rcases dtl with _ | ⟨c2, w2⟩
      · injection e2 with f1 _
        exact absurd f1 (by decide)
      · injection e2 with f1 _
        subst f1
        exact Bool.noConfusion h1
    · rfl

/-- The comment parser on a printed serializable comment. -/
theorem commentP_serialized (t : String) (rest : List Char) (pos : Nat)
    (hok : commentOk t = true) :
    commentP ('<' :: '!' :: '-' :: '-' ::
        (t.data ++ '-' :: '-' :: '>' :: rest)) pos
      = .ok (.comment t, rest, pos + 4 + t.data.length + 3) := by
  obtain ⟨d⟩ := t
  unfold commentOk at hok
  dsimp only at hok ⊢
  rcases Bool.and_eq_true_iff.mp hok with ⟨h1, h2⟩
  unfold commentP
  rw [if_pos (show (['<', '!', '-', '-'].isPrefixOf
      ('<' :: '!' :: '-' :: '-' :: (d ++ '-' :: '-' :: '>' :: rest)))
      = true from by simp [List.isPrefixOf])]
  dsimp only
  rw [show ('<' :: '!' :: '-' :: '-' ::
      (d ++ '-' :: '-' :: '>' :: rest)).drop 4
      = d ++ '-' :: '-' :: '>' :: rest from rfl]
  rw [comment_headcheck d rest h1]
  simp only [Bool.false_eq_true, if_false]
  rw [commentRun_exact d rest h2]
  simp [List.isPrefixOf]

/-- The CDATA parser rejects an input whose second character is not `!`. -/
theorem cdataP_fail_head (c : Char) (w : List Char) (pos : Nat)
    (hc : c ≠ '!') :
    cdataP ('<' :: c :: w) pos
      = .error ⟨"Invalid CDATA section", pos⟩ := by
  have h1 : (('!' : Char) == c) = false :=
    beq_eq_false_iff_ne.mpr (fun he => hc he.symm)
  have hpre : ("<![CDATA[".toList.isPrefixOf ('<' :: c :: w)) = false := by
    show ((('!' : Char) == c) &&
      ['[', 'C', 'D', 'A', 'T', 'A', '['].isPrefixOf w) = false
    rw [h1]
    rfl
  unfold cdataP
  rw [hpre]
  rfl

/-- The CDATA parser rejects a comment opener. -/
theorem cdataP_fail_comment (w : List Char) (pos : Nat) :
    cdataP ('<' :: '!' :: '-' :: w) pos
      = .error ⟨"Invalid CDATA section", pos⟩ := rfl

/-- The CDATA parser on a printed serializable CDATA section. -/
theorem cdataP_serialized (t : String) (rest : List Char) (pos : Nat)
    (hok : cdataBodyOk t = true) :
    cdataP ('<' :: '!' :: '[' :: 'C' :: 'D' :: 'A' :: 'T' :: 'A' :: '[' ::
        (t.data ++ ']' :: ']' :: '>' :: rest)) pos
      = .ok (.cdata t, rest, pos + 9 + t.data.length + 3) := by
  obtain ⟨d⟩ := t
  unfold cdataBodyOk at hok
  dsimp only at hok ⊢
  unfold cdataP
  rw [if_pos (show ("<![CDATA[".toList.isPrefixOf
      ('<' :: '!' :: '[' :: 'C' :: 'D' :: 'A' :: 'T' :: 'A' :: '[' ::
        (d ++ ']' :: ']' :: '>' :: rest))) = true
      from by simp [List.isPrefixOf, String.toList])]
  dsimp only
  rw [show ('<' :: '!' :: '[' :: 'C' :: 'D' :: 'A' :: 'T' :: 'A' :: '[' ::
      (d ++ ']' :: ']' :: '>' :: rest)).drop 9
      = d ++ ']' :: ']' :: '>' :: rest from rfl]
  rw [cdataRun_exact d rest hok]
  simp [List.isPrefixOf]

/-- The CDATA parser rejects an empty input. -/
theorem cdataP_fail_nil (pos : Nat) :
    cdataP [] pos = .error ⟨"Invalid CDATA section", pos⟩ := by
  unfold cdataP
  rw [show ("<![CDATA[".toList.isPrefixOf ([] : List Char)) = false
    from by decide]
  rfl

/-- The CDATA/comment alternation on a printed comment. -/
theorem cdataCommentAlt_comment (cd : Bool) (t : String) (rest : List Char)
    (pos : Nat) (hok : commentOk t = true) :
    cdataCommentAlt cd ('<' :: '!' :: '-' :: '-' ::
        (t.data ++ '-' :: '-' :: '>' :: rest)) pos
      = .ok (.comment t, rest, pos + 4 + t.data.length + 3) := by
  unfold cdataCommentAlt
  cases cd with
  | false =>
    simp only [Bool.false_eq_true, if_false]
    exact commentP_serialized t rest pos hok
  | true =>
    rw [if_pos rfl, cdataP_fail_comment]
    dsimp only
    rw [commentP_serialized t rest pos hok]

/-- The CDATA/comment alternation on a printed CDATA section. -/
theorem cdataCommentAlt_cdata (t : String) (rest : List Char) (pos : Nat)
    (hok : cdataBodyOk t = true) :
    cdataCommentAlt true ('<' :: '!' :: '[' :: 'C' :: 'D' :: 'A' :: 'T'
        :: 'A' :: '[' :: (t.data ++ ']' :: ']' :: '>' :: rest)) pos
      = .ok (.cdata t, rest, pos + 9 + t.data.length + 3) := by
  unfold cdataCommentAlt
  rw [if_pos rfl, cdataP_serialized t rest pos hok]

/-- The CDATA/comment alternation fails at an end-tag window. -/
theorem cdataCommentAlt_fail_slash (cd : Bool) (w : List Char)
    (pos : Nat) :
    ∃ f, cdataCommentAlt cd ('<' :: '/' :: w) pos = .error f := by
  unfold cdataCommentAlt
  cases cd with
  | false =>
    simp only [Bool.false_eq_true, if_false]
    exact ⟨_, commentP_fail_head '/' w pos (by decide)⟩
  | true =>
    rw [if_pos rfl, cdataP_fail_head '/' w pos (by decide)]
    dsimp only
    rw [commentP_fail_head '/' w pos (by decide)]
    exact ⟨_, rfl⟩

/-- The CDATA/comment alternation fails at the end of input. -/
theorem cdataCommentAlt_fail_nil (cd : Bool) (pos : Nat) :
    ∃ f, cdataCommentAlt cd [] pos = .error f := by
  unfold cdataCommentAlt
  cases cd with
  | false =>
    simp only [Bool.false_eq_true, if_false]
    exact ⟨_, commentP_fail_nil pos⟩
  | true =>
    rw [if_pos rfl, cdataP_fail_nil, commentP_fail_nil]
    exact ⟨_, rfl⟩

/-- The element parser fails, stack untouched, at the end of input. -/
theorem elementP_fail_nil (fuel : Nat) (st : Stack) (pos : Nat) :
    ∃ f, elementP fuel st [] pos = (.error f, st) := by
  cases fuel with
  | zero => exact ⟨_, rfl⟩
  | succ n => exact ⟨_, rfl⟩

/-- The element parser fails, stack untouched, at an end-tag window. -/
theorem elementP_fail_slash (fuel : Nat) (st : Stack) (w : List Char)
    (pos : Nat) :
    ∃ f, elementP fuel st ('<' :: '/' :: w) pos = (.error f, st) := by
  cases fuel with
  | zero => exact ⟨_, rfl⟩
  | succ n => exact ⟨_, rfl⟩

/-- The element parser fails, stack untouched, at a markup declaration. -/
theorem elementP_fail_bang (fuel : Nat) (st : Stack) (w : List Char)
    (pos : Nat) :
    ∃ f, elementP fuel st ('<' :: '!' :: w) pos = (.error f, st) := by
  cases fuel with
  | zero => exact ⟨_, rfl⟩
  | succ n => exact ⟨_, rfl⟩

/-- The open-tag omission trigger, a lower-case alphanumeric tag, cannot
fire when the character after `<` is a low symbol outside the digits. -/
theorem opens_lookahead_sym (t : String) (c : Char) (w : List Char)
    (hc : c.toNat < 48 ∨ (57 < c.toNat ∧ c.toNat < 65))
    (ht : (!t.data.isEmpty &&
      t.data.all (fun ch => (97 ≤ ch.toNat && ch.toNat ≤ 122) ||
        (48 ≤ ch.toNat && ch.toNat ≤ 57))) = true) :
    isPrefixCI ('<' :: t.toList) ('<' :: c :: w) = false := by
  rcases Bool.and_eq_true_iff.mp ht with ⟨hne, hall⟩
  have htl : t.toList = t.data := rfl
  rw [htl]
  rcases hd : t.data with _ | ⟨t0, ts⟩
  · rw [hd] at hne
    simp at hne
  · rw [hd] at hall
    have hcls := List.all_eq_true.mp hall t0 (List.mem_cons_self _ _)
    simp only [Bool.or_eq_true, Bool.and_eq_true, decide_eq_true_eq]
      at hcls
    have hlow0 : t0.toLower = t0 :=
      toLower_eq_self_of_not_upper (by omega)
    have hlowc : c.toLower = c :=
      toLower_eq_self_of_not_upper (by omega)
    have hne2 : ¬(t0.toLower = c.toLower) := by
      rw [hlow0, hlowc]
      exact char_ne_of_toNat_ne (by omega)
    rw [isPrefixCI_cons_cons, isPrefixCI_cons_cons, decide_eq_false hne2]
    simp

/-- The element guard of the children loop passes when the character after
`<` is a low symbol outside the digits. -/
theorem avoid_guard_sym (avoid : List String) (c : Char) (w : List Char)
    (hc : c.toNat < 48 ∨ (57 < c.toNat ∧ c.toNat < 65))
    (hentries : avoid.all (fun t => !t.data.isEmpty &&
      t.data.all (fun ch => (97 ≤ ch.toNat && ch.toNat ≤ 122) ||
        (48 ≤ ch.toNat && ch.toNat ≤ 57))) = true) :
    avoid.all (fun t => !isPrefixCI ('<' :: t.toList) ('<' :: c :: w))
      = true := by
  rw [List.all_eq_true] at hentries ⊢
  intro t hmem
  show (!isPrefixCI ('<' :: t.toList) ('<' :: c :: w)) = true
  rw [opens_lookahead_sym t c w hc (hentries t hmem)]
  rfl

/-- The element guard of the children loop passes at the end of input. -/
theorem guard_all_nil (avoid : List String) :
    avoid.all (fun t => !isPrefixCI ('<' :: t.toList) ([] : List Char))
      = true := by
  rw [List.all_eq_true]
  intro t _
  rfl

/-- The element guard of the children loop passes on a printed child
element whose tag is not an ASCII-case-insensitive extension of a guard
entry. -/
theorem avoid_guard_elem (avoid : List String) (ctag : String)
    (c1 : Char) (w : List Char)
    (hentries : avoid.all (fun t => !t.data.isEmpty &&
      t.data.all (fun ch => (97 ≤ ch.toNat && ch.toNat ≤ 122) ||
        (48 ≤ ch.toNat && ch.toNat ≤ 57))) = true)
    (hav : avoid.all (fun a => !isPrefixCI a.data ctag.data) = true)
    (hc1 : c1.toNat < 48 ∨ (57 < c1.toNat ∧ c1.toNat < 65)) :
    avoid.all (fun t => !isPrefixCI ('<' :: t.toList)
      ('<' :: (ctag.data ++ c1 :: w))) = true := by
  rw [List.all_eq_true] at hentries hav ⊢
  intro t hmem
  rcases Bool.and_eq_true_iff.mp (hentries t hmem) with ⟨_, hall⟩
  have hna : isPrefixCI t.data ctag.data = false :=
    bool_not_true (hav t hmem)
  show (!isPrefixCI ('<' :: t.toList) ('<' :: (ctag.data ++ c1 :: w)))
    = true
  have htl : t.toList = t.data := rfl
  rw [htl]
  have hmain : isPrefixCI t.data (ctag.data ++ c1 :: w) = false := by
    rcases Nat.lt_or_ge ctag.data.length t.data.length with hgt | hle
    case inr =>
      rw [isPrefixCI_append_of_le _ hle]
      exact hna
    case inl =>
      cases hp : isPrefixCI t.data (ctag.data ++ c1 :: w) with
      | false => rfl
      | true =>
        exfalso
        rw [isPrefixCI_append_split] at hp
        rcases Bool.and_eq_true_iff.mp hp with ⟨_, hp2⟩
        rcases hds : t.data.drop ctag.data.length with _ | ⟨dd, ds⟩
        · have h6 := congrArg List.length hds
          simp only [List.length_drop, List.length_nil] at h6
          omega
        · rw [hds, isPrefixCI_cons_cons] at hp2
          rcases Bool.and_eq_true_iff.mp hp2 with ⟨hp3, _⟩
          have hdmem : dd ∈ t.data := by
            have hmm : dd ∈ t.data.drop ctag.data.length := by
              rw [hds]
              exact List.mem_cons_self dd ds
            exact List.mem_of_mem_drop hmm
          have hcls := List.all_eq_true.mp hall dd hdmem
          simp only [Bool.or_eq_true, Bool.and_eq_true,
            decide_eq_true_eq] at hcls
          have hlowd : dd.toLower = dd :=
            toLower_eq_self_of_not_upper (by omega)
          have hlowc : c1.toLower = c1 :=
            toLower_eq_self_of_not_upper (by omega)
          rw [decide_eq_true_eq, hlowd, hlowc] at hp3
          have hnn : dd.toNat = c1.toNat := by rw [hp3]
          omega
  rw [isPrefixCI_cons_cons, hmain, Bool.and_false]
  rfl

/-- The printed attribute part followed by `>` opens with a space or with
`>` itself. -/
theorem attrsString_head (attrs : List (String × String))
    (hattrs : attrs.all attrOk = true) (R : List Char) :
    ∃ c1 w1, (attributesStringOf attrs).data ++ '>' :: R = c1 :: w1 ∧
      (c1.toNat < 48 ∨ (57 < c1.toNat ∧ c1.toNat < 65)) := by
  rcases attrs with _ | ⟨kv, tl⟩
  · exact ⟨'>', R, rfl, by decide⟩
  · refine ⟨' ', (joinSpaceSep ((kv :: tl).map serializeAttribute)).data
      ++ '>' :: R, ?_, by decide⟩
    rw [show (attributesStringOf (kv :: tl)).data
      = ' ' :: (joinSpaceSep ((kv :: tl).map serializeAttribute)).data
      from rfl]
    rfl

/-- A list that fails `all` drops to a failing head character. -/
theorem dropWhile_not_all {p : Char → Bool} : ∀ {l : List Char},
    l.all p = false →
    ∃ c cs, l.dropWhile p = c :: cs ∧ p c = false ∧ c ∈ l
  | [], h => by simp at h
  | a :: as, h => by
    by_cases hpa : p a = true
    · rw [List.all_cons, hpa, Bool.true_and] at h
      rcases dropWhile_not_all h with ⟨c, cs, hd, hpc, hmem⟩
      refine ⟨c, cs, ?_, hpc, List.mem_cons_of_mem a hmem⟩
      rw [List.dropWhile_cons, if_pos hpa, hd]
    · have hpa2 : p a = false := by simpa using hpa
      refine ⟨a, as, ?_, hpa2, List.mem_cons_self a as⟩
      rw [List.dropWhile_cons,
        if_neg (by rw [hpa2]; exact Bool.false_ne_true)]

/-- A `dropWhile` over an append whose left part is not all-satisfying
stops inside the left part. -/
theorem dropWhile_append_split {p : Char → Bool} : ∀ (a b : List Char),
    a.all p = false →
    (a ++ b).dropWhile p = a.dropWhile p ++ b
  | [], b, h => by simp at h
  | x :: a2, b, h => by
    by_cases hx : p x = true
    · rw [List.all_cons, hx, Bool.true_and] at h
      rw [List.cons_append, List.dropWhile_cons, if_pos hx,
        List.dropWhile_cons, if_pos hx]
      exact dropWhile_append_split a2 b h
    · have hx2 : p x = false := by simpa using hx
      rw [List.cons_append, List.dropWhile_cons,
        if_neg (by rw [hx2]; exact Bool.false_ne_true),
        List.dropWhile_cons,
        if_neg (by rw [hx2]; exact Bool.false_ne_true)]
      rfl

/-- The spurious-end-tag check fails at the end of input. -/
theorem voidEndCheck_nil (τ : String) : voidEndCheck τ [] = false := rfl

/-- The spurious-end-tag check skips a whitespace-only printed text
node. -/
theorem voidEndCheck_ws (τ w : String) (X : List Char)
    (hws : wsOnly w = true) :
    voidEndCheck τ (w.data ++ X) = voidEndCheck τ X := by
  unfold voidEndCheck
  rw [dropWhile_append_all w.data X hws]

/-- The spurious-end-tag check fails on a printed text node that contains
a non-whitespace character and no `<`. -/
theorem voidEndCheck_text (τ w : String) (X : List Char)
    (hlt : w.data.contains '<' = false) (hws : wsOnly w = false) :
    voidEndCheck τ (w.data ++ X) = false := by
  have hall : w.data.all isJsWs = false := hws
  rcases dropWhile_not_all hall with ⟨c, cs, hdw, hpc, hmem⟩
  have hne : c ≠ '<' := by
    have h2 := List.all_eq_true.mp (all_ne_of_contains_eq_false hlt)
      c hmem
    simpa using h2
  unfold voidEndCheck
  rw [dropWhile_append_split w.data X hall, hdw, List.cons_append]
  split
  · next r heq =>
    injection heq with e1 _
    exact absurd e1 hne
  · rfl

/-- The spurious-end-tag check fails at a window whose second character is
not a slash. -/
theorem voidEndCheck_not_slash (τ : String) (c2 : Char) (w : List Char)
    (hc2 : c2 ≠ '/') : voidEndCheck τ ('<' :: c2 :: w) = false := by
  unfold voidEndCheck
  rw [List.dropWhile_cons,
    if_neg (show ¬(isJsWs '<' = true) from by decide)]
  split
  · next r heq =>
    injection heq with e1 e2
    injection e2 with e3 _
    exact absurd e3 hc2
  · rfl

/-- The spurious-end-tag check of one tag fails at the printed end tag of
another, not case-insensitively equal tag, when neither tag contains
`>`. -/
theorem voidEndCheck_endtag (τ parent : String) (more : List Char)
    (hne : ciEqB τ parent = false)
    (hτ : τ.data.all (fun c => !decide (c = '>')) = true)
    (hparent : parent.data.all (fun c => !decide (c = '>')) = true) :
    voidEndCheck τ ('<' :: '/' :: (parent.data ++ '>' :: more))
      = false := by
  unfold voidEndCheck
  rw [List.dropWhile_cons,
    if_neg (show ¬(isJsWs '<' = true) from by decide)]
  show (isPrefixCI τ.toList (parent.data ++ '>' :: more) &&
    (match (parent.data ++ '>' :: more).drop τ.toList.length with
     | '>' :: _ => true
     | _ => false)) = false
  have htl : τ.toList = τ.data := rfl
  rw [htl]
  cases hp : isPrefixCI τ.data (parent.data ++ '>' :: more) with
  | false => rfl
  | true =>
    rw [isPrefixCI_append_split] at hp
    rcases Bool.and_eq_true_iff.mp hp with ⟨hp1, hp2⟩
    rw [Bool.true_and]
    rcases Nat.lt_trichotomy τ.data.length parent.data.length
      with hlt | heq | hgt
    · rw [List.drop_append_of_le_length (Nat.le_of_lt hlt)]
      rcases hd : parent.data.drop τ.data.length with _ | ⟨d, ds⟩
      · exfalso
        have h6 := congrArg List.length hd
        simp only [List.length_drop, List.length_nil] at h6
        omega
      · have hdmem : d ∈ parent.data := by
          have hmm : d ∈ parent.data.drop τ.data.length := by
            rw [hd]
            exact List.mem_cons_self d ds
          exact List.mem_of_mem_drop hmm
        have hdne : d ≠ '>' := by
          have h2 := List.all_eq_true.mp hparent d hdmem
          simpa using h2
        rw [show (d :: ds) ++ '>' :: more = d :: (ds ++ '>' :: more)
          from rfl]
        split
        · next heq2 =>
          injection heq2 with e1 _
          exact absurd e1 hdne
        · rfl
    · exfalso
      rw [List.take_of_length_le (Nat.le_of_eq heq)] at hp1
      have hci : ciEqB τ parent = true := by
        unfold ciEqB
        rw [heq, hp1]
        simp
      rw [hci] at hne
      exact Bool.noConfusion hne
    · exfalso
      rcases hds : τ.data.drop parent.data.length with _ | ⟨d, ds⟩
      · have h6 := congrArg List.length hds
        simp only [List.length_drop, List.length_nil] at h6
        omega
      · rw [hds, isPrefixCI_cons_cons] at hp2
        rcases Bool.and_eq_true_iff.mp hp2 with ⟨hp3, _⟩
        have hdmem : d ∈ τ.data := by
          have hmm : d ∈ τ.data.drop parent.data.length := by
            rw [hds]
            exact List.mem_cons_self d ds
          exact List.mem_of_mem_drop hmm
        have hdne : d ≠ '>' := by
          have h2 := List.all_eq_true.mp hτ d hdmem
          simpa using h2
        rw [decide_eq_true_eq,
          show ('>' : Char).toLower = '>' from by decide] at hp3
        exact absurd (toLower_eq_low (by decide) hp3) hdne

/-- A `PCENChar` is not `>`. -/
theorem pcen_not_gt {c : Char} (h : isPcenChar c = true) :
    (!decide (c = '>')) = true := by
  rcases hd : decide (c = '>') with _ | _
  · rfl
  · have he : c = '>' := of_decide_eq_true hd
    subst he
    exact absurd h (by decide)

/-- An ASCII letter is alphanumeric. -/
theorem letter_alnum {c : Char} (h : isAsciiLetter c = true) :
    isAsciiAlnum c = true := by
  unfold isAsciiAlnum
  rw [h]
  rfl

/-- Every character of a serializable tag name is a `PCENChar`. -/
theorem tagOk_all_pcen {fc : Bool} {τ : String} (h : tagOk fc τ = true) :
    τ.data.all isPcenChar = true := by
  unfold tagOk at h
  rcases hd : τ.data with _ | ⟨c, cs⟩
  · rw [hd] at h
    exact Bool.noConfusion h
  · rw [hd] at h
    rcases Bool.and_eq_true_iff.mp h with ⟨hletter, hrest⟩
    rw [List.all_cons, pcen_of_alnum (letter_alnum hletter),
      Bool.true_and]
    by_cases hdash : (c :: cs).contains '-' = true
    · rw [if_pos hdash] at hrest
      rcases Bool.and_eq_true_iff.mp hrest with ⟨hl, _⟩
      rcases Bool.and_eq_true_iff.mp hl with ⟨hpc, _⟩
      exact hpc
    · rw [if_neg hdash] at hrest
      rcases Bool.and_eq_true_iff.mp hrest with ⟨halnum, _⟩
      exact all_pcen_of_all_alnum halnum

/-- No character of a serializable tag name is `>`. -/
theorem tagOk_no_gt {fc : Bool} {τ : String} (h : tagOk fc τ = true) :
    τ.data.all (fun c => !decide (c = '>')) = true := by
  have hp := tagOk_all_pcen h
  rw [List.all_eq_true] at hp ⊢
  intro c hc
  exact pcen_not_gt (hp c hc)

/-- A serializable tag name opens with an ASCII letter. -/
theorem tagOk_head {fc : Bool} {τ : String} (h : tagOk fc τ = true) :
    ∃ c cs, τ.data = c :: cs ∧ isAsciiLetter c = true := by
  unfold tagOk at h
  rcases hd : τ.data with _ | ⟨c, cs⟩
  · rw [hd] at h
    exact Bool.noConfusion h
  · rw [hd] at h
    exact ⟨c, cs, rfl, (Bool.and_eq_true_iff.mp h).1⟩

/-- A serializable child list makes each member a serializable node. -/
theorem serializableList_mem {fc : Bool} {avoid : List String} :
    ∀ (ns : List MNode) (n : MNode),
    serializableList fc avoid ns = true → n ∈ ns →
    serializableNode fc n = true
  | [], n, _, hmem => absurd hmem (List.not_mem_nil n)
  | m :: tl, n, h, hmem => by
    unfold serializableList at h
    rcases Bool.and_eq_true_iff.mp h with ⟨h123, h4⟩
    rcases Bool.and_eq_true_iff.mp h123 with ⟨h12, _⟩
    rcases Bool.and_eq_true_iff.mp h12 with ⟨h1, _⟩
    rcases List.mem_cons.mp hmem with he | ht
    · subst he
      exact h1
    · exact serializableList_mem tl n h4 ht

/-- Every tag the spurious-end-tag check of a child list reads past the
list belongs to an element of the list. -/
theorem seesRest_sub : ∀ (ns : List MNode) (τ : String),
    τ ∈ seesRest ns → ∃ k a ch s, MNode.element τ k a ch s ∈ ns
  | [], τ, hmem => absurd hmem (List.not_mem_nil τ)
  | .text t :: tl, τ, hmem => by
    rw [show seesRest (.text t :: tl) = seesRest tl from rfl] at hmem
    rcases seesRest_sub tl τ hmem with ⟨k, a, ch, s, hm⟩
    exact ⟨k, a, ch, s, List.mem_cons_of_mem _ hm⟩
  | .comment t :: tl, τ, hmem => by
    rw [show seesRest (.comment t :: tl) = seesRest tl from rfl] at hmem
    rcases seesRest_sub tl τ hmem with ⟨k, a, ch, s, hm⟩
    exact ⟨k, a, ch, s, List.mem_cons_of_mem _ hm⟩
  | .cdata t :: tl, τ, hmem => by
    rw [show seesRest (.cdata t :: tl) = seesRest tl from rfl] at hmem
    rcases seesRest_sub tl τ hmem with ⟨k, a, ch, s, hm⟩
    exact ⟨k, a, ch, s, List.mem_cons_of_mem _ hm⟩
  | .element t k a ch false :: tl, τ, hmem => by
    rw [show seesRest (.element t k a ch false :: tl) = seesRest tl
      from rfl] at hmem
    rcases seesRest_sub tl τ hmem with ⟨k2, a2, ch2, s2, hm⟩
    exact ⟨k2, a2, ch2, s2, List.mem_cons_of_mem _ hm⟩
  | [.element t k a ch true], τ, hmem => by
    rw [show seesRest [MNode.element t k a ch true] = [t] from rfl]
      at hmem
    have he : τ = t := by simpa using hmem
    subst he
    exact ⟨k, a, ch, true, List.mem_cons_self _ _⟩
  | .element t k a ch true :: .text w :: [], τ, hmem => by
    rw [show seesRest (MNode.element t k a ch true :: .text w :: [])
      = if wsOnly w = true then [t] else [] from rfl] at hmem
    by_cases hws : wsOnly w = true
    · rw [if_pos hws] at hmem
      have he : τ = t := by simpa using hmem
      subst he
      exact ⟨k, a, ch, true, List.mem_cons_self _ _⟩
    · rw [if_neg hws] at hmem
      exact absurd hmem (List.not_mem_nil τ)
  | .element t k a ch true :: .text w :: n3 :: tl3, τ, hmem => by
    rw [show seesRest (MNode.element t k a ch true :: .text w :: n3
      :: tl3) = seesRest (n3 :: tl3) from rfl] at hmem
    rcases seesRest_sub (n3 :: tl3) τ hmem with ⟨k2, a2, ch2, s2, hm⟩
    exact ⟨k2, a2, ch2, s2,
      List.mem_cons_of_mem _ (List.mem_cons_of_mem _ hm)⟩
  | .element t k a ch true :: .comment c2 :: tl2, τ, hmem => by
    rw [show seesRest (MNode.element t k a ch true :: .comment c2 :: tl2)
      = seesRest (.comment c2 :: tl2) from rfl] at hmem
    rcases seesRest_sub (.comment c2 :: tl2) τ hmem
      with ⟨k2, a2, ch2, s2, hm⟩
    exact ⟨k2, a2, ch2, s2, List.mem_cons_of_mem _ hm⟩
  | .element t k a ch true :: .cdata c2 :: tl2, τ, hmem => by
    rw [show seesRest (MNode.element t k a ch true :: .cdata c2 :: tl2)
      = seesRest (.cdata c2 :: tl2) from rfl] at hmem
    rcases seesRest_sub (.cdata c2 :: tl2) τ hmem
      with ⟨k2, a2, ch2, s2, hm⟩
    exact ⟨k2, a2, ch2, s2, List.mem_cons_of_mem _ hm⟩
  | .element t k a ch true :: .element t2 k2 a2 ch2 s2 :: tl2, τ,
      hmem => by
    rw [show seesRest (MNode.element t k a ch true
      :: .element t2 k2 a2 ch2 s2 :: tl2)
      = seesRest (.element t2 k2 a2 ch2 s2 :: tl2) from rfl] at hmem
    rcases seesRest_sub (.element t2 k2 a2 ch2 s2 :: tl2) τ hmem
      with ⟨k3, a3, ch3, s3, hm⟩
    exact ⟨k3, a3, ch3, s3, List.mem_cons_of_mem _ hm⟩

/-- A printed serializable non-text node opens with `<` followed by `!` or
an ASCII letter. -/
theorem serializedNode_head2 (fc : Bool) : ∀ (n : MNode),
    serializableNode fc n = true → (∀ t, n ≠ .text t) →
    ∃ c w, (serializeNode n false).data = '<' :: c :: w ∧
      (c = '!' ∨ isAsciiLetter c = true)
  | .text t, _, hnt => absurd rfl (hnt t)
  | .comment t, _, _ =>
    ⟨'!', _, by rw [serializeComment_data], Or.inl rfl⟩
  | .cdata t, _, _ =>
    ⟨'!', _, by rw [serializeCdata_data], Or.inl rfl⟩
  | .element tag k a ch sc, hn, _ => by
    have htag : tagOk fc tag = true := by
      unfold serializableNode at hn
      exact (Bool.and_eq_true_iff.mp
        ((Bool.and_eq_true_iff.mp
          ((Bool.and_eq_true_iff.mp hn).1)).1)).1
    rcases tagOk_head htag with ⟨c, cs, hdd, hc⟩
    cases sc with
    | true =>
      refine ⟨c, cs ++ ((attributesStringOf a).data ++ ['>']), ?_,
        Or.inr hc⟩
      rw [serializeElement_sc_data, hdd]
      rfl
    | false =>
      refine ⟨c, cs ++ ((attributesStringOf a).data ++ '>' ::
        ((serializeChildren ch false).data ++
          '<' :: '/' :: (tag.data ++ ['>']))), ?_, Or.inr hc⟩
      rw [serializeElement_data, hdd]
      rfl

/-- A printed serializable non-text node opens with `<`. -/
theorem serializedNode_head_lt (fc : Bool) (n : MNode)
    (hn : serializableNode fc n = true) (hnt : ∀ t, n ≠ .text t) :
    ∃ w, (serializeNode n false).data = '<' :: w := by
  rcases serializedNode_head2 fc n hn hnt with ⟨c, w, hh, _⟩
  exact ⟨c :: w, hh⟩

/-- A printed serializable node is non-empty. -/
theorem serializedNode_length_pos (fc : Bool) : ∀ (n : MNode),
    serializableNode fc n = true →
    1 ≤ (serializeNode n false).data.length
  | .text t, h => by
    unfold serializableNode at h
    rcases Bool.and_eq_true_iff.mp h with ⟨h1, _⟩
    rw [serializeText_data]
    rcases hd : t.data with _ | ⟨c, cs⟩
    · rw [hd] at h1
      exact Bool.noConfusion h1
    · simp
  | .comment t, _ => by
    rw [serializeComment_data]
    simp
  | .cdata t, _ => by
    rw [serializeCdata_data]
    simp
  | .element tag k a ch sc, _ => by
    cases sc with
    | true =>
      rw [serializeElement_sc_data]
      simp
    | false =>
      rw [serializeElement_data]
      simp

/-- A member's printed form is no longer than the printed child list. -/
theorem serializeChildren_mem_le (n : MNode) : ∀ (ns : List MNode),
    n ∈ ns →
    (serializeNode n false).data.length ≤
      (serializeChildren ns false).data.length
  | [], hmem => absurd hmem (List.not_mem_nil n)
  | m :: tl, hmem => by
    rw [serializeChildren_cons, List.length_append]
    rcases List.mem_cons.mp hmem with he | ht
    · subst he
      exact Nat.le_add_right _ _
    · exact Nat.le_trans (serializeChildren_mem_le n tl ht)
        (Nat.le_add_left _ _)

/-- A serializable child list is no longer than its printed form. -/
theorem serializable_count_le (fc : Bool) (avoid : List String) :
    ∀ (ns : List MNode), serializableList fc avoid ns = true →
    ns.length ≤ (serializeChildren ns false).data.length
  | [], _ => Nat.le_refl 0
  | n :: tl, h => by
    unfold serializableList at h
    rcases Bool.and_eq_true_iff.mp h with ⟨h123, h4⟩
    rcases Bool.and_eq_true_iff.mp h123 with ⟨h12, _⟩
    rcases Bool.and_eq_true_iff.mp h12 with ⟨h1, _⟩
    rw [serializeChildren_cons, List.length_append, List.length_cons]
    have r1 := serializedNode_length_pos fc n h1
    have r2 := serializable_count_le fc avoid tl h4
    omega

/-- The children loop stops, leaving input, position and stack unchanged,
at the end of input and at an end-tag window. -/
theorem childrenLoop_stop (fuelE : Nat) : ∀ (m : Nat) (st : Stack)
    (avoid : List String) (cd : Bool) (rest : List Char) (pos : Nat),
    (rest = [] ∨ ∃ w, rest = '<' :: '/' :: w) →
    avoid.all (fun t => !t.data.isEmpty &&
      t.data.all (fun ch => (97 ≤ ch.toNat && ch.toNat ≤ 122) ||
        (48 ≤ ch.toNat && ch.toNat ≤ 57))) = true →
    childrenLoop (elementP fuelE) m st avoid cd rest pos
      = ([], rest, pos, st)
  | 0, st, avoid, cd, rest, pos, _, _ => rfl
  | Nat.succ m2, st, avoid, cd, rest, pos, hrest, hent => by
    rcases hrest with hnil | ⟨w, hw⟩
    · subst hnil
      unfold childrenLoop
      rw [textP_fail_nil]
      dsimp only
      rw [if_pos (guard_all_nil avoid)]
      rcases elementP_fail_nil fuelE st pos with ⟨f, hf⟩
      rw [hf]
      dsimp only
      rcases cdataCommentAlt_fail_nil cd pos with ⟨f2, hf2⟩
      rw [hf2]
    · subst hw
      unfold childrenLoop
      rw [textP_fail_lt]
      dsimp only
      rw [if_pos (avoid_guard_sym avoid '/' w (by decide) hent)]
      rcases elementP_fail_slash fuelE st w pos with ⟨f, hf⟩
      rw [hf]
      dsimp only
      rcases cdataCommentAlt_fail_slash cd w pos with ⟨f2, hf2⟩
      rw [hf2]

/-- A void-kinded tag is neither `svg` nor `math`. -/
theorem kindOf_void_not_svg {fc : Bool} {tag : String}
    (h : kindOf fc tag = .VOID) :
    (decide (tag = "svg") || decide (tag = "math")) = false := by
  rcases h3 : (decide (tag = "svg") || decide (tag = "math")) with _ | _
  · rfl
  · exfalso
    rw [Bool.or_eq_true] at h3
    rcases h3 with h4 | h4
    · have h5 : tag = "svg" := of_decide_eq_true h4
      subst h5
      cases fc with
      | false => exact absurd h (by decide)
      | true => exact absurd h (by decide)
    · have h5 : tag = "math" := of_decide_eq_true h4
      subst h5
      cases fc with
      | false => exact absurd h (by decide)
      | true => exact absurd h (by decide)

/-- The element parser on a printed void element: the start tag is
re-read, the spurious-end-tag check fails, and the stack is untouched. -/
theorem elementP_void (st : Stack) (tag : String)
    (attrs : List (String × String)) (fuel : Nat) (rest : List Char)
    (pos : Nat)
    (htag : tagOk (!st.isEmpty) tag = true)
    (hattrs : attrs.all attrOk = true)
    (hkind : kindOf (!st.isEmpty) tag = .VOID)
    (hvck : voidEndCheck tag rest = false) :
    ∃ p2, elementP (fuel + 1) st
      ('<' :: (tag.data ++ ((attributesStringOf attrs).data
        ++ '>' :: rest))) pos
      = (.ok (.element tag .VOID attrs [] true, rest, p2), st) := by
  rcases startTagP_serialized st tag attrs pos rest htag hattrs
    with ⟨p2, hst⟩
  refine ⟨p2, ?_⟩
  show elementP (Nat.succ fuel) st _ pos = _
  unfold elementP
  rw [hst]
  dsimp only
  rw [hkind, hvck, kindOf_void_not_svg hkind]
  simp only [Bool.false_eq_true, if_false]
  rfl

/-- The results of `rawChildren` on an empty printed body. -/
theorem rawChildren_nil (tag : String) (p1 : Nat) (st : Stack)
    (rest : List Char) :
    ∃ q, rawChildren tag ('<' :: '/' :: (tag.data ++ '>' :: rest)) p1 st
      = ([], '<' :: '/' :: (tag.data ++ '>' :: rest), q, st) := by
  unfold rawChildren rawTextP
  have htl : tag.toList = tag.data := rfl
  rw [htl]
  rw [show rawTextRun tag.data ('<' :: '/' :: (tag.data ++ '>' :: rest))
    = ([], '<' :: '/' :: (tag.data ++ '>' :: rest)) from by
      unfold rawTextRun
      rw [rawTextStop_closer tag.data rest]
      rfl]
  exact ⟨_, rfl⟩

/-- The results of `rawChildren` on a printed serializable raw body. -/
theorem rawChildren_text (tag t : String) (p1 : Nat) (st : Stack)
    (rest : List Char) (hok : rawBodyOk tag t = true)
    (hne : t.data.isEmpty = false) :
    ∃ q, rawChildren tag
        (t.data ++ '<' :: '/' :: (tag.data ++ '>' :: rest)) p1 st
      = ([.text t], '<' :: '/' :: (tag.data ++ '>' :: rest), q, st) := by
  obtain ⟨d⟩ := t
  unfold rawBodyOk at hok
  dsimp only at hok hne ⊢
  unfold rawChildren rawTextP
  have htl : tag.toList = tag.data := rfl
  rw [htl]
  rw [rawTextRun_exact tag.data d rest hok]
  have hpos : 0 < d.length := by
    rcases d with _ | ⟨c, cs⟩
    · exact Bool.noConfusion hne
    · simp
  dsimp only
  rw [if_pos hpos]
  exact ⟨_, rfl⟩

/-- The element parser on a printed raw-text or escapable raw-text
element. -/
theorem elementP_raw (st : Stack) (tag : String) (kind : ElementKind)
    (attrs : List (String × String)) (children : MFragment)
    (fuel : Nat) (rest : List Char) (pos : Nat)
    (htag : tagOk (!st.isEmpty) tag = true)
    (hattrs : attrs.all attrOk = true)
    (hkind : kindOf (!st.isEmpty) tag = kind)
    (hraw : kind = .RAW_TEXT ∨ kind = .ESCAPABLE_RAW_TEXT)
    (hch : children = [] ∨ ∃ t, children = [.text t] ∧
      t.data.isEmpty = false ∧ rawBodyOk tag t = true) :
    ∃ p2, elementP (fuel + 1) st
      ('<' :: (tag.data ++ ((attributesStringOf attrs).data ++ '>' ::
        ((serializeChildren children false).data ++
          '<' :: '/' :: (tag.data ++ '>' :: rest))))) pos
      = (.ok (.element tag kind attrs children false, rest, p2), st) := by
  rcases hch with hnil | ⟨t, hcons, hne, hok⟩
  · subst hnil
    rw [serializeChildren_nil, List.nil_append]
    rcases startTagP_serialized st tag attrs pos
      ('<' :: '/' :: (tag.data ++ '>' :: rest)) htag hattrs
      with ⟨p2, hst⟩
    rcases rawChildren_nil tag p2
      (if tag = "svg" || tag = "math" then tag :: st else st) rest
      with ⟨q, hraw2⟩
    refine ⟨q + (tag.data.length + 3), ?_⟩
    show elementP (Nat.succ fuel) st _ pos = _
    unfold elementP
    rw [hst]
    dsimp only
    rw [hkind]
    rcases hraw with hk | hk <;> subst hk <;>
      (rw [hraw2]
       dsimp only
       rw [endTagP_serialized]
       rcases hb : (decide (tag = "svg") || decide (tag = "math"))
         with _ | _ <;> rfl)
  · subst hcons
    rw [serializeChildren_cons, serializeText_data, serializeChildren_nil,
      List.append_nil]
    rcases startTagP_serialized st tag attrs pos
      (t.data ++ '<' :: '/' :: (tag.data ++ '>' :: rest)) htag hattrs
      with ⟨p2, hst⟩
    rcases rawChildren_text tag t p2
      (if tag = "svg" || tag = "math" then tag :: st else st) rest hok hne
      with ⟨q, hraw2⟩
    refine ⟨q + (tag.data.length + 3), ?_⟩
    show elementP (Nat.succ fuel) st _ pos = _
    unfold elementP
    rw [hst]
    dsimp only
    rw [hkind]
    rcases hraw with hk | hk <;> subst hk <;>
      (rw [hraw2]
       dsimp only
       rw [endTagP_serialized]
       rcases hb : (decide (tag = "svg") || decide (tag = "math"))
         with _ | _ <;> rfl)

/-- The element parser on a printed non-void, non-raw element, given that
the children loop re-reads the printed children and stops at the printed
end tag. -/
theorem elementP_nonvoid (st : Stack) (tag : String) (kind : ElementKind)
    (attrs : List (String × String)) (children : MFragment)
    (fuel : Nat) (rest : List Char) (pos : Nat)
    (htag : tagOk (!st.isEmpty) tag = true)
    (hattrs : attrs.all attrOk = true)
    (hkind : kindOf (!st.isEmpty) tag = kind)
    (hnv : kind ≠ .VOID) (hnr : kind ≠ .RAW_TEXT)
    (hne : kind ≠ .ESCAPABLE_RAW_TEXT)
    (hloop : ∀ q, ∃ q2, childrenLoop (elementP fuel)
      (((serializeChildren children false).data ++
        '<' :: '/' :: (tag.data ++ '>' :: rest)).length + 1)
      (if tag = "svg" || tag = "math" then tag :: st else st)
      (avoidTags tag)
      (!(if tag = "svg" || tag = "math" then tag :: st
          else st).isEmpty)
      ((serializeChildren children false).data ++
        '<' :: '/' :: (tag.data ++ '>' :: rest)) q
      = (children, '<' :: '/' :: (tag.data ++ '>' :: rest), q2,
          if tag = "svg" || tag = "math" then tag :: st else st)) :
    ∃ p2, elementP (fuel + 1) st
      ('<' :: (tag.data ++ ((attributesStringOf attrs).data ++ '>' ::
        ((serializeChildren children false).data ++
          '<' :: '/' :: (tag.data ++ '>' :: rest))))) pos
      = (.ok (.element tag kind attrs children false, rest, p2), st) := by
  rcases startTagP_serialized st tag attrs pos
    ((serializeChildren children false).data ++
      '<' :: '/' :: (tag.data ++ '>' :: rest)) htag hattrs
    with ⟨p2, hst⟩
  rcases hloop p2 with ⟨q2, hl⟩
  refine ⟨q2 + (tag.data.length + 3), ?_⟩
  show elementP (Nat.succ fuel) st _ pos = _
  unfold elementP
  rw [hst]
  dsimp only
  rw [hkind]
  cases kind
  case VOID => exact absurd rfl hnv
  case RAW_TEXT => exact absurd rfl hnr
  case ESCAPABLE_RAW_TEXT => exact absurd rfl hne
  all_goals (
    rw [hl]
    dsimp only
    rw [endTagP_serialized]
    rcases hb : (decide (tag = "svg") || decide (tag = "math"))
      with _ | _ <;> rfl)

/-- One children-loop iteration through the text branch. -/
theorem childrenLoop_step_text (fuelE m2 : Nat) (st : Stack)
    (avoid : List String) (cd : Bool) (l : List Char) (pos : Nat)
    (n : MNode) (ns2 : MFragment) (l1 rest : List Char) (p1 p2 : Nat)
    (htext : textP l pos = .ok (n, l1, p1))
    (hrec : childrenLoop (elementP fuelE) m2 st avoid cd l1 p1
      = (ns2, rest, p2, st)) :
    childrenLoop (elementP fuelE) (m2 + 1) st avoid cd l pos
      = (n :: ns2, rest, p2, st) := by
  show childrenLoop (elementP fuelE) (Nat.succ m2) st avoid cd l pos = _
  unfold childrenLoop
  rw [htext]
  dsimp only
  rw [hrec]

/-- One children-loop iteration through the element branch. -/
theorem childrenLoop_step_elem (fuelE m2 : Nat) (st : Stack)
    (avoid : List String) (cd : Bool) (l : List Char) (pos : Nat)
    (n : MNode) (ns2 : MFragment) (l1 rest : List Char) (p1 p2 : Nat)
    (htext : textP l pos = .error ⟨"Expected text", pos⟩)
    (hguard : avoid.all (fun t => !isPrefixCI ('<' :: t.toList) l)
      = true)
    (helem : elementP fuelE st l pos = (.ok (n, l1, p1), st))
    (hrec : childrenLoop (elementP fuelE) m2 st avoid cd l1 p1
      = (ns2, rest, p2, st)) :
    childrenLoop (elementP fuelE) (m2 + 1) st avoid cd l pos
      = (n :: ns2, rest, p2, st) := by
  show childrenLoop (elementP fuelE) (Nat.succ m2) st avoid cd l pos = _
  unfold childrenLoop
  rw [htext]
  dsimp only
  rw [if_pos hguard, helem]
  dsimp only
  rw [hrec]

/-- One children-loop iteration through the CDATA/comment branch. -/
theorem childrenLoop_step_alt (fuelE m2 : Nat) (st : Stack)
    (avoid : List String) (cd : Bool) (l : List Char) (pos : Nat)
    (n : MNode) (ns2 : MFragment) (l1 rest : List Char) (p1 p2 : Nat)
    (f0 : PFail)
    (htext : textP l pos = .error ⟨"Expected text", pos⟩)
    (hguard : avoid.all (fun t => !isPrefixCI ('<' :: t.toList) l)
      = true)
    (helem : elementP fuelE st l pos = (.error f0, st))
    (halt : cdataCommentAlt cd l pos = .ok (n, l1, p1))
    (hrec : childrenLoop (elementP fuelE) m2 st avoid cd l1 p1
      = (ns2, rest, p2, st)) :
    childrenLoop (elementP fuelE) (m2 + 1) st avoid cd l pos
      = (n :: ns2, rest, p2, st) := by
  show childrenLoop (elementP fuelE) (Nat.succ m2) st avoid cd l pos = _
  unfold childrenLoop
  rw [htext]
  dsimp only
  rw [if_pos hguard, helem]
  dsimp only
  rw [halt]
  dsimp only
  rw [hrec]

/-- The foreign-content flag of an element's children agrees with the
emptiness of the stack the element's start tag leaves behind. -/
theorem child_fc_eq (st : Stack) (tag : String) :
    ((!st.isEmpty || decide (tag = "svg")) || decide (tag = "math")) =
      (!(if (decide (tag = "svg") || decide (tag = "math")) = true
          then tag :: st else st).isEmpty) := by
  rw [Bool.or_assoc]
  rcases hb : (decide (tag = "svg") || decide (tag = "math")) with _ | _
  · simp
  · simp

/-- The open-tag guard entries of every element are non-empty lower-case
alphanumeric tags. -/
theorem avoidTags_entries (tag : String) :
    (avoidTags tag).all (fun t => !t.data.isEmpty &&
      t.data.all (fun ch => (97 ≤ ch.toNat && ch.toNat ≤ 122) ||
        (48 ≤ ch.toNat && ch.toNat ≤ 57))) = true := by
  unfold avoidTags
  rcases htab : endTagOmission tag with _ | e
  · rfl
  · have hwf := endTagOmission_wf tag e htab
    rcases Bool.and_eq_true_iff.mp hwf with ⟨hwf12, _⟩
    rcases Bool.and_eq_true_iff.mp hwf12 with ⟨_, hop⟩
    exact hop

/-- Length accounting of a printed element with an end tag. -/
theorem serializeElement_length (tag : String) (kind : ElementKind)
    (attrs : List (String × String)) (children : MFragment) :
    (serializeNode (.element tag kind attrs children false) false).data.length
      = (serializeChildren children false).data.length +
        2 * tag.data.length +
        (attributesStringOf attrs).data.length + 5 := by
  rw [serializeElement_data]
  simp only [List.length_cons, List.length_append, List.length_nil]
  omega

/-- The children loop on a printed serializable child list re-reads the
list and stops at the given terminator, leaving the stack unchanged. -/
theorem reparse_list : ∀ (ns : MFragment) (st : Stack)
    (avoid : List String) (m fuelE : Nat) (rest : List Char) (pos : Nat),
    serializableList (!st.isEmpty) avoid ns = true →
    avoid.all (fun t => !t.data.isEmpty &&
      t.data.all (fun ch => (97 ≤ ch.toNat && ch.toNat ≤ 122) ||
        (48 ≤ ch.toNat && ch.toNat ≤ 57))) = true →
    ns.length < m →
    (∀ n ∈ ns, (serializeNode n false).data.length < fuelE) →
    (rest = [] ∨ ∃ w, rest = '<' :: '/' :: w) →
    (∀ τ ∈ seesRest ns, voidEndCheck τ rest = false) →
    ∃ p2, childrenLoop (elementP fuelE) m st avoid (!st.isEmpty)
      ((serializeChildren ns false).data ++ rest) pos
      = (ns, rest, p2, st)
  | [], st, avoid, m, fuelE, rest, pos, _, hent, hm, _, hrest, _ => by
    rw [serializeChildren_nil, List.nil_append]
    exact ⟨pos, childrenLoop_stop fuelE m st avoid (!st.isEmpty) rest pos
      hrest hent⟩
  | .text t :: tl, st, avoid, m, fuelE, rest, pos, hser, hent, hm, hfe,
      hrest, hsee => by
    cases m with
    | zero => exact absurd hm (by omega)
    | succ m2 =>
      unfold serializableList at hser
      rcases Bool.and_eq_true_iff.mp hser with ⟨h123, hrec⟩
      rcases Bool.and_eq_true_iff.mp h123 with ⟨h12, hadj⟩
      rcases Bool.and_eq_true_iff.mp h12 with ⟨h1, _⟩
      unfold serializableNode at h1
      rcases Bool.and_eq_true_iff.mp h1 with ⟨h1e, h1l⟩
      have hne : t.data.isEmpty = false := bool_not_true h1e
      have hlt : t.data.contains '<' = false := bool_not_true h1l
      have hhead : ∀ c w2, (serializeChildren tl false).data ++ rest
          = c :: w2 → c = '<' := by
        rcases tl with _ | ⟨n2, tl2⟩
        · rw [serializeChildren_nil, List.nil_append]
          intro c w2 he
          rcases hrest with hnil | ⟨w3, hw3⟩
          · rw [hnil] at he
            exact List.noConfusion he
          · rw [hw3] at he
            injection he with e1 _
            exact e1.symm
        · have hn2 : ∀ s, n2 ≠ MNode.text s := by
            intro s he2
            subst he2
            exact Bool.noConfusion hadj
          rcases serializedNode_head_lt (!st.isEmpty) n2
            (serializableList_mem (n2 :: tl2) n2 hrec
              (List.mem_cons_self _ _)) hn2 with ⟨w3, hw3⟩
          rw [serializeChildren_cons, hw3, List.cons_append,
            List.cons_append]
          intro c w2 he
          injection he with e1 _
          exact e1.symm
      have htxt := textP_serialized t
        ((serializeChildren tl false).data ++ rest) pos hne hlt hhead
      rcases reparse_list tl st avoid m2 fuelE rest
        (pos + t.data.length) hrec hent (by simp at hm; omega)
        (fun n hn => hfe n (List.mem_cons_of_mem _ hn)) hrest
        (fun τ hτ => hsee τ (by
          rw [show seesRest (MNode.text t :: tl) = seesRest tl from rfl]
          exact hτ)) with ⟨p3, hl⟩
      refine ⟨p3, ?_⟩
      rw [serializeChildren_cons, serializeText_data, List.append_assoc]
      exact childrenLoop_step_text fuelE m2 st avoid (!st.isEmpty) _ pos
        (.text t) tl _ rest (pos + t.data.length) p3 htxt hl
  | .comment t :: tl, st, avoid, m, fuelE, rest, pos, hser, hent, hm, hfe,
      hrest, hsee => by
    cases m with
    | zero => exact absurd hm (by omega)
    | succ m2 =>
      unfold serializableList at hser
      rcases Bool.and_eq_true_iff.mp hser with ⟨h123, hrec⟩
      rcases Bool.and_eq_true_iff.mp h123 with ⟨h12, _⟩
      rcases Bool.and_eq_true_iff.mp h12 with ⟨h1, _⟩
      have hok : commentOk t = true := h1
      have halt := cdataCommentAlt_comment (!st.isEmpty) t
        ((serializeChildren tl false).data ++ rest) pos hok
      rcases elementP_fail_bang fuelE st
        ('-' :: '-' :: (t.data ++ '-' :: '-' :: '>' ::
          ((serializeChildren tl false).data ++ rest))) pos
        with ⟨f0, hf0⟩
      rcases reparse_list tl st avoid m2 fuelE rest
        (pos + 4 + t.data.length + 3) hrec hent (by simp at hm; omega)
        (fun n hn => hfe n (List.mem_cons_of_mem _ hn)) hrest
        (fun τ hτ => hsee τ (by
          rw [show seesRest (MNode.comment t :: tl) = seesRest tl
            from rfl]
          exact hτ)) with ⟨p3, hl⟩
      refine ⟨p3, ?_⟩
      rw [serializeChildren_cons, serializeComment_data]
      simp only [List.cons_append, List.append_assoc, List.nil_append]
      exact childrenLoop_step_alt fuelE m2 st avoid (!st.isEmpty) _ pos
        (.comment t) tl _ rest (pos + 4 + t.data.length + 3) p3 f0
        (textP_fail_lt _ pos)
        (avoid_guard_sym avoid '!' _ (by decide) hent) hf0 halt hl
  | .cdata t :: tl, st, avoid, m, fuelE, rest, pos, hser, hent, hm, hfe,
      hrest, hsee => by
    cases m with
    | zero => exact absurd hm (by omega)
    | succ m2 =>
      unfold serializableList at hser
      rcases Bool.and_eq_true_iff.mp hser with ⟨h123, hrec⟩
      rcases Bool.and_eq_true_iff.mp h123 with ⟨h12, _⟩
      rcases Bool.and_eq_true_iff.mp h12 with ⟨h1, _⟩
      unfold serializableNode at h1
      rcases Bool.and_eq_true_iff.mp h1 with ⟨hfc, hbody⟩
      have halt2 : cdataCommentAlt (!st.isEmpty)
          ('<' :: '!' :: '[' :: 'C' :: 'D' :: 'A' :: 'T' :: 'A' :: '[' ::
            (t.data ++ ']' :: ']' :: '>' ::
              ((serializeChildren tl false).data ++ rest))) pos
          = .ok (.cdata t,
              (serializeChildren tl false).data ++ rest,
              pos + 9 + t.data.length + 3) := by
        rw [hfc]
        exact cdataCommentAlt_cdata t
          ((serializeChildren tl false).data ++ rest) pos hbody
      rcases elementP_fail_bang fuelE st
        ('[' :: 'C' :: 'D' :: 'A' :: 'T' :: 'A' :: '[' ::
          (t.data ++ ']' :: ']' :: '>' ::
            ((serializeChildren tl false).data ++ rest))) pos
        with ⟨f0, hf0⟩
      rcases reparse_list tl st avoid m2 fuelE rest
        (pos + 9 + t.data.length + 3) hrec hent (by simp at hm; omega)
        (fun n hn => hfe n (List.mem_cons_of_mem _ hn)) hrest
        (fun τ hτ => hsee τ (by
          rw [show seesRest (MNode.cdata t :: tl) = seesRest tl
            from rfl]
          exact hτ)) with ⟨p3, hl⟩
      refine ⟨p3, ?_⟩
      rw [serializeChildren_cons, serializeCdata_data]
      simp only [List.cons_append, List.append_assoc, List.nil_append]
      exact childrenLoop_step_alt fuelE m2 st avoid (!st.isEmpty) _ pos
        (.cdata t) tl _ rest (pos + 9 + t.data.length + 3) p3 f0
        (textP_fail_lt _ pos)
        (avoid_guard_sym avoid '!' _ (by decide) hent) hf0 halt2 hl
  | .element ctag ck ca cch csc :: tl, st, avoid, m, fuelE, rest, pos,
      hser, hent, hm, hfe, hrest, hsee => by
    cases m with
    | zero => exact absurd hm (by omega)
    | succ m2 =>
    cases fuelE with
    | zero =>
      exact absurd (hfe (.element ctag ck ca cch csc)
        (List.mem_cons_self _ _)) (by omega)
    | succ fE =>
    unfold serializableList at hser
    rcases Bool.and_eq_true_iff.mp hser with ⟨h123, hrec⟩
    rcases Bool.and_eq_true_iff.mp h123 with ⟨h12, _⟩
    rcases Bool.and_eq_true_iff.mp h12 with ⟨h1, hguard⟩
    unfold serializableNode at h1
    rcases Bool.and_eq_true_iff.mp h1 with ⟨h1abc, hbody⟩
    rcases Bool.and_eq_true_iff.mp h1abc with ⟨h1ab, hattrs⟩
    rcases Bool.and_eq_true_iff.mp h1ab with ⟨htagOk, hkd⟩
    have hkind : kindOf (!st.isEmpty) ctag = ck :=
      (of_decide_eq_true hkd).symm
    have hfeH := hfe (.element ctag ck ca cch csc)
      (List.mem_cons_self _ _)
    have hfeT : ∀ n ∈ tl,
        (serializeNode n false).data.length < Nat.succ fE :=
      fun n hn => hfe n (List.mem_cons_of_mem _ hn)
    have hmT : tl.length < m2 := by simp at hm; omega
    cases csc with
    | true =>
      have hb2 : (decide (ck = ElementKind.VOID) && cch.isEmpty)
          = true := hbody
      rcases Bool.and_eq_true_iff.mp hb2 with ⟨hvd, hemp⟩
      have hck : ck = .VOID := of_decide_eq_true hvd
      subst hck
      have hcch : cch = [] := isEmpty_eq_nil hemp
      subst hcch
      have hTL : (∀ τ ∈ seesRest tl, voidEndCheck τ rest = false) ∧
          voidEndCheck ctag
            ((serializeChildren tl false).data ++ rest) = false := by
        rcases tl with _ | ⟨n2, tl2⟩
        · refine ⟨?_, ?_⟩
          · intro τ hτ
            exact absurd hτ (List.not_mem_nil τ)
          · rw [serializeChildren_nil, List.nil_append]
            refine hsee ctag ?_
            rw [show seesRest [MNode.element ctag ElementKind.VOID ca []
              true] = [ctag] from rfl]
            exact List.mem_cons_self _ _
        · by_cases hn2t : ∃ s, n2 = MNode.text s
          · rcases hn2t with ⟨t2, he2⟩
            subst he2
            have hser2 := serializableList_mem (.text t2 :: tl2)
              (.text t2) hrec (List.mem_cons_self _ _)
            unfold serializableNode at hser2
            rcases Bool.and_eq_true_iff.mp hser2 with ⟨h2e, h2l⟩
            have hlt2 : t2.data.contains '<' = false :=
              bool_not_true h2l
            rcases tl2 with _ | ⟨n3, tl3⟩
            · refine ⟨?_, ?_⟩
              · intro τ hτ
                rw [show seesRest [MNode.text t2] = ([] : List String)
                  from rfl] at hτ
                exact absurd hτ (List.not_mem_nil τ)
              · rcases hws : wsOnly t2 with _ | _
                · rw [serializeChildren_cons, serializeText_data,
                    serializeChildren_nil, List.append_nil]
                  exact voidEndCheck_text ctag t2 rest hlt2 hws
                · rw [serializeChildren_cons, serializeText_data,
                    serializeChildren_nil, List.append_nil,
                    voidEndCheck_ws ctag t2 rest hws]
                  refine hsee ctag ?_
                  rw [show seesRest (MNode.element ctag ElementKind.VOID
                    ca [] true :: .text t2 :: [])
                    = if wsOnly t2 = true then [ctag] else [] from rfl,
                    if_pos hws]
                  exact List.mem_cons_self _ _
            · have hn3 : ∀ s, n3 ≠ MNode.text s := by
                intro s he3
                subst he3
                unfold serializableList at hrec
                have hadj2 := (Bool.and_eq_true_iff.mp
                  ((Bool.and_eq_true_iff.mp hrec).1)).2
                exact Bool.noConfusion hadj2
              rcases serializedNode_head2 (!st.isEmpty) n3
                (serializableList_mem (.text t2 :: n3 :: tl3) n3 hrec
                  (List.mem_cons_of_mem _ (List.mem_cons_self _ _)))
                hn3 with ⟨c4, w4, hh4, hcc⟩
              have hnsl : c4 ≠ '/' := by
                rcases hcc with he4 | hl4
                · subst he4
                  decide
                · intro he4
                  subst he4
                  exact absurd hl4 (by decide)
              refine ⟨?_, ?_⟩
              · intro τ hτ
                refine hsee τ ?_
                rw [show seesRest (MNode.element ctag ElementKind.VOID
                  ca [] true :: .text t2 :: n3 :: tl3)
                  = seesRest (n3 :: tl3) from rfl]
                rw [show seesRest (MNode.text t2 :: n3 :: tl3)
                  = seesRest (n3 :: tl3) from rfl] at hτ
                exact hτ
              · rcases hws : wsOnly t2 with _ | _
                · rw [serializeChildren_cons, serializeText_data,
                    List.append_assoc]
                  exact voidEndCheck_text ctag t2 _ hlt2 hws
                · rw [serializeChildren_cons, serializeText_data,
                    List.append_assoc, voidEndCheck_ws ctag t2 _ hws,
                    serializeChildren_cons, hh4, List.cons_append,
                    List.cons_append, List.append_assoc]
                  exact voidEndCheck_not_slash ctag c4 _ hnsl
          · have hn2 : ∀ s, n2 ≠ MNode.text s :=
              fun s he => hn2t ⟨s, he⟩
            have htrans : seesRest (MNode.element ctag ElementKind.VOID
                ca [] true :: n2 :: tl2) = seesRest (n2 :: tl2) := by
              cases n2 with
              | text s => exact absurd rfl (hn2 s)
              | comment s => rfl
              | cdata s => rfl
              | element q1 q2 q3 q4 q5 => rfl
            rcases serializedNode_head2 (!st.isEmpty) n2
              (serializableList_mem (n2 :: tl2) n2 hrec
                (List.mem_cons_self _ _)) hn2 with ⟨c4, w4, hh4, hcc⟩
            have hnsl : c4 ≠ '/' := by
              rcases hcc with he4 | hl4
              · subst he4
                decide
              · intro he4
                subst he4
                exact absurd hl4 (by decide)
            refine ⟨?_, ?_⟩
            · intro τ hτ
              refine hsee τ ?_
              rw [htrans]
              exact hτ
            · rw [serializeChildren_cons, hh4, List.cons_append,
                List.cons_append, List.append_assoc]
              exact voidEndCheck_not_slash ctag c4 _ hnsl
      rcases elementP_void st ctag ca fE
        ((serializeChildren tl false).data ++ rest) pos htagOk hattrs
        hkind hTL.2 with ⟨p1, helem⟩
      rcases reparse_list tl st avoid m2 (Nat.succ fE) rest p1 hrec hent
        hmT hfeT hrest hTL.1 with ⟨p3, hl⟩
      rcases attrsString_head ca hattrs
        ((serializeChildren tl false).data ++ rest)
        with ⟨c1, w1, heq1, hcls1⟩
      have hguard2 := avoid_guard_elem avoid ctag c1 w1 hent hguard hcls1
      rw [← heq1] at hguard2
      refine ⟨p3, ?_⟩
      rw [serializeChildren_cons, serializeElement_sc_data]
      simp only [List.cons_append, List.append_assoc,
        List.singleton_append, List.nil_append]
      exact childrenLoop_step_elem (Nat.succ fE) m2 st avoid
        (!st.isEmpty) _ pos (.element ctag .VOID ca [] true) tl
        ((serializeChildren tl false).data ++ rest) rest p1 p3
        (textP_fail_lt _ pos) hguard2 helem hl
    | false =>
      have hseetl : ∀ τ ∈ seesRest tl, voidEndCheck τ rest = false := by
        intro τ hτ
        refine hsee τ ?_
        rw [show seesRest (MNode.element ctag ck ca cch false :: tl)
          = seesRest tl from rfl]
        exact hτ
      rcases attrsString_head ca hattrs
        ((serializeChildren cch false).data ++ '<' :: '/' ::
          (ctag.data ++ '>' ::
            ((serializeChildren tl false).data ++ rest)))
        with ⟨c1, w1, heq1, hcls1⟩
      have hguard2 := avoid_guard_elem avoid ctag c1 w1 hent hguard hcls1
      rw [← heq1] at hguard2
      cases ck
      case VOID => exact Bool.noConfusion hbody
      case RAW_TEXT =>
        (have hch : cch = [] ∨ ∃ t2, cch = [.text t2] ∧
            t2.data.isEmpty = false ∧ rawBodyOk ctag t2 = true := by
          rcases cch with _ | ⟨c1n, cch2⟩
          · exact Or.inl rfl
          · cases c1n with
            | text tt =>
              rcases cch2 with _ | ⟨x, y⟩
              · rcases Bool.and_eq_true_iff.mp hbody with ⟨hb1, hb2⟩
                exact Or.inr ⟨tt, rfl, bool_not_true hb1, hb2⟩
              · exact Bool.noConfusion hbody
            | comment tt => exact Bool.noConfusion hbody
            | cdata tt => exact Bool.noConfusion hbody
            | element q1 q2 q3 q4 q5 => exact Bool.noConfusion hbody
         rcases elementP_raw st ctag _ ca cch fE
           ((serializeChildren tl false).data ++ rest) pos htagOk hattrs
           hkind (by first | exact Or.inl rfl | exact Or.inr rfl) hch
           with ⟨p1, helem⟩
         rcases reparse_list tl st avoid m2 (Nat.succ fE) rest p1 hrec
           hent hmT hfeT hrest hseetl with ⟨p3, hl⟩
         refine ⟨p3, ?_⟩
         rw [serializeChildren_cons, serializeElement_data]
         simp only [List.cons_append, List.append_assoc,
           List.singleton_append, List.nil_append]
         exact childrenLoop_step_elem (Nat.succ fE) m2 st avoid
           (!st.isEmpty) _ pos (.element ctag _ ca cch false) tl
           ((serializeChildren tl false).data ++ rest) rest p1 p3
           (textP_fail_lt _ pos) hguard2 helem hl)
      case ESCAPABLE_RAW_TEXT =>
        (have hch : cch = [] ∨ ∃ t2, cch = [.text t2] ∧
            t2.data.isEmpty = false ∧ rawBodyOk ctag t2 = true := by
          rcases cch with _ | ⟨c1n, cch2⟩
          · exact Or.inl rfl
          · cases c1n with
            | text tt =>
              rcases cch2 with _ | ⟨x, y⟩
              · rcases Bool.and_eq_true_iff.mp hbody with ⟨hb1, hb2⟩
                exact Or.inr ⟨tt, rfl, bool_not_true hb1, hb2⟩
              · exact Bool.noConfusion hbody
            | comment tt => exact Bool.noConfusion hbody
            | cdata tt => exact Bool.noConfusion hbody
            | element q1 q2 q3 q4 q5 => exact Bool.noConfusion hbody
         rcases elementP_raw st ctag _ ca cch fE
           ((serializeChildren tl false).data ++ rest) pos htagOk hattrs
           hkind (by first | exact Or.inl rfl | exact Or.inr rfl) hch
           with ⟨p1, helem⟩
         rcases reparse_list tl st avoid m2 (Nat.succ fE) rest p1 hrec
           hent hmT hfeT hrest hseetl with ⟨p3, hl⟩
         refine ⟨p3, ?_⟩
         rw [serializeChildren_cons, serializeElement_data]
         simp only [List.cons_append, List.append_assoc,
           List.singleton_append, List.nil_append]
         exact childrenLoop_step_elem (Nat.succ fE) m2 st avoid
           (!st.isEmpty) _ pos (.element ctag _ ca cch false) tl
           ((serializeChildren tl false).data ++ rest) rest p1 p3
           (textP_fail_lt _ pos) hguard2 helem hl)
      all_goals (
        rcases Bool.and_eq_true_iff.mp hbody with ⟨hserc, hseesc⟩
        rw [child_fc_eq st ctag] at hserc
        rw [serializeElement_length] at hfeH
        have hcount := serializable_count_le _ (avoidTags ctag) cch hserc
        have hfeC : ∀ n ∈ cch,
            (serializeNode n false).data.length < fE := by
          intro n hn
          have h5 := serializeChildren_mem_le n cch hn
          omega
        have hmC : cch.length <
            ((serializeChildren cch false).data ++ '<' :: '/' ::
              (ctag.data ++ '>' ::
                ((serializeChildren tl false).data ++ rest))).length
              + 1 := by
          rw [List.length_append]
          omega
        have hseeC : ∀ τ ∈ seesRest cch, voidEndCheck τ
            ('<' :: '/' :: (ctag.data ++ '>' ::
              ((serializeChildren tl false).data ++ rest))) = false := by
          intro τ hτ
          rcases seesRest_sub cch τ hτ with ⟨k4, a4, ch4, s4, hm4⟩
          have hsn := serializableList_mem cch _ hserc hm4
          unfold serializableNode at hsn
          have htok := (Bool.and_eq_true_iff.mp
            ((Bool.and_eq_true_iff.mp
              ((Bool.and_eq_true_iff.mp hsn).1)).1)).1
          have hne4 : ciEqB τ ctag = false := by
            have h6 := List.all_eq_true.mp hseesc τ hτ
            simpa using h6
          exact voidEndCheck_endtag τ ctag _ hne4 (tagOk_no_gt htok)
            (tagOk_no_gt htagOk)
        rcases elementP_nonvoid st ctag _ ca cch fE
          ((serializeChildren tl false).data ++ rest) pos htagOk hattrs
          hkind (by intro hX; exact ElementKind.noConfusion hX)
          (by intro hX; exact ElementKind.noConfusion hX)
          (by intro hX; exact ElementKind.noConfusion hX)
          (fun q => reparse_list cch
            (if ctag = "svg" || ctag = "math" then ctag :: st else st)
            (avoidTags ctag)
            (((serializeChildren cch false).data ++ '<' :: '/' ::
              (ctag.data ++ '>' ::
                ((serializeChildren tl false).data ++ rest))).length
              + 1)
            fE
            ('<' :: '/' :: (ctag.data ++ '>' ::
              ((serializeChildren tl false).data ++ rest))) q
            hserc (avoidTags_entries ctag) hmC hfeC
            (Or.inr ⟨_, rfl⟩) hseeC)
          with ⟨p1, helem⟩
        rcases reparse_list tl st avoid m2 (Nat.succ fE) rest p1 hrec
          hent hmT hfeT hrest hseetl with ⟨p3, hl⟩
        refine ⟨p3, ?_⟩
        rw [serializeChildren_cons, serializeElement_data]
        simp only [List.cons_append, List.append_assoc,
          List.singleton_append, List.nil_append]
        exact childrenLoop_step_elem (Nat.succ fE) m2 st avoid
          (!st.isEmpty) _ pos (.element ctag _ ca cch false) tl
          ((serializeChildren tl false).data ++ rest) rest p1 p3
          (textP_fail_lt _ pos) hguard2 helem hl)

/-- `parseFragments` is the first component of the fragments parser run
on the fresh stack. -/
theorem parseFragments_eq (x : String) :
    parseFragments x = (fragmentsP [] x.toList).1 := rfl

/-- Parsing the printed form of a serializable fragment returns the
fragment itself. -/
theorem reparse_fragments (ns : MFragment)
    (hser : serializableList false [] ns = true) :
    parseFragments (serializeFragments ns false) = ns := by
  have hser2 : serializableList (!(([] : Stack)).isEmpty) [] ns = true :=
    hser
  have hcount := serializable_count_le false [] ns hser
  rcases reparse_list ns [] []
      ((serializeChildren ns false).data.length + 1)
      ((serializeChildren ns false).data.length + 1) [] 0 hser2 rfl
      (by omega)
      (fun n hn => by
        have h5 := serializeChildren_mem_le n ns hn
        omega)
      (Or.inl rfl) (fun τ _ => voidEndCheck_nil τ)
    with ⟨p2, hloop⟩
  rw [List.append_nil] at hloop
  have he : parseFragments (serializeFragments ns false)
      = (childrenLoop
          (elementP ((serializeChildren ns false).data.length + 1))
          ((serializeChildren ns false).data.length + 1) []
          [] (!(([] : Stack)).isEmpty)
          ((serializeChildren ns false).data) 0).1 := rfl
  rw [he, hloop]

/-- C3: for every input string whose parse is a serializable fragment,
printing that parse and re-parsing returns the same fragment —
`parseFragments (serializeFragments (parseFragments x)) = parseFragments
x`.  (The unconditional claim is refuted by `c3_counterexample`: a printed
self-closing foreign element loses its slash and the re-parse rejects the
spurious end tag.) -/
theorem c3_print_parse_idempotent_amended (x : String)
    (h : serializableList false [] (parseFragments x) = true) :
    parseFragments (serializeFragments (parseFragments x) false)
      = parseFragments x :=
  reparse_fragments (parseFragments x) h

/-- Witness for C3 at the concrete input `<p>hi</p>`. -/
theorem c3_print_parse_idempotent_amended_witness :
    serializableList false [] (parseFragments "<p>hi</p>") = true ∧
    parseFragments (serializeFragments (parseFragments "<p>hi</p>")
        false)
      = parseFragments "<p>hi</p>" :=
  ⟨by decide, c3_print_parse_idempotent_amended "<p>hi</p>" (by decide)⟩

/-- C1: on the serializer's image of serializable fragments, parsing
inverts printing — for every serializable fragment `T`, parsing
`serializeFragments T` and printing the result returns exactly
`serializeFragments T`.  (The original raw-input formulation is refuted
by `c1_counterexample`: parsing normalizes start-tag whitespace that the
three stated conditions do not exclude.) -/
theorem c1_serialize_parse_roundtrip_amended (T : MFragment)
    (h : serializableList false [] T = true) :
    serializeFragments (parseFragments (serializeFragments T false))
        false
      = serializeFragments T false :=
  congrArg (fun ns => serializeFragments ns false)
    (reparse_fragments T h)

/-- Witness for C1 at a concrete one-element fragment. -/
theorem c1_serialize_parse_roundtrip_amended_witness :
    serializableList false []
      [MNode.element "div" .NORMAL [("id", "x")] [.text "hi"] false]
      = true ∧
    serializeFragments (parseFragments (serializeFragments
        [MNode.element "div" .NORMAL [("id", "x")] [.text "hi"] false]
        false)) false
      = serializeFragments
        [MNode.element "div" .NORMAL [("id", "x")] [.text "hi"] false]
        false :=
  ⟨by decide, c1_serialize_parse_roundtrip_amended
    [MNode.element "div" .NORMAL [("id", "x")] [.text "hi"] false]
    (by decide)⟩

end HtmlCrunch
